import Mathlib

/-!
Verification development for the cross-process TTS announcement subsystem:
the file-lock queue (`acquireLock` / `releaseLock` / `speakWithLock`), the
text normalizer (`normalizeTTSText`), the provider resolver
(`resolveTTSProvider`), the speech backends' error propagation, and the
activity log appender (`appendToJsonLog`).

The embedding is character-level and executable: strings are `String` /
`List Char`, machine loops are modelled with explicit fuel, wall-clock time
and cross-process filesystem interference are oracles, and the shared lock
file is an `Option String` (its content; `none` means absent).
-/

namespace Hooks

/-! ## Character classes (JavaScript regex semantics, ASCII)

Character tests are phrased on `Char.toNat` so that proofs about character
classes reduce to linear arithmetic. -/

/-- Whitespace as matched by the JavaScript `\s` class and by `trim()`
(restricted to the ASCII range used in this code base). -/
def jsWs (c : Char) : Bool :=
  c.toNat == 32 || c.toNat == 9 || c.toNat == 10 || c.toNat == 13 ||
    c.toNat == 11 || c.toNat == 12

/-- Decimal digit `0`-`9`. -/
def isDigitChar (c : Char) : Bool :=
  48 ≤ c.toNat && c.toNat ≤ 57

/-- ASCII letter. -/
def isLetterChar (c : Char) : Bool :=
  (65 ≤ c.toNat && c.toNat ≤ 90) || (97 ≤ c.toNat && c.toNat ≤ 122)

/-- Lower-case ASCII letter. -/
def isLowerChar (c : Char) : Bool :=
  97 ≤ c.toNat && c.toNat ≤ 122

/-- JavaScript word character `\w` = `[A-Za-z0-9_]`; used by `\b`. -/
def isWordChar (c : Char) : Bool :=
  isDigitChar c || isLetterChar c || c.toNat == 95

/-- Hex digit as matched by `[0-9a-f]` under the `i` flag. -/
def isHexChar (c : Char) : Bool :=
  isDigitChar c || (97 ≤ c.toNat && c.toNat ≤ 102) || (65 ≤ c.toNat && c.toNat ≤ 70)

/-- Hex letter `[a-f]` under the `i` flag (used by the digit-and-letter test). -/
def isHexLetterChar (c : Char) : Bool :=
  (97 ≤ c.toNat && c.toNat ≤ 102) || (65 ≤ c.toNat && c.toNat ≤ 70)

/-- Lower-case hex digit `[0-9a-f]` (the claim's hex-string input family). -/
def isHexLowerChar (c : Char) : Bool :=
  isDigitChar c || (97 ≤ c.toNat && c.toNat ≤ 102)

/-- ASCII lower-casing, as applied by the WHATWG URL parser to hostnames. -/
def jsToLowerChar (c : Char) : Char :=
  if 65 ≤ c.toNat && c.toNat ≤ 90 then Char.ofNat (c.toNat + 32) else c

/-- JavaScript `String.prototype.trim()` on a character list. -/
def jsTrim (l : List Char) : List Char :=
  ((l.dropWhile jsWs).reverse.dropWhile jsWs).reverse

/-! ## JavaScript `parseInt(_, 10)` -/

/-- Numeric value of a digit character. -/
def digitVal (c : Char) : Nat := c.toNat - 48

/-- Value of the leading run of decimal digits; `none` when there is none
(this is the `NaN` case of `parseInt`). -/
def parseDigits (l : List Char) : Option Nat :=
  let ds := l.takeWhile isDigitChar
  if ds.isEmpty then none
  else some (ds.foldl (fun a c => 10 * a + digitVal c) 0)

/-- JavaScript `parseInt(s, 10)` on an (already trimmed) character list:
optional sign, then the longest leading digit run; `none` models `NaN`. -/
def parseIntJs (l : List Char) : Option Int :=
  match l with
  | [] => none
  | c :: rest =>
    if c = '-' then (parseDigits rest).map (fun n => -(n : Int))
    else if c = '+' then (parseDigits rest).map (fun n => (n : Int))
    else (parseDigits (c :: rest)).map (fun n => (n : Int))

/-- The `parseInt(content.trim(), 10)` idiom used on lock-file content. -/
def parsePid (s : String) : Option Int :=
  parseIntJs (jsTrim s.toList)

/-! ## Decimal rendering of a process id (`String(process.pid)`) -/

/-- The character of a single decimal digit. -/
def natDigitChar (d : Nat) : Char :=
  match d with
  | 0 => '0' | 1 => '1' | 2 => '2' | 3 => '3' | 4 => '4'
  | 5 => '5' | 6 => '6' | 7 => '7' | 8 => '8' | _ => '9'

/-- Decimal digit characters of a natural number, most significant first
(fuel-based so that terms reduce; `n` itself is always enough fuel). -/
def natDecCharsGo : Nat → Nat → List Char
  | 0, n => [natDigitChar (n % 10)]
  | fuel + 1, n =>
    if n < 10 then [natDigitChar n]
    else natDecCharsGo fuel (n / 10) ++ [natDigitChar (n % 10)]

/-- Decimal digit characters of a natural number. -/
def natDecChars (n : Nat) : List Char := natDecCharsGo n n

/-- The decimal string a process writes into the lock file
(`String(process.pid)`). -/
def pidString (p : Nat) : String := String.mk (natDecChars p)

/-! ## The TTS text normalizer (`lib/tts/normalizer.ts`)

Each of the six global regex replacements of `normalizeTTSText` is modelled
by a left-to-right scanner over `List Char` that reproduces the JavaScript
`String.replace(/re/g, cb)` semantics for that particular pattern: find the
leftmost match, substitute the callback's result, continue scanning after
the match (replacements are never rescanned within the same pass), and on a
failed match attempt advance one character. Loops carry explicit fuel; when
fuel runs out the remaining input is returned unchanged (entry points pass
enough fuel for the whole input). -/

/-- Characters that terminate a URL match: the class `[^\s,)}\]]` excludes
whitespace, `,` (44), `)` (41), `\x7d` (125) and `]` (93). -/
def urlDelim (c : Char) : Bool :=
  jsWs c || c.toNat == 44 || c.toNat == 41 || c.toNat == 125 || c.toNat == 93

/-- Split a leading `https?://` scheme off a character list (the regex tries
the longer `https://` first, as the greedy `s?` does). -/
def schemeSplit (l : List Char) : Option (List Char × List Char) :=
  if List.isPrefixOf "https://".toList l then some ("https://".toList, l.drop 8)
  else if List.isPrefixOf "http://".toList l then some ("http://".toList, l.drop 7)
  else none

/-- Drop everything up to and including the last `@` (64): the WHATWG host
starts after the userinfo. -/
def afterLastAt (l : List Char) : List Char :=
  (l.reverse.takeWhile (fun c => !(c.toNat == 64))).reverse

/-- Modelled from the platform `new URL(url).hostname` builtin (WHATWG URL
parser, not part of this repository's sources) for `http(s)` URLs: the
authority runs to the first `/` (47), `?` (63) or `#` (35); the host starts
after the last `@`; a `[`-bracketed IPv6 literal is kept whole; otherwise
the hostname is the part before the `:` (58) port separator, lower-cased.
`none` models the constructor throwing (empty host, non-numeric port). -/
def urlHostname (m : List Char) : Option (List Char) :=
  match schemeSplit m with
  | none => none
  | some (_, rest) =>
    let auth := rest.takeWhile (fun c => !(c.toNat == 47 || c.toNat == 63 || c.toNat == 35))
    if auth.isEmpty then none
    else
      let hostPort := afterLastAt auth
      if hostPort.head? = some '[' then
        if hostPort.contains ']' then
          some (hostPort.takeWhile (fun c => !(c.toNat == 93)) ++ [']'])
        else none
      else
        let host := hostPort.takeWhile (fun c => !(c.toNat == 58))
        let port := hostPort.drop (host.length + 1)
        if host.isEmpty then none
        else if port.all isDigitChar then some (host.map jsToLowerChar)
        else none

/-- Remove the first `https?://` occurrence (`url.replace(/https?:\/\//, '')`);
inside `simplifyUrl` the argument always starts with the scheme. -/
def stripScheme (m : List Char) : List Char :=
  match schemeSplit m with
  | some (_, rest) => rest
  | none => m

/-- Spell `.` (46) as `" dot "` (`host.replace(/\./g, ' dot ')`). -/
def expandDots : List Char → List Char
  | [] => []
  | c :: rest =>
    if c.toNat == 46 then ' ' :: 'd' :: 'o' :: 't' :: ' ' :: expandDots rest
    else c :: expandDots rest

/-- Strip a leading `www.` (`host.replace(/^www\./, '')`). -/
def stripWww (host : List Char) : List Char :=
  if List.isPrefixOf "www.".toList host then host.drop 4 else host

/-- Translation of `simplifyUrl`: on a parsable URL, the de-`www`ed hostname
with dots spoken; on a parse failure, the scheme-stripped text up to the
first `/`. -/
def simplifyUrl (m : List Char) : List Char :=
  match urlHostname m with
  | some hostname => expandDots (stripWww hostname)
  | none => (stripScheme m).takeWhile (fun c => !(c.toNat == 47))

/-- Pass 1 scanner: `/https?:\/\/[^\s,)}\]]+/g` replaced by `simplifyUrl`. -/
def pass1Go : Nat → List Char → List Char
  | 0, l => l
  | _ + 1, [] => []
  | fuel + 1, c :: rest =>
    match schemeSplit (c :: rest) with
    | some (sch, after) =>
      let body := after.takeWhile (fun x => !urlDelim x)
      if body.isEmpty then c :: pass1Go fuel rest
      else simplifyUrl (sch ++ body) ++ pass1Go fuel (after.drop body.length)
    | none => c :: pass1Go fuel rest

/-- Pass 1 entry point. -/
def pass1 (l : List Char) : List Char := pass1Go (l.length + 1) l

/-- One path segment of pass 2: `[^\s/]+` (47 = `/`). -/
def seg2take (l : List Char) : List Char :=
  l.takeWhile (fun c => !(jsWs c || c.toNat == 47))

/-- Greedy parse of `(?:[^\s/]+\/)*`: repetition count, consumed characters
(each repetition with its trailing slash), and the remainder. -/
def parseReps2 : Nat → List Char → Nat × List Char × List Char
  | 0, l => (0, [], l)
  | fuel + 1, l =>
    let sg := seg2take l
    if sg.isEmpty then (0, [], l)
    else
      match l.drop sg.length with
      | '/' :: r2 =>
        match parseReps2 fuel r2 with
        | (n, cons, rest) => (n + 1, sg ++ '/' :: cons, rest)
      | _ => (0, [], l)

/-- Match attempt for pass 2 at a position just after a leading `/`:
`\/(?:[^\s/]+\/){2,}[^\s/]+`. Returns the match (with its leading slash)
and the remainder. When the final `[^\s/]+` is empty the greedy `{2,}` group
backtracks one repetition, whose segment then serves as the final one. -/
def tryMatch2 (l : List Char) : Option (List Char × List Char) :=
  let x := parseReps2 (l.length + 1) l
  let fin := seg2take x.2.2
  if fin.isEmpty then
    if 3 ≤ x.1 then some ('/' :: x.2.1.dropLast, '/' :: x.2.2) else none
  else
    if 2 ≤ x.1 then some ('/' :: x.2.1 ++ fin, x.2.2.drop fin.length) else none

/-- `m.split(sep)` on characters. -/
def splitOnChar (sep : Char) : List Char → List (List Char)
  | [] => [[]]
  | c :: rest =>
    match splitOnChar sep rest with
    | [] => [[]]
    | h :: t => if c == sep then [] :: h :: t else (c :: h) :: t

/-- `segments.join('/')`. -/
def joinSlash : List (List Char) → List Char
  | [] => []
  | [s] => s
  | s :: rest => s ++ '/' :: joinSlash rest

/-- Translation of `simplifyPath`: split on `/`, drop empty segments; with
two or fewer segments re-join them; otherwise keep the filename when it has
a dot, else `parent/file`. -/
def simplifyPath (m : List Char) : List Char :=
  let segments := (splitOnChar '/' m).filter (fun s => !s.isEmpty)
  if segments.length ≤ 2 then joinSlash segments
  else
    let file := segments.getLastD []
    let parent := segments.dropLast.getLastD []
    if file.contains '.' then file else parent ++ '/' :: file

/-- Pass 2 scanner: absolute paths `/(?:[^\s/]+\/){2,}[^\s/]+` replaced by
`simplifyPath`. -/
def pass2Go : Nat → List Char → List Char
  | 0, l => l
  | _ + 1, [] => []
  | fuel + 1, c :: rest =>
    if c == '/' then
      match tryMatch2 rest with
      | some (m, rest2) => simplifyPath m ++ pass2Go fuel rest2
      | none => c :: pass2Go fuel rest
    else c :: pass2Go fuel rest

/-- Pass 2 entry point. -/
def pass2 (l : List Char) : List Char := pass2Go (l.length + 1) l

/-- Pass 3 segment character class `[a-zA-Z0-9_.-]` (95 `_`, 46 `.`, 45 `-`). -/
def chset3 (c : Char) : Bool :=
  isLetterChar c || isDigitChar c || c.toNat == 95 || c.toNat == 46 || c.toNat == 45

/-- The `(?<![:\w])` lookbehind: fails when the previous character is `:`
(58) or a word character; start of input passes. -/
def lookbehind3Ok : Option Char → Bool
  | none => true
  | some p => !(isWordChar p || p.toNat == 58)

/-- Greedy parse of `(?:[a-zA-Z0-9_.-]+\/)*` for pass 3. -/
def parseReps3 : Nat → List Char → Nat × List Char × List Char
  | 0, l => (0, [], l)
  | fuel + 1, l =>
    let sg := l.takeWhile chset3
    if sg.isEmpty then (0, [], l)
    else
      match l.drop sg.length with
      | '/' :: r2 =>
        match parseReps3 fuel r2 with
        | (n, cons, rest) => (n + 1, sg ++ '/' :: cons, rest)
      | _ => (0, [], l)

/-- Match attempt for pass 3: `(?:[a-zA-Z0-9_.-]+\/){2,}[a-zA-Z0-9_.-]+`
(the lookbehind is checked by the scanner). -/
def tryMatch3 (l : List Char) : Option (List Char × List Char) :=
  let x := parseReps3 (l.length + 1) l
  let fin := x.2.2.takeWhile chset3
  if fin.isEmpty then
    if 3 ≤ x.1 then some (x.2.1.dropLast, '/' :: x.2.2) else none
  else
    if 2 ≤ x.1 then some (x.2.1 ++ fin, x.2.2.drop fin.length) else none

/-- Pass 3 replacement callback: matches that split into fewer than three
non-empty segments are kept, others go through `simplifyPath`. -/
def repl3 (m : List Char) : List Char :=
  if ((splitOnChar '/' m).filter (fun s => !s.isEmpty)).length < 3 then m
  else simplifyPath m

/-- Pass 3 scanner: relative paths with lookbehind. The `prev` argument is
the previous character of the original text (JavaScript lookbehind examines
the source string, not the replacement). -/
def pass3Go : Nat → Option Char → List Char → List Char
  | 0, _, l => l
  | _ + 1, _, [] => []
  | fuel + 1, prev, c :: rest =>
    if chset3 c && lookbehind3Ok prev then
      match tryMatch3 (c :: rest) with
      | some (m, rest2) => repl3 m ++ pass3Go fuel (some (m.getLastD c)) rest2
      | none => c :: pass3Go fuel (some c) rest
    else c :: pass3Go fuel (some c) rest

/-- Pass 3 entry point. -/
def pass3 (l : List Char) : List Char := pass3Go (l.length + 1) none l

/-- `isWordChar` on an optional previous character; start of input is not a
word character. -/
def isWordOpt : Option Char → Bool
  | none => false
  | some c => isWordChar c

/-- The `\b` test after a match: the next character must be absent or not a
word character. -/
def endBoundary (l : List Char) : Bool :=
  match l.head? with
  | none => true
  | some d => !isWordChar d

/-- Pass 4 scanner: `/\b[0-9a-f]{8,}\b/gi`. A maximal hex run bounded by
word boundaries and at least 8 long is replaced by `"hash " + first six
characters` when it contains both a digit and a letter (the callback's
`/\d/` and `/[a-f]/i` tests); otherwise the callback returns the match
unchanged. Shorter prefixes of the run need not be tried: they would end in
front of a hex (word) character, failing the trailing `\b`. -/
def pass4Go : Nat → Option Char → List Char → List Char
  | 0, _, l => l
  | _ + 1, _, [] => []
  | fuel + 1, prev, c :: rest =>
    if isHexChar c && !isWordOpt prev then
      let run := (c :: rest).takeWhile isHexChar
      let rest2 := (c :: rest).drop run.length
      if 8 ≤ run.length && endBoundary rest2 then
        (if run.any isDigitChar && run.any isHexLetterChar
          then "hash ".toList ++ run.take 6 else run)
          ++ pass4Go fuel (some (run.getLastD c)) rest2
      else c :: pass4Go fuel (some c) rest
    else c :: pass4Go fuel (some c) rest

/-- Pass 4 entry point. -/
def pass4 (l : List Char) : List Char := pass4Go (l.length + 1) none l

/-- One `[a-zA-Z][a-zA-Z0-9]*`-shaped segment body for pass 5 (the caller
checks that the head is a letter). -/
def seg5take (l : List Char) : List Char :=
  l.takeWhile (fun c => isLetterChar c || isDigitChar c)

/-- Greedy parse of `(?:\.[a-zA-Z][a-zA-Z0-9]*)*`: count, segments (without
their leading dots) and remainder. -/
def parseDotSegs : Nat → List Char → Nat × List (List Char) × List Char
  | 0, l => (0, [], l)
  | fuel + 1, l =>
    match l with
    | '.' :: r =>
      match r with
      | d :: _ =>
        if isLetterChar d then
          let sg := seg5take r
          match parseDotSegs fuel (r.drop sg.length) with
          | (n, segs, rest) => (n + 1, sg :: segs, rest)
        else (0, [], l)
      | [] => (0, [], l)
    | _ => (0, [], l)

/-- Re-attach the leading dots of parsed segments. -/
def dotJoin : List (List Char) → List Char
  | [] => []
  | s :: rest => '.' :: s ++ dotJoin rest

/-- The extension and TLD alternatives of the pass 5 guard regex
`/\.(com|org|net|io|dev|js|ts|py|go|rs|java|css|html)$/i`. -/
def knownExts : List (List Char) :=
  ["com", "org", "net", "io", "dev", "js", "ts", "py", "go", "rs",
    "java", "css", "html"].map String.toList

/-- The guard test: does the (case-folded) match end in `.` followed by a
known extension? -/
def endsWithKnownExt (m : List Char) : Bool :=
  knownExts.any (fun e => List.isSuffixOf ('.' :: e) (m.map jsToLowerChar))

/-- Translation of `simplifyDottedPath`: the last `.`-separated part. -/
def simplifyDottedPath (m : List Char) : List Char :=
  (splitOnChar '.' m).getLastD []

/-- Pass 5 replacement callback. -/
def repl5 (m : List Char) : List Char :=
  if endsWithKnownExt m then m else simplifyDottedPath m

/-- Match attempt for pass 5 at a letter with a satisfied leading `\b`:
`[a-zA-Z][a-zA-Z0-9]*(?:\.[a-zA-Z][a-zA-Z0-9]*){3,}\b`. When the trailing
`\b` fails (next character is a word character) the greedy `{3,}` group
backtracks one repetition, after which the boundary lands before a dot and
always holds. -/
def tryMatch5 (l : List Char) : Option (List Char × List Char) :=
  let sg1 := seg5take l
  let afterSg := l.drop sg1.length
  let x := parseDotSegs (afterSg.length + 1) afterSg
  if endBoundary x.2.2 then
    if 3 ≤ x.1 then some (sg1 ++ dotJoin x.2.1, x.2.2) else none
  else
    if 4 ≤ x.1 then
      match x.2.1.getLast? with
      | some lastSg =>
        some (sg1 ++ dotJoin x.2.1.dropLast, '.' :: lastSg ++ x.2.2)
      | none => none
    else none

/-- Pass 5 scanner: dotted identifier paths. -/
def pass5Go : Nat → Option Char → List Char → List Char
  | 0, _, l => l
  | _ + 1, _, [] => []
  | fuel + 1, prev, c :: rest =>
    if isLetterChar c && !isWordOpt prev then
      match tryMatch5 (c :: rest) with
      | some (m, rest2) => repl5 m ++ pass5Go fuel (some (m.getLastD c)) rest2
      | none => c :: pass5Go fuel (some c) rest
    else c :: pass5Go fuel (some c) rest

/-- Pass 5 entry point. -/
def pass5 (l : List Char) : List Char := pass5Go (l.length + 1) none l

/-- Pass 6 scanner: `/  +/g` to a single space. -/
def collapseSpaces : Nat → List Char → List Char
  | 0, l => l
  | _ + 1, [] => []
  | fuel + 1, c :: rest =>
    if c == ' ' then
      match rest.head? with
      | some c2 =>
        if c2 == ' ' then ' ' :: collapseSpaces fuel (rest.dropWhile (fun x => x == ' '))
        else c :: collapseSpaces fuel rest
      | none => [c]
    else c :: collapseSpaces fuel rest

/-- Pass 6 entry point: collapse space runs, then `trim()`. -/
def pass6 (l : List Char) : List Char :=
  jsTrim (collapseSpaces (l.length + 1) l)

/-- The six passes of `normalizeTTSText`, in source order. -/
def normalizeChars (l : List Char) : List Char :=
  pass6 (pass5 (pass4 (pass3 (pass2 (pass1 l)))))

/-- Translation of `normalizeTTSText`. -/
def normalizeTTSText (s : String) : String :=
  String.mk (normalizeChars s.toList)

/-! ## The lock file (`lib/queue.ts`, symbols `acquireLock` / `releaseLock`)

The lock file is modelled by its content: `none` = file absent (unlocked),
`some s` = file present with content `s`. A run of either function also
yields the list of filesystem operations it performed, so that theorems can
speak about what was created, read and deleted. The functions give the
no-interference (single syscall sequence) semantics; cross-process
interference is introduced between calls by the polling loop's oracle. -/

/-- Filesystem / speech events performed by the queue code. -/
inductive TtsEv where
  /-- an atomic `writeFileSync(..., \x7b flag: 'wx' \x7d)` attempt and its result -/
  | wxCreate (ok : Bool)
  /-- a `readFileSync` of the lock file returning `content` -/
  | readLock (content : String)
  /-- an `unlinkSync` of the lock file from inside `acquireLock`/`releaseLock` -/
  | unlink
  /-- the escape-valve `unlinkSync` in `speakWithLock` after the max wait -/
  | forceUnlink
  /-- one `setTimeout` poll sleep -/
  | sleepPoll
  /-- a `provider.speak(text)` call; `locked` tells whether the caller held the lock -/
  | speak (locked : Bool) (text : String)
deriving DecidableEq

/-- Direct translation of `acquireLock()`:
try atomic create-if-absent; if the file exists, read it, parse the holder
pid; when the pid is unparseable (`isNaN`) or not alive, delete the file and
retry the atomic create once. Returns (acquired?, new lock state, events).
`alive` is the oracle for `isPidAlive` (`process.kill(pid, 0)`), `pid` is
`process.pid`. -/
def acquireLock (alive : Int → Bool) (pid : Nat) (fs : Option String) :
    Bool × Option String × List TtsEv :=
  match fs with
  | none =>
    -- file absent: the 'wx' create succeeds
    (true, some (pidString pid), [.wxCreate true])
  | some content =>
    -- 'wx' create fails; read and check the holding pid
    match parsePid content with
    | none =>
      -- isNaN(holdingPid): treated as stale, remove and retry creation
      (true, some (pidString pid),
        [.wxCreate false, .readLock content, .unlink, .wxCreate true])
    | some holdingPid =>
      if alive holdingPid then
        (false, some content, [.wxCreate false, .readLock content])
      else
        -- stale lock: remove and retry creation
        (true, some (pidString pid),
          [.wxCreate false, .readLock content, .unlink, .wxCreate true])

/-- Direct translation of `releaseLock()`: if the lock file exists and its
content parses to this process's own pid, delete it; otherwise leave the
filesystem unchanged. The surrounding `try/catch` makes it total. -/
def releaseLock (pid : Nat) (fs : Option String) : Option String × List TtsEv :=
  match fs with
  | none => (none, [])
  | some content =>
    if parsePid content = some (pid : Int) then
      (none, [.readLock content, .unlink])
    else
      (some content, [.readLock content])

/-- Exit status of the polling loop in `speakWithLock`. -/
inductive LoopExit where
  /-- lock acquired (`forced` = via the escape valve's final attempt) -/
  | acquired (forced : Bool)
  /-- last resort: speak without the lock -/
  | direct
deriving DecidableEq

/-- The polling loop of `speakWithLock` (`while (!acquireLock()) ...`).

`interf k` is the oracle for what other processes do to the lock file
before this process's `k`-th `acquireLock` call; `elapsed k` is
`Date.now() - startTime` at the `k`-th timeout check. `fuel` bounds the
number of loop iterations modelled (`none` = still polling after `fuel`
iterations). On a failed attempt whose elapsed time exceeds `maxWaitMs`
the loop force-deletes the lock file and makes exactly one more
`acquireLock` call, then exits one way or the other. -/
def speakLoop (alive : Int → Bool) (pid : Nat)
    (interf : Nat → Option String → Option String) (elapsed : Nat → Nat)
    (maxWaitMs : Nat) :
    Nat → Nat → Option String → Option (LoopExit × Option String × List TtsEv)
  | 0, _, _ => none
  | fuel + 1, k, fs =>
    let fs1 := interf k fs
    match acquireLock alive pid fs1 with
    | (true, fs2, tr) => some (.acquired false, fs2, tr)
    | (false, fs2, tr) =>
      if elapsed k > maxWaitMs then
        -- safety valve: force-delete, then one final acquisition attempt
        let fs3 := interf (k + 1) none
        match acquireLock alive pid fs3 with
        | (true, fs4, tr2) => some (.acquired true, fs4, tr ++ .forceUnlink :: tr2)
        | (false, fs4, tr2) => some (.direct, fs4, tr ++ .forceUnlink :: tr2)
      else
        match speakLoop alive pid interf elapsed maxWaitMs fuel (k + 1) fs2 with
        | none => none
        | some (x, fs', tr') => some (x, fs', tr ++ .sleepPoll :: tr')

/-- Direct translation of `speakWithLock(provider, text)`. The text is
normalized first; with the queue disabled in configuration the provider
speaks immediately and no lock operation happens. Otherwise the polling
loop runs; on a locked exit the provider speaks holding the lock and
`releaseLock` runs in the `finally` block (`duringSpeak` is the oracle for
what other processes do to the lock file while this process is speaking);
on the last-resort exit the provider speaks without the lock and nothing is
released. -/
def speakWithLock (alive : Int → Bool) (pid : Nat)
    (interf : Nat → Option String → Option String)
    (duringSpeak : Option String → Option String) (elapsed : Nat → Nat)
    (queueEnabled : Bool) (maxWaitMs : Nat) (text : String) (fuel : Nat)
    (fs : Option String) : Option (Option String × List TtsEv) :=
  let normalized := normalizeTTSText text
  if queueEnabled = false then some (fs, [.speak false normalized])
  else
    match speakLoop alive pid interf elapsed maxWaitMs fuel 0 fs with
    | none => none
    | some (.direct, fs', tr) => some (fs', tr ++ [.speak false normalized])
    | some (.acquired _, fs', tr) =>
      let x := releaseLock pid (duringSpeak fs')
      some (x.1, tr ++ .speak true normalized :: x.2)

/-- Number of `speak` events in a trace. -/
def speakCount (tr : List TtsEv) : Nat :=
  tr.countP (fun e => match e with | .speak _ _ => true | _ => false)

/-! ## Interleaving model of N concurrent `speakWithLock` calls (claim C1)

Each caller is a process running the `acquireLock` / `speakWithLock` /
`releaseLock` protocol against one shared lock file. Steps are at syscall
granularity: the atomic `wx` create is one step, and the stale-lock
`unlinkSync` and its retried create are two separate steps (this keeps the
documented stale-lock race window representable). The escape valve of
`speakWithLock` — force `unlinkSync`, then one final `acquireLock` — is
included as steps gated by the `force` flag, so that theorems can speak
about executions with and without it; its timing guard (`elapsed >
maxWaitMs`) is abstracted into nondeterminism. -/

/-- Per-caller control state. `holding` spans from a successful lock
acquisition to the release; `bypass` is the escape valve's unlocked speak. -/
inductive PState where
  | acquiring
  /-- between the stale-lock `unlinkSync` and its retried `wx` create -/
  | retrying
  /-- between the forced `unlinkSync` and the final `acquireLock`'s create -/
  | forceRetrying
  /-- inside the final `acquireLock`, between its stale `unlinkSync` and retry -/
  | forceRetrying2
  | holding
  /-- speaking without the lock (the final attempt failed) -/
  | bypass
  | done
deriving DecidableEq

/-- Global state: each caller's control state plus the shared lock file. -/
structure QSys (n : Nat) where
  procs : Fin n → PState
  lock : Option String

/-- Content check of the stale branch: `isNaN(holdingPid) ||
!isPidAlive(holdingPid)`. -/
def lockStale (alive : Int → Bool) (c : String) : Bool :=
  match parsePid c with
  | none => true
  | some q => !alive q

/-- One interleaved step of the protocol. `force` gates the escape valve's
steps; `alive` is the shared liveness oracle and `pid i` the OS pid of
caller `i`. -/
inductive QStep (force : Bool) (alive : Int → Bool) {n : Nat}
    (pid : Fin n → Nat) : QSys n → QSys n → Prop where
  /-- the atomic `wx` create succeeds on an absent lock file -/
  | createOk (s : QSys n) (i : Fin n) :
      s.procs i = .acquiring → s.lock = none →
      QStep force alive pid s
        ⟨fun j => if j = i then .holding else s.procs j,
          some (pidString (pid i))⟩
  /-- the create fails, the content names a live pid: poll again -/
  | pollAlive (s : QSys n) (i : Fin n) (c : String) (q : Int) :
      s.procs i = .acquiring → s.lock = some c → parsePid c = some q →
      alive q = true → QStep force alive pid s s
  /-- the create fails on stale content: `unlinkSync` it -/
  | staleUnlink (s : QSys n) (i : Fin n) (c : String) :
      s.procs i = .acquiring → s.lock = some c →
      lockStale alive c = true →
      QStep force alive pid s
        ⟨fun j => if j = i then .retrying else s.procs j, none⟩
  /-- the retried create after a stale unlink succeeds -/
  | retryOk (s : QSys n) (i : Fin n) :
      s.procs i = .retrying → s.lock = none →
      QStep force alive pid s
        ⟨fun j => if j = i then .holding else s.procs j,
          some (pidString (pid i))⟩
  /-- the retried create fails (someone recreated the file): back to polling -/
  | retryFail (s : QSys n) (i : Fin n) (c : String) :
      s.procs i = .retrying → s.lock = some c →
      QStep force alive pid s
        ⟨fun j => if j = i then .acquiring else s.procs j, s.lock⟩
  /-- escape valve: `maxWaitMs` exceeded, force-`unlinkSync` the lock file -/
  | forceUnlink (s : QSys n) (i : Fin n) :
      force = true → s.procs i = .acquiring →
      QStep force alive pid s
        ⟨fun j => if j = i then .forceRetrying else s.procs j, none⟩
  /-- the final `acquireLock` finds no file and creates it -/
  | forceCreateOk (s : QSys n) (i : Fin n) :
      force = true → s.procs i = .forceRetrying → s.lock = none →
      QStep force alive pid s
        ⟨fun j => if j = i then .holding else s.procs j,
          some (pidString (pid i))⟩
  /-- the final `acquireLock` sees a live holder: speak without the lock -/
  | forcePollAlive (s : QSys n) (i : Fin n) (c : String) (q : Int) :
      force = true → s.procs i = .forceRetrying → s.lock = some c →
      parsePid c = some q → alive q = true →
      QStep force alive pid s
        ⟨fun j => if j = i then .bypass else s.procs j, s.lock⟩
  /-- the final `acquireLock` sees stale content: unlink once more -/
  | forceStaleUnlink (s : QSys n) (i : Fin n) (c : String) :
      force = true → s.procs i = .forceRetrying → s.lock = some c →
      lockStale alive c = true →
      QStep force alive pid s
        ⟨fun j => if j = i then .forceRetrying2 else s.procs j, none⟩
  /-- the final `acquireLock`'s retried create succeeds -/
  | forceRetry2Ok (s : QSys n) (i : Fin n) :
      force = true → s.procs i = .forceRetrying2 → s.lock = none →
      QStep force alive pid s
        ⟨fun j => if j = i then .holding else s.procs j,
          some (pidString (pid i))⟩
  /-- the final `acquireLock`'s retried create fails: speak without the lock -/
  | forceRetry2Fail (s : QSys n) (i : Fin n) (c : String) :
      force = true → s.procs i = .forceRetrying2 → s.lock = some c →
      QStep force alive pid s
        ⟨fun j => if j = i then .bypass else s.procs j, s.lock⟩
  /-- `releaseLock` re-reads its own pid and deletes the file -/
  | releaseOwn (s : QSys n) (i : Fin n) (c : String) :
      s.procs i = .holding → s.lock = some c →
      parsePid c = some ((pid i : Nat) : Int) →
      QStep force alive pid s
        ⟨fun j => if j = i then .done else s.procs j, none⟩
  /-- `releaseLock` finds the file missing or foreign and leaves it alone -/
  | releaseSkip (s : QSys n) (i : Fin n) :
      s.procs i = .holding →
      (s.lock = none ∨ ∀ c, s.lock = some c →
        ¬ parsePid c = some ((pid i : Nat) : Int)) →
      QStep force alive pid s
        ⟨fun j => if j = i then .done else s.procs j, s.lock⟩

/-- The initial state: all callers about to acquire, lock file absent. -/
def qInit (n : Nat) : QSys n := ⟨fun _ => .acquiring, none⟩

/-- Lock-ownership invariant: a holder's pid is what the lock file names. -/
def QInv {n : Nat} (pid : Fin n → Nat) (s : QSys n) : Prop :=
  ∀ i : Fin n, s.procs i = .holding → s.lock = some (pidString (pid i))

/-- Liveness oracle of the counterexample run: every pid is alive. -/
def cexAlive : Int → Bool := fun _ => true

/-- Pids of the two counterexample callers. -/
def cexPid : Fin 2 → Nat := fun i => if i = 0 then 100 else 200

/-- Counterexample state 1: caller 0 has acquired the lock normally. -/
def cexS1 : QSys 2 :=
  ⟨fun j => if j = 0 then .holding else (qInit 2).procs j,
    some (pidString (cexPid 0))⟩

/-- Counterexample state 2: caller 1, after polling against the live
holder, exceeds `maxWaitMs` and force-deletes caller 0's lock file. -/
def cexS2 : QSys 2 :=
  ⟨fun j => if j = 1 then .forceRetrying else cexS1.procs j, none⟩

/-- Counterexample state 3: caller 1's final `acquireLock` succeeds — both
callers are now in `holding`. -/
def cexS3 : QSys 2 :=
  ⟨fun j => if j = 1 then .holding else cexS2.procs j,
    some (pidString (cexPid 1))⟩

/-! ## Speech backends (`lib/tts/native.ts`, `lib/tts/elevenlabs.ts`)

A backend's `speak` rejects or resolves; `Except String Unit` models the
promise. External effects (the HTTP fetch, the `say` subprocess, the native
fallback's own run) enter as oracle parameters. -/

/-- Outcome of the `fetch` call in the ElevenLabs backend. -/
inductive FetchOutcome where
  | success
  /-- `response.ok` false, with status and error body text -/
  | httpError (status : Nat) (body : String)
  /-- the fetch (or any step of the try block) threw -/
  | netThrow (msg : String)
deriving DecidableEq

/-- Substring test (`String.prototype.includes`). -/
def hasSubstr (pat : List Char) : List Char → Bool
  | [] => pat.isEmpty
  | c :: rest => List.isPrefixOf pat (c :: rest) || hasSubstr pat rest

/-- The quota detection of the ElevenLabs backend:
`errorText.includes('quota_exceeded') ||
errorText.toLowerCase().includes('credits remaining')`. -/
def isQuotaError (body : String) : Bool :=
  hasSubstr "quota_exceeded".toList body.toList ||
    hasSubstr "credits remaining".toList (body.toList.map jsToLowerChar)

/-- Translation of `NativeTTSProvider.speak`: spawn `say` and throw on a
non-zero exit code (`exitCode` is the oracle for the subprocess). -/
def NativeTTSProvider.speak (exitCode : Int) : Except String Unit :=
  if exitCode ≠ 0 then
    .error ("say command exited with code " ++ toString exitCode)
  else .ok ()

/-- Translation of `ElevenLabsTTSProvider.speak`. On a quota error the
backend falls back to native inside the try block; any other failure —
including the `throw new Error('ElevenLabs API error ...')` raised inside
the same try block — is caught by the function's own catch, which also
falls back to native. In either path, when the native backend is
unavailable the function just returns. The `afplay` exit status on success
is not checked. `nativeAvailable` and `nativeResult` are the oracles for
the fallback backend. -/
def ElevenLabsTTSProvider.speak (fetch : FetchOutcome)
    (nativeAvailable : Bool) (nativeResult : Except String Unit) :
    Except String Unit :=
  match fetch with
  | .success => .ok ()
  | .httpError _ body =>
    if isQuotaError body then
      (if nativeAvailable then nativeResult else .ok ())
    else
      (if nativeAvailable then nativeResult else .ok ())
  | .netThrow _ =>
    if nativeAvailable then nativeResult else .ok ()

/-! ## The provider resolver (`lib/tts/resolver.ts`) -/

/-- A constructed provider: its name and what `isAvailable()` reports. -/
structure TTSProviderInst where
  name : String
  available : Bool
deriving DecidableEq

/-- Translation of `resolveTTSProvider`: walk the configured priority list,
skip names missing from the `PROVIDERS` registry, instantiate and return
the first available provider; `none` when the walk ends. `registry` models
the name-to-constructor map (with the instance each constructor builds). -/
def resolveTTSProvider (registry : String → Option TTSProviderInst) :
    List String → Option TTSProviderInst
  | [] => none
  | nm :: rest =>
    match registry nm with
    | none => resolveTTSProvider registry rest
    | some p =>
      if p.available then some p else resolveTTSProvider registry rest

/-! ## The activity log appender (`lib/log.ts`, `appendToJsonLog`) -/

/-- What reading and `JSON.parse`-ing the existing log file produced.
`JSON.parse` itself is the platform builtin; only its outcome matters to
the control flow being verified. -/
inductive ParsedLog (α : Type) where
  /-- `JSON.parse` threw (corrupt or empty file) -/
  | parseError
  /-- valid JSON that is not an array (`Array.isArray` false) -/
  | nonArrayJson
  /-- a JSON array with the given entries -/
  | arrayJson (entries : List α)

/-- Translation of `appendToJsonLog`: start from the parsed entries when
the existing file holds a JSON array, from an empty collection in every
other case (missing file, parse error, non-array JSON), push the new entry
and write the result. Returns the written collection. -/
def appendToJsonLog {α : Type} (existing : Option (ParsedLog α))
    (entry : α) : List α :=
  let logData : List α :=
    match existing with
    | none => []
    | some .parseError => []
    | some .nonArrayJson => []
    | some (.arrayJson entries) => entries
  logData ++ [entry]

/-- Generic separator join (structure of `a.b.c` / `a/b/c` strings). -/
def joinSep (sep : Char) : List (List Char) → List Char
  | [] => []
  | [s] => s
  | s :: rest => s ++ sep :: joinSep sep rest

/-- No two adjacent spaces. -/
def noDoubleSpace : List Char → Bool
  | [] => true
  | [_] => true
  | a :: b :: rest => !(a == ' ' && b == ' ') && noDoubleSpace (b :: rest)

/-- The dotted family's canonical string. -/
def dottedStr (A B C D : List Char) : List Char :=
  A ++ '.' :: (B ++ '.' :: (C ++ '.' :: D))

/-! ## The absolute-path family of C8 -/

/-- `s1 ++ sep :: s2 ++ sep :: ... ++ sep :: []`: the part a greedy
repetition parse consumes, each segment with its trailing separator. -/
def consSep (sep : Char) : List (List Char) → List Char
  | [] => []
  | s :: rest => s ++ sep :: consSep sep rest

/-- The absolute path `/s1/s2/.../sk/last`. -/
def pathStr (segs : List (List Char)) (last : List Char) : List Char :=
  '/' :: (consSep '/' segs ++ last)

/-! ## The URL family of C8 -/

/-- The scheme prefix of the URL family. -/
def schL (secure : Bool) : List Char :=
  if secure then "https://".toList else "http://".toList

/-- The host with its dots spelled out: `l1 dot l2 dot ... dot lk`. -/
def dotSpoken : List (List Char) → List Char
  | [] => []
  | [s] => s
  | s :: rest => s ++ ' ' :: 'd' :: 'o' :: 't' :: ' ' :: dotSpoken rest

/-! ## Character classes and run conditions for the C8 families -/

/-- A hostname character of the URL family: ASCII letter, digit or `-`. -/
def hostChar (c : Char) : Bool :=
  isLetterChar c || isDigitChar c || c.toNat == 45

/-- A plain word character of the normalizer's outputs: ASCII letter,
digit, `-` (45) or `_` (95). -/
def plainChar (c : Char) : Bool :=
  isLetterChar c || isDigitChar c || c.toNat == 45 || c.toNat == 95

/-- A pass-5 identifier segment: a letter followed by letters or digits
(`[a-zA-Z][a-zA-Z0-9]*`). -/
def identSeg : List Char → Bool
  | [] => false
  | c :: rest =>
    isLetterChar c && (c :: rest).all (fun x => isLetterChar x || isDigitChar x)

/-- At every suffix position, the hex run pass 4 would examine is not
replaced: shorter than 8 characters, or without a digit, or without a
hex letter. Exactly the condition making pass 4 the identity. -/
def hexRunsOk : List Char → Bool
  | [] => true
  | c :: rest =>
    !(decide (8 ≤ ((c :: rest).takeWhile isHexChar).length) &&
      ((c :: rest).takeWhile isHexChar).any isDigitChar &&
      ((c :: rest).takeWhile isHexChar).any isHexLetterChar) &&
      hexRunsOk rest

/-! ## The URL family of C8 -/

/-- An optional `:port` suffix of the authority. -/
def optPort : Option (List Char) → List Char
  | none => []
  | some p => ':' :: p

/-- The digits of an optional port. -/
def portTail : Option (List Char) → List Char
  | none => []
  | some p => p

/-- The URL `http(s)://l1.l2...lk[:port][/?#...]`. -/
def urlStr (secure : Bool) (labels : List (List Char))
    (port : Option (List Char)) (path : List Char) : List Char :=
  schL secure ++ (joinSep '.' labels ++ (optPort port ++ path))

theorem natDigitChar_isDigit (d : Nat) : isDigitChar (natDigitChar d) = true := by
  unfold natDigitChar
  split <;> decide

theorem digitVal_natDigitChar (d : Nat) (h : d < 10) :
    digitVal (natDigitChar d) = d := by
  interval_cases d <;> decide

theorem natDecCharsGo_ne_nil (fuel n : Nat) : natDecCharsGo fuel n ≠ [] := by
  cases fuel with
  | zero => simp [natDecCharsGo]
  | succ fuel => rw [natDecCharsGo]; split <;> simp

theorem natDecChars_ne_nil (n : Nat) : natDecChars n ≠ [] :=
  natDecCharsGo_ne_nil n n

theorem natDecCharsGo_all_digits (fuel : Nat) :
    ∀ (n : Nat), ∀ c ∈ natDecCharsGo fuel n, isDigitChar c = true := by
  induction fuel with
  | zero =>
    intro n c hc
    simp only [natDecCharsGo, List.mem_singleton] at hc
    subst hc
    exact natDigitChar_isDigit (n % 10)
  | succ fuel ih =>
    intro n c hc
    rw [natDecCharsGo] at hc
    split at hc
    · simp only [List.mem_singleton] at hc
      subst hc
      exact natDigitChar_isDigit n
    · rcases List.mem_append.mp hc with h1 | h2
      · exact ih (n / 10) c h1
      · simp only [List.mem_singleton] at h2
        subst h2
        exact natDigitChar_isDigit (n % 10)

theorem natDecChars_all_digits (n : Nat) :
    ∀ c ∈ natDecChars n, isDigitChar c = true :=
  natDecCharsGo_all_digits n n

/-- Helper: a list all of whose elements satisfy `p` is untouched by
`takeWhile`. -/
theorem takeWhile_all {α : Type} (p : α → Bool) :
    ∀ l : List α, (∀ c ∈ l, p c = true) → l.takeWhile p = l := by
  intro l
  induction l with
  | nil => intro _; rfl
  | cons c rest ih =>
    intro h
    have hc : p c = true := h c (List.mem_cons_self c rest)
    simp [List.takeWhile_cons, hc, ih (fun x hx => h x (List.mem_cons_of_mem c hx))]

theorem natDecCharsGo_foldl (fuel : Nat) :
    ∀ (n : Nat), n ≤ fuel → ∀ a : Nat,
      (natDecCharsGo fuel n).foldl (fun a c => 10 * a + digitVal c) a =
        a * 10 ^ (natDecCharsGo fuel n).length + n := by
  induction fuel with
  | zero =>
    intro n hn a
    interval_cases n
    simp [natDecCharsGo, digitVal, natDigitChar]
    omega
  | succ fuel ih =>
    intro n hn a
    rw [natDecCharsGo]
    split
    · rename_i h
      simp only [List.foldl_cons, List.foldl_nil, List.length_singleton,
        pow_one, digitVal_natDigitChar n h]
      omega
    · rename_i h
      have hdiv : n / 10 ≤ fuel := by omega
      rw [List.foldl_append, ih (n / 10) hdiv a]
      simp only [List.foldl_cons, List.foldl_nil, List.length_append,
        List.length_singleton, digitVal_natDigitChar (n % 10) (Nat.mod_lt n (by omega))]
      have hn10 : 10 * (n / 10) + n % 10 = n := by omega
      rw [pow_succ]
      calc 10 * (a * 10 ^ (natDecCharsGo fuel (n / 10)).length + n / 10) + n % 10
          = a * (10 ^ (natDecCharsGo fuel (n / 10)).length * 10) +
              (10 * (n / 10) + n % 10) := by ring
        _ = a * (10 ^ (natDecCharsGo fuel (n / 10)).length * 10) + n := by rw [hn10]

theorem natDecChars_foldl (n : Nat) :
    ∀ a : Nat,
      (natDecChars n).foldl (fun a c => 10 * a + digitVal c) a =
        a * 10 ^ (natDecChars n).length + n :=
  natDecCharsGo_foldl n n le_rfl

theorem parseDigits_natDecChars (n : Nat) :
    parseDigits (natDecChars n) = some n := by
  unfold parseDigits
  rw [takeWhile_all isDigitChar (natDecChars n) (natDecChars_all_digits n)]
  rw [if_neg (by simp [List.isEmpty_iff, natDecChars_ne_nil n])]
  rw [natDecChars_foldl n 0]
  simp

/-- Helper: `dropWhile` is the identity when the head fails the predicate. -/
theorem dropWhile_of_head_neg {α : Type} (p : α → Bool) (l : List α)
    (h : ∀ c ∈ l.head?, p c = false) : l.dropWhile p = l := by
  cases l with
  | nil => rfl
  | cons c rest =>
    have := h c (by simp)
    simp [List.dropWhile_cons, this]

theorem jsTrim_digits (l : List Char) (h : ∀ c ∈ l, isDigitChar c = true) :
    jsTrim l = l := by
  have hws : ∀ c ∈ l, jsWs c = false := by
    intro c hc
    have := h c hc
    simp only [isDigitChar, Bool.and_eq_true, decide_eq_true_eq] at this
    simp only [jsWs, Bool.or_eq_false_iff, beq_eq_false_iff_ne, ne_eq]
    omega
  unfold jsTrim
  rw [dropWhile_of_head_neg jsWs l (fun c hc => hws c (List.mem_of_mem_head? hc))]
  rw [dropWhile_of_head_neg jsWs l.reverse (fun c hc =>
    hws c (List.mem_reverse.mp (List.mem_of_mem_head? hc)))]
  exact List.reverse_reverse l

/-- Round trip: parsing the decimal rendering of a pid gives back the pid. -/
theorem parsePid_pidString (p : Nat) : parsePid (pidString p) = some (p : Int) := by
  unfold parsePid pidString
  have htl : (String.mk (natDecChars p)).toList = natDecChars p := rfl
  rw [htl, jsTrim_digits (natDecChars p) (natDecChars_all_digits p)]
  obtain ⟨c, cs, hcc⟩ : ∃ c cs, natDecChars p = c :: cs := by
    cases hh : natDecChars p with
    | nil => exact absurd hh (natDecChars_ne_nil p)
    | cons c cs => exact ⟨c, cs, rfl⟩
  have hcdig : isDigitChar c = true := by
    apply natDecChars_all_digits p
    rw [hcc]; exact List.mem_cons_self c cs
  have hcnat : 48 ≤ c.toNat ∧ c.toNat ≤ 57 := by
    simpa [isDigitChar] using hcdig
  rw [hcc]
  simp only [parseIntJs]
  rw [if_neg (by intro hEq; subst hEq; simp at hcnat),
    if_neg (by intro hEq; subst hEq; simp at hcnat)]
  rw [← hcc, parseDigits_natDecChars p]
  rfl

/-- Injectivity of the decimal rendering, via the parse round trip. -/
theorem pidString_injective : Function.Injective pidString := by
  intro a b hab
  have := parsePid_pidString a
  rw [hab, parsePid_pidString b] at this
  simpa using this.symm

example : normalizeTTSText "https://api.example.com/v2/users/123?q=foo" =
    "api dot example dot com" := by decide

example : normalizeTTSText "https://www.example.com" = "example dot com" := by decide

example : normalizeTTSText "/Users/jeff/dev/hooks/lib/config.ts" = "config.ts" := by decide

example : normalizeTTSText "src/components/Button.tsx" = "Button.tsx" := by decide

example : normalizeTTSText "a1b2c3d4e5f67890abcdef1234567890" = "hash a1b2c3" := by decide

example : normalizeTTSText "com.example.foo.BarService" = "BarService" := by decide

example : normalizeTTSText "edited  lib/tts/queue.ts today" = "edited queue.ts today" := by decide

theorem speakCount_append (a b : List TtsEv) :
    speakCount (a ++ b) = speakCount a + speakCount b :=
  List.countP_append _ _ _

theorem speakCount_acquireLock (alive : Int → Bool) (pid : Nat)
    (fs : Option String) : speakCount (acquireLock alive pid fs).2.2 = 0 := by
  rcases fs with _ | content
  · simp [acquireLock, speakCount, List.countP_cons, List.countP_nil]
  · rcases h : parsePid content with _ | hp
    · simp [acquireLock, h, speakCount, List.countP_cons, List.countP_nil]
    · rcases ha : alive hp <;>
        simp [acquireLock, h, ha, speakCount, List.countP_cons, List.countP_nil]

theorem speakCount_releaseLock (pid : Nat) (fs : Option String) :
    speakCount (releaseLock pid fs).2 = 0 := by
  rcases fs with _ | content
  · simp [releaseLock, speakCount, List.countP_nil]
  · by_cases h : parsePid content = some (pid : Int) <;>
      simp [releaseLock, h, speakCount, List.countP_cons, List.countP_nil]

theorem speakCount_speakLoop (alive : Int → Bool) (pid : Nat)
    (interf : Nat → Option String → Option String) (elapsed : Nat → Nat)
    (maxWaitMs : Nat) :
    ∀ (fuel k : Nat) (fs : Option String) (x : LoopExit) (fs' : Option String)
      (tr : List TtsEv),
      speakLoop alive pid interf elapsed maxWaitMs fuel k fs = some (x, fs', tr) →
      speakCount tr = 0 := by
  intro fuel
  induction fuel with
  | zero => intro k fs x fs' tr h; simp [speakLoop] at h
  | succ fuel ih =>
    intro k fs x fs' tr h
    rw [speakLoop] at h
    rcases h1 : acquireLock alive pid (interf k fs) with ⟨ok, fs2, tr1⟩
    rw [h1] at h
    have htr1 : speakCount tr1 = 0 := by
      have := speakCount_acquireLock alive pid (interf k fs)
      rw [h1] at this; exact this
    cases ok with
    | true =>
      obtain ⟨rfl, rfl, rfl⟩ := by simpa using h
      exact htr1
    | false =>
      simp only at h
      split at h
      · rcases h2 : acquireLock alive pid (interf (k + 1) none) with ⟨ok2, fs4, tr2⟩
        rw [h2] at h
        have htr2 : speakCount tr2 = 0 := by
          have := speakCount_acquireLock alive pid (interf (k + 1) none)
          rw [h2] at this; exact this
        cases ok2 with
        | true =>
          obtain ⟨rfl, rfl, rfl⟩ := by simpa using h
          rw [speakCount_append, htr1]
          simpa [speakCount, List.countP_cons] using htr2
        | false =>
          obtain ⟨rfl, rfl, rfl⟩ := by simpa using h
          rw [speakCount_append, htr1]
          simpa [speakCount, List.countP_cons] using htr2
      · rcases h3 : speakLoop alive pid interf elapsed maxWaitMs fuel (k + 1) fs2 with _ | ⟨y, fs3, tr3⟩
        · rw [h3] at h; simp at h
        · rw [h3] at h
          obtain ⟨rfl, rfl, rfl⟩ := by simpa using h
          rw [speakCount_append, htr1]
          simpa [speakCount, List.countP_cons] using ih (k + 1) fs2 y fs3 tr3 h3

/-- A `direct` exit of the polling loop only arises from the escape valve:
its trace contains the forced `unlinkSync`. -/
theorem speakLoop_direct_forced (alive : Int → Bool) (pid : Nat)
    (interf : Nat → Option String → Option String) (elapsed : Nat → Nat)
    (maxWaitMs : Nat) :
    ∀ (fuel k : Nat) (fs fs' : Option String) (tr : List TtsEv),
      speakLoop alive pid interf elapsed maxWaitMs fuel k fs =
        some (.direct, fs', tr) →
      TtsEv.forceUnlink ∈ tr := by
  intro fuel
  induction fuel with
  | zero => intro k fs fs' tr h; simp [speakLoop] at h
  | succ fuel ih =>
    intro k fs fs' tr h
    rw [speakLoop] at h
    rcases h1 : acquireLock alive pid (interf k fs) with ⟨ok, fs2, tr1⟩
    rw [h1] at h
    cases ok with
    | true => simp at h
    | false =>
      simp only at h
      split at h
      · rcases h2 : acquireLock alive pid (interf (k + 1) none) with ⟨ok2, fs4, tr2⟩
        rw [h2] at h
        cases ok2 with
        | true => simp at h
        | false =>
          obtain ⟨rfl, rfl⟩ : fs4 = fs' ∧ tr1 ++ TtsEv.forceUnlink :: tr2 = tr := by
            simpa using h
          simp
      · rcases h3 : speakLoop alive pid interf elapsed maxWaitMs fuel (k + 1) fs2 with _ | ⟨y, fs3, tr3⟩
        · rw [h3] at h; simp at h
        · rw [h3] at h
          obtain ⟨rfl, rfl, rfl⟩ := by simpa using h
          have := ih (k + 1) fs2 fs3 tr3 h3
          simp [this]

/-- C2: the escape-valve behavior of `speakWithLock`. Part (i): at any poll
iteration whose `acquireLock` fails when the elapsed time exceeds
`maxWaitMs`, the loop force-deletes the lock file (the final attempt runs
against a `none` lock state, modulo interference) and makes exactly one
final `acquireLock` call, exiting on either result. Part (ii): whenever the
loop exits `direct` (which only the escape valve produces), the top level
speaks the normalized text without holding the lock. Part (iii): every
terminating `speakWithLock` run speaks exactly once — the announcement is
never dropped. -/
theorem speakWithLock_escape_valve (alive : Int → Bool) (pid : Nat)
    (interf : Nat → Option String → Option String)
    (duringSpeak : Option String → Option String) (elapsed : Nat → Nat)
    (maxWaitMs : Nat) (text : String) (k fuel : Nat) (fs : Option String)
    (hfail : (acquireLock alive pid (interf k fs)).1 = false)
    (htime : elapsed k > maxWaitMs) :
    (speakLoop alive pid interf elapsed maxWaitMs (fuel + 1) k fs =
      some ((if (acquireLock alive pid (interf (k + 1) none)).1 then
              LoopExit.acquired true else LoopExit.direct),
        (acquireLock alive pid (interf (k + 1) none)).2.1,
        (acquireLock alive pid (interf k fs)).2.2 ++
          TtsEv.forceUnlink :: (acquireLock alive pid (interf (k + 1) none)).2.2)) ∧
    (∀ (fuel2 : Nat) (fs2 : Option String) (tr : List TtsEv),
      speakLoop alive pid interf elapsed maxWaitMs fuel2 0 fs =
          some (.direct, fs2, tr) →
      TtsEv.forceUnlink ∈ tr ∧
        speakWithLock alive pid interf duringSpeak elapsed true maxWaitMs text
            fuel2 fs =
          some (fs2, tr ++ [TtsEv.speak false (normalizeTTSText text)])) ∧
    (∀ (q : Bool) (fuel3 : Nat) (fs3 : Option String) (tr : List TtsEv),
      speakWithLock alive pid interf duringSpeak elapsed q maxWaitMs text
          fuel3 fs = some (fs3, tr) →
      speakCount tr = 1) := by
  refine ⟨?_, ?_, ?_⟩
  · rw [speakLoop]
    rcases h1 : acquireLock alive pid (interf k fs) with ⟨ok, fs2, tr1⟩
    have hok : ok = false := by
      have := hfail; rw [h1] at this; exact this
    subst hok
    simp only
    rw [if_pos htime]
    rcases h2 : acquireLock alive pid (interf (k + 1) none) with ⟨ok2, fs4, tr2⟩
    cases ok2 <;> simp
  · intro fuel2 fs2 tr h
    refine ⟨speakLoop_direct_forced alive pid interf elapsed maxWaitMs fuel2 0 fs fs2 tr h, ?_⟩
    simp [speakWithLock, h]
  · intro q fuel3 fs3 tr h
    unfold speakWithLock at h
    cases q with
    | false =>
      obtain ⟨rfl, rfl⟩ : fs = fs3 ∧ [TtsEv.speak false (normalizeTTSText text)] = tr := by
        simpa using h
      simp [speakCount, List.countP_cons]
    | true =>
      simp only at h
      rcases h3 : speakLoop alive pid interf elapsed maxWaitMs fuel3 0 fs with _ | ⟨y, fs4, tr4⟩
      · rw [h3] at h; simp at h
      · rw [h3] at h
        have htr4 : speakCount tr4 = 0 :=
          speakCount_speakLoop alive pid interf elapsed maxWaitMs fuel3 0 fs y fs4 tr4 h3
        cases y with
        | direct =>
          obtain ⟨rfl, rfl⟩ : fs4 = fs3 ∧ tr4 ++ [TtsEv.speak false (normalizeTTSText text)] = tr := by
            simpa using h
          rw [speakCount_append, htr4]
          simp [speakCount, List.countP_cons]
        | acquired forced =>
          obtain ⟨rfl, rfl⟩ : (releaseLock pid (duringSpeak fs4)).1 = fs3 ∧
              tr4 ++ TtsEv.speak true (normalizeTTSText text) ::
                (releaseLock pid (duringSpeak fs4)).2 = tr := by
            simpa using h
          rw [speakCount_append, htr4]
          have := speakCount_releaseLock pid (duringSpeak fs4)
          simp [speakCount, List.countP_cons] at this ⊢
          exact this

/-- C2 witness: a live foreign holder `7`, an elapsed time of `500 > 200`;
the escape valve fires on the first iteration, the forced final attempt
succeeds, and a disabled-queue run speaks exactly once. -/
theorem speakWithLock_escape_valve_witness :
    speakLoop (fun q => q == 7) 9 (fun _ s => s) (fun _ => 500) 200 1 0
        (some "7") =
      some (.acquired true, some (pidString 9),
        [TtsEv.wxCreate false, TtsEv.readLock "7", TtsEv.forceUnlink,
          TtsEv.wxCreate true]) := by
  have h := speakWithLock_escape_valve (fun q => q == 7) 9 (fun _ s => s)
    (fun s => s) (fun _ => 500) 200 "done" 0 0 (some "7")
    (by decide) (by decide)
  have h1 := h.1
  rw [show acquireLock (fun q => q == 7) 9 ((fun _ s => s) 0 (some "7")) =
      (false, some "7", [TtsEv.wxCreate false, TtsEv.readLock "7"]) from by decide,
    show acquireLock (fun q => q == 7) 9 ((fun _ s => s) 1 none) =
      (true, some (pidString 9), [TtsEv.wxCreate true]) from by decide] at h1
  simpa using h1

/-- C3: a lock file whose content names a dead pid is treated as stale:
the acquirer deletes it and retries the atomic creation exactly once, in
that order, within the same call; without interference the retry succeeds,
and the polling loop therefore acquires the lock on its very first
iteration, whatever `maxWaitMs` and the clock say. -/
theorem acquireLock_stale_recovery (alive : Int → Bool) (pid : Nat)
    (c : String) (hp : Int) (hparse : parsePid c = some hp)
    (hdead : alive hp = false) :
    acquireLock alive pid (some c) =
      (true, some (pidString pid),
        [TtsEv.wxCreate false, TtsEv.readLock c, TtsEv.unlink,
          TtsEv.wxCreate true]) ∧
    ∀ (elapsed : Nat → Nat) (maxWaitMs fuel : Nat),
      speakLoop alive pid (fun _ s => s) elapsed maxWaitMs (fuel + 1) 0
          (some c) =
        some (.acquired false, some (pidString pid),
          [TtsEv.wxCreate false, TtsEv.readLock c, TtsEv.unlink,
            TtsEv.wxCreate true]) := by
  have h1 : acquireLock alive pid (some c) =
      (true, some (pidString pid),
        [TtsEv.wxCreate false, TtsEv.readLock c, TtsEv.unlink,
          TtsEv.wxCreate true]) := by
    simp [acquireLock, hparse, hdead]
  refine ⟨h1, ?_⟩
  intro elapsed maxWaitMs fuel
  rw [speakLoop]
  simp only
  rw [h1]

/-- C3 witness: pid 42 acquires over the stale lock of dead pid 31337. -/
theorem acquireLock_stale_recovery_witness :
    acquireLock (fun _ => false) 42 (some "31337") =
      (true, some (pidString 42),
        [TtsEv.wxCreate false, TtsEv.readLock "31337", TtsEv.unlink,
          TtsEv.wxCreate true]) :=
  (acquireLock_stale_recovery (fun _ => false) 42 "31337" 31337 (by decide)
    rfl).1

/-- C10: lock content that does not parse as an integer (`parseInt` gives
`NaN`) is handled exactly like a stale lock — delete, then one retried
atomic creation — and the result does not depend on the liveness oracle at
all (no liveness check is performed). -/
theorem acquireLock_unparseable_content (alive alive' : Int → Bool)
    (pid : Nat) (c : String) (hnone : parsePid c = none) :
    acquireLock alive pid (some c) =
      (true, some (pidString pid),
        [TtsEv.wxCreate false, TtsEv.readLock c, TtsEv.unlink,
          TtsEv.wxCreate true]) ∧
    acquireLock alive pid (some c) = acquireLock alive' pid (some c) := by
  constructor
  · simp [acquireLock, hnone]
  · simp [acquireLock, hnone]

/-- C10 witness: the content `"garbage"` is unparseable; two opposite
liveness oracles behave identically. -/
theorem acquireLock_unparseable_content_witness :
    acquireLock (fun _ => true) 42 (some "garbage") =
      (true, some (pidString 42),
        [TtsEv.wxCreate false, TtsEv.readLock "garbage", TtsEv.unlink,
          TtsEv.wxCreate true]) ∧
    acquireLock (fun _ => true) 42 (some "garbage") =
      acquireLock (fun _ => false) 42 (some "garbage") :=
  acquireLock_unparseable_content (fun _ => true) (fun _ => false) 42
    "garbage" (by decide)

/-- C4: `releaseLock` deletes the lock file exactly when its content names
the caller's own pid; a file naming a different pid (or unparseable
content) is left untouched, and a missing file is a no-op. The function is
total (the source's `try/catch` swallows every error). -/
theorem releaseLock_frame (pid : Nat) (fs : Option String) :
    (∀ c, fs = some c → parsePid c = some (pid : Int) →
      releaseLock pid fs = (none, [TtsEv.readLock c, TtsEv.unlink])) ∧
    (∀ c, fs = some c → ¬ parsePid c = some (pid : Int) →
      releaseLock pid fs = (some c, [TtsEv.readLock c])) ∧
    (fs = none → releaseLock pid fs = (none, [])) := by
  refine ⟨?_, ?_, ?_⟩
  · intro c hc hown; subst hc; simp [releaseLock, hown]
  · intro c hc hother; subst hc; simp [releaseLock, hother]
  · intro hc; subst hc; rfl

/-- C4 witness: pid 42 does not delete a lock held by pid 7, and deletes
its own. -/
theorem releaseLock_frame_witness :
    releaseLock 42 (some "7") = (some "7", [TtsEv.readLock "7"]) ∧
    releaseLock 42 (some "42") =
      (none, [TtsEv.readLock "42", TtsEv.unlink]) :=
  ⟨(releaseLock_frame 42 (some "7")).2.1 "7" rfl (by decide),
    (releaseLock_frame 42 (some "42")).1 "42" rfl (by decide)⟩

/-- C5: with the queue disabled in configuration, `speakWithLock` calls the
backend directly on the normalized text; the lock file state is unchanged
and the trace holds no lock operation at all. -/
theorem speakWithLock_queue_disabled (alive : Int → Bool) (pid : Nat)
    (interf : Nat → Option String → Option String)
    (duringSpeak : Option String → Option String) (elapsed : Nat → Nat)
    (maxWaitMs : Nat) (text : String) (fuel : Nat) (fs : Option String) :
    speakWithLock alive pid interf duringSpeak elapsed false maxWaitMs text
        fuel fs =
      some (fs, [TtsEv.speak false (normalizeTTSText text)]) := by
  simp [speakWithLock]

theorem QInv_init {n : Nat} (pid : Fin n → Nat) : QInv pid (qInit n) := by
  intro i h
  simp [qInit] at h

/-- The invariant is inductive for every step that is not an escape-valve
step, provided every participating pid is alive. -/
theorem QInv_step {n : Nat} (alive : Int → Bool) (pid : Fin n → Nat)
    (halive : ∀ i, alive ((pid i : Nat) : Int) = true)
    (hinj : Function.Injective pid)
    (s s' : QSys n) (hstep : QStep false alive pid s s') (hinv : QInv pid s) :
    QInv pid s' := by
  cases hstep with
  | createOk i hi hlock =>
    intro j hj
    simp only at hj ⊢
    by_cases hji : j = i
    · simp [hji]
    · simp only [if_neg hji] at hj
      have := hinv j hj
      rw [hlock] at this
      exact absurd this (by simp)
  | pollAlive i c q hi hlock hparse hq => exact hinv
  | staleUnlink i c hi hlock hstale =>
    intro j hj
    simp only at hj
    by_cases hji : j = i
    · rw [if_pos hji] at hj; exact absurd hj (by simp)
    · rw [if_neg hji] at hj
      have := hinv j hj
      rw [hlock] at this
      have hc : c = pidString (pid j) := by injection this
      subst hc
      simp only [lockStale, parsePid_pidString] at hstale
      rw [halive j] at hstale
      simp at hstale
  | retryOk i hi hlock =>
    intro j hj
    simp only at hj ⊢
    by_cases hji : j = i
    · simp [hji]
    · simp only [if_neg hji] at hj
      have := hinv j hj
      rw [hlock] at this
      exact absurd this (by simp)
  | retryFail i c hi hlock =>
    intro j hj
    simp only at hj ⊢
    by_cases hji : j = i
    · rw [if_pos hji] at hj; exact absurd hj (by simp)
    · rw [if_neg hji] at hj
      exact hinv j hj
  | forceUnlink i hforce hi => exact absurd hforce (by simp)
  | forceCreateOk i hforce hi hlock => exact absurd hforce (by simp)
  | forcePollAlive i c q hforce hi hlock hparse hq =>
    exact absurd hforce (by simp)
  | forceStaleUnlink i c hforce hi hlock hstale =>
    exact absurd hforce (by simp)
  | forceRetry2Ok i hforce hi hlock => exact absurd hforce (by simp)
  | forceRetry2Fail i c hforce hi hlock => exact absurd hforce (by simp)
  | releaseOwn i c hi hlock hparse =>
    intro j hj
    simp only at hj
    by_cases hji : j = i
    · rw [if_pos hji] at hj; exact absurd hj (by simp)
    · rw [if_neg hji] at hj
      have hlj := hinv j hj
      have hli := hinv i hi
      rw [hlock] at hlj hli
      have hcj : c = pidString (pid j) := by injection hlj
      have hci : c = pidString (pid i) := by injection hli
      have hpp : pidString (pid j) = pidString (pid i) := by rw [← hcj, ← hci]
      exact absurd (hinj (pidString_injective hpp)) hji
  | releaseSkip i hi hskip =>
    intro j hj
    simp only at hj ⊢
    have hli := hinv i hi
    rcases hskip with h | h
    · rw [hli] at h; exact absurd h (by simp)
    · have := h (pidString (pid i)) hli
      rw [parsePid_pidString] at this
      exact absurd rfl this

/-- C1 (amended): in every execution of the protocol from the unlocked
initial state in which no escape-valve step occurs (`force = false`), with
all participating pids distinct and alive, at most one caller is in
`holding` at any reachable state. The stale-lock branches are part of the
model; under these hypotheses they are simply never enabled. -/
theorem mutual_exclusion_no_force {n : Nat} (alive : Int → Bool)
    (pid : Fin n → Nat)
    (halive : ∀ i, alive ((pid i : Nat) : Int) = true)
    (hinj : Function.Injective pid) (s : QSys n)
    (hreach : Relation.ReflTransGen (QStep false alive pid) (qInit n) s) :
    ∀ i j : Fin n, s.procs i = .holding → s.procs j = .holding → i = j := by
  have hinv : QInv pid s := by
    induction hreach with
    | refl => exact QInv_init pid
    | tail hab hbc ih => exact QInv_step alive pid halive hinj _ _ hbc ih
  intro i j hi hj
  have h1 := hinv i hi
  have h2 := hinv j hj
  rw [h1] at h2
  exact hinj (pidString_injective (Option.some.inj h2))

/-- C1 counterexample: with both pids alive the escape valve reaches a
state in which two callers are simultaneously in `holding`, although no
stale lock ever exists in the run (every step's lock content names a live
pid, and no stale-unlink step is taken). This violates the claim as
stated: the second holder arrives through the max-wait forced unlink, not
through the stale-lock race window. -/
theorem mutual_exclusion_cex :
    Relation.ReflTransGen (QStep true cexAlive cexPid) (qInit 2) cexS3 ∧
    cexS3.procs 0 = .holding ∧ cexS3.procs 1 = .holding ∧
    cexAlive ((cexPid 0 : Nat) : Int) = true ∧
    cexAlive ((cexPid 1 : Nat) : Int) = true := by
  have h1 : QStep true cexAlive cexPid (qInit 2) cexS1 :=
    QStep.createOk (qInit 2) (0 : Fin 2) rfl rfl
  have h2 : QStep true cexAlive cexPid cexS1 cexS1 :=
    QStep.pollAlive cexS1 (1 : Fin 2) (pidString (cexPid 0)) 100 rfl rfl
      (by decide) rfl
  have h3 : QStep true cexAlive cexPid cexS1 cexS2 :=
    QStep.forceUnlink cexS1 (1 : Fin 2) rfl rfl
  have h4 : QStep true cexAlive cexPid cexS2 cexS3 :=
    QStep.forceCreateOk cexS2 (1 : Fin 2) rfl rfl rfl
  exact ⟨Relation.ReflTransGen.tail
    (Relation.ReflTransGen.tail
      (Relation.ReflTransGen.tail
        (Relation.ReflTransGen.tail Relation.ReflTransGen.refl h1) h2) h3) h4,
    rfl, rfl, rfl, rfl⟩

/-- C1 witness for the amended theorem: a concrete force-free run (caller 0
acquires) in which the mutual-exclusion conclusion is discharged at the
reachable state. -/
theorem mutual_exclusion_no_force_witness : (0 : Fin 2) = 0 :=
  mutual_exclusion_no_force cexAlive cexPid (fun _ => rfl) (by decide) cexS1
    (Relation.ReflTransGen.tail Relation.ReflTransGen.refl
      (QStep.createOk (qInit 2) (0 : Fin 2) rfl rfl))
    0 0 rfl rfl

/-- C6 (amended): the native backend propagates exactly its non-zero
exits, while the ElevenLabs backend rejects only when its speak failed,
the native fallback was available, and that fallback itself rejected — in
every other failure case (quota or not) the error is absorbed and the
promise resolves. -/
theorem backend_failure_propagation :
    (∀ ec : Int,
      (∃ e, NativeTTSProvider.speak ec = .error e) ↔ ec ≠ 0) ∧
    (∀ (f : FetchOutcome) (na : Bool) (nr : Except String Unit),
      (∃ e, ElevenLabsTTSProvider.speak f na nr = .error e) ↔
        (f ≠ .success ∧ na = true ∧ ∃ e, nr = .error e)) := by
  constructor
  · intro ec
    by_cases h : ec = 0 <;> simp [NativeTTSProvider.speak, h]
  · intro f na nr
    cases f with
    | success => simp [ElevenLabsTTSProvider.speak]
    | httpError status body =>
      by_cases hq : isQuotaError body <;> cases na <;>
        simp [ElevenLabsTTSProvider.speak, hq]
    | netThrow msg =>
      cases na <;> simp [ElevenLabsTTSProvider.speak]

/-- C6 counterexample: a non-quota server failure with the native fallback
unavailable — `speak` resolves even though the announcement failed and no
fallback recovered it, contradicting the claim that such failures
propagate. -/
theorem backend_swallows_failure_cex :
    ElevenLabsTTSProvider.speak (.httpError 500 "internal server error")
        false (.error "no fallback ran") = .ok () ∧
    FetchOutcome.httpError 500 "internal server error" ≠ .success := by
  exact ⟨rfl, by decide⟩

/-- C7: the resolver returns the first registered-and-available backend of
the priority list, skipping unknown names, and returns `none` exactly when
no name in the list is registered with an available backend (in particular
on the empty list). -/
theorem resolveTTSProvider_spec (registry : String → Option TTSProviderInst) :
    ∀ priority : List String,
      (resolveTTSProvider registry priority = none ↔
        ∀ nm ∈ priority, ∀ p, registry nm = some p → p.available = false) ∧
      (∀ p, resolveTTSProvider registry priority = some p →
        ∃ i nm, priority.get? i = some nm ∧ registry nm = some p ∧
          p.available = true ∧
          ∀ j nm2 q, j < i → priority.get? j = some nm2 →
            registry nm2 = some q → q.available = false) := by
  intro priority
  induction priority with
  | nil =>
    constructor
    · simp [resolveTTSProvider]
    · intro p h; simp [resolveTTSProvider] at h
  | cons nm rest ih =>
    rcases hreg : registry nm with _ | p0
    · constructor
      · rw [show resolveTTSProvider registry (nm :: rest) =
            resolveTTSProvider registry rest from by simp [resolveTTSProvider, hreg]]
        rw [ih.1]
        constructor
        · intro h nm2 hmem p hp
          rcases List.mem_cons.mp hmem with rfl | hmem2
          · rw [hreg] at hp; cases hp
          · exact h nm2 hmem2 p hp
        · intro h nm2 hmem p hp
          exact h nm2 (List.mem_cons_of_mem nm hmem) p hp
      · intro p h
        rw [show resolveTTSProvider registry (nm :: rest) =
            resolveTTSProvider registry rest from by simp [resolveTTSProvider, hreg]] at h
        obtain ⟨i, nm2, hget, hr, hav, hfirst⟩ := ih.2 p h
        refine ⟨i + 1, nm2, by simpa using hget, hr, hav, ?_⟩
        intro j nm3 q hj hget3 hr3
        cases j with
        | zero =>
          simp at hget3
          subst hget3
          rw [hreg] at hr3; cases hr3
        | succ j =>
          exact hfirst j nm3 q (by omega) (by simpa using hget3) hr3
    · by_cases hav0 : p0.available
      · constructor
        · rw [show resolveTTSProvider registry (nm :: rest) = some p0 from by
            simp [resolveTTSProvider, hreg, hav0]]
          constructor
          · intro h; cases h
          · intro h
            have := h nm (List.mem_cons_self nm rest) p0 hreg
            rw [hav0] at this; cases this
        · intro p h
          rw [show resolveTTSProvider registry (nm :: rest) = some p0 from by
            simp [resolveTTSProvider, hreg, hav0]] at h
          obtain rfl : p0 = p := by injection h
          refine ⟨0, nm, rfl, hreg, hav0, ?_⟩
          intro j nm2 q hj _ _
          omega
      · have hstep : resolveTTSProvider registry (nm :: rest) =
            resolveTTSProvider registry rest := by
          simp [resolveTTSProvider, hreg, hav0]
        constructor
        · rw [hstep, ih.1]
          constructor
          · intro h nm2 hmem p hp
            rcases List.mem_cons.mp hmem with rfl | hmem2
            · rw [hreg] at hp
              obtain rfl : p0 = p := by injection hp
              simpa using hav0
            · exact h nm2 hmem2 p hp
          · intro h nm2 hmem p hp
            exact h nm2 (List.mem_cons_of_mem nm hmem) p hp
        · intro p h
          rw [hstep] at h
          obtain ⟨i, nm2, hget, hr, hav, hfirst⟩ := ih.2 p h
          refine ⟨i + 1, nm2, by simpa using hget, hr, hav, ?_⟩
          intro j nm3 q hj hget3 hr3
          cases j with
          | zero =>
            simp at hget3
            subst hget3
            rw [hreg] at hr3
            obtain rfl : p0 = q := by injection hr3
            simpa using hav0
          | succ j =>
            exact hfirst j nm3 q (by omega) (by simpa using hget3) hr3

/-- C7 witness: priority `["a","b","c"]` with only `"b"` available resolves
to `"b"`; the empty list and an all-unavailable list resolve to `none`. -/
theorem resolveTTSProvider_spec_witness :
    ∃ i nm,
      ["a", "b", "c"].get? i = some nm ∧
      (fun s => if s = "b" then some ⟨"b", true⟩
        else if s = "a" then some ⟨"a", false⟩
        else (none : Option TTSProviderInst)) nm = some ⟨"b", true⟩ ∧
      (⟨"b", true⟩ : TTSProviderInst).available = true ∧
      ∀ j nm2 q, j < i → ["a", "b", "c"].get? j = some nm2 →
        (fun s => if s = "b" then some ⟨"b", true⟩
          else if s = "a" then some ⟨"a", false⟩
          else (none : Option TTSProviderInst)) nm2 = some q →
        q.available = false :=
  (resolveTTSProvider_spec
    (fun s => if s = "b" then some ⟨"b", true⟩
      else if s = "a" then some ⟨"a", false⟩ else none)
    ["a", "b", "c"]).2 ⟨"b", true⟩ (by decide)

/-- C9: a corrupted or non-array log never makes `record` fail — the write
contains exactly the one new entry, and a subsequent append on the
re-read result extends it, so the ability to append is preserved. -/
theorem appendToJsonLog_corrupt_tolerant {α : Type} (e e2 : α)
    (entries : List α) :
    appendToJsonLog (some .parseError) e = [e] ∧
    appendToJsonLog (some .nonArrayJson) e = [e] ∧
    appendToJsonLog none e = [e] ∧
    appendToJsonLog (some (.arrayJson entries)) e = entries ++ [e] ∧
    appendToJsonLog
      (some (.arrayJson (appendToJsonLog (some .parseError) e))) e2 =
      [e, e2] := by
  refine ⟨rfl, rfl, rfl, rfl, rfl⟩

/-! ## Normalizer idempotence (claim C8): list and character utilities -/

theorem takeWhile_append_not {p : Char → Bool} :
    ∀ (xs : List Char) (y : Char) (ys : List Char),
      (∀ c ∈ xs, p c = true) → p y = false →
      (xs ++ y :: ys).takeWhile p = xs := by
  intro xs y ys hxs hy
  induction xs with
  | nil => simp [List.takeWhile_cons, hy]
  | cons x xs ih =>
    have hx : p x = true := hxs x (List.mem_cons_self x xs)
    simp only [List.cons_append, List.takeWhile_cons, hx, if_true]
    rw [ih (fun c hc => hxs c (List.mem_cons_of_mem x hc))]

theorem drop_takeWhile_length (p : Char → Bool) :
    ∀ l : List Char, l.drop (l.takeWhile p).length = l.dropWhile p := by
  intro l
  induction l with
  | nil => rfl
  | cons c rest ih =>
    by_cases hc : p c = true
    · simp [List.takeWhile_cons, List.dropWhile_cons, hc, ih]
    · simp only [Bool.not_eq_true] at hc
      simp [List.takeWhile_cons, List.dropWhile_cons, hc]

theorem takeWhile_append_drop (p : Char → Bool) (l : List Char) :
    l.takeWhile p ++ l.drop (l.takeWhile p).length = l := by
  rw [drop_takeWhile_length]
  exact List.takeWhile_append_dropWhile p l

theorem mem_takeWhile_pred {p : Char → Bool} :
    ∀ {l : List Char} {c : Char}, c ∈ l.takeWhile p → p c = true := by
  intro l
  induction l with
  | nil => intro c hc; simp at hc
  | cons x rest ih =>
    intro c hc
    rw [List.takeWhile_cons] at hc
    by_cases hx : p x = true
    · rw [if_pos hx] at hc
      rcases List.mem_cons.mp hc with rfl | hc2
      · exact hx
      · exact ih hc2
    · rw [if_neg hx] at hc; simp at hc

theorem mem_takeWhile_mem {p : Char → Bool} :
    ∀ {l : List Char} {c : Char}, c ∈ l.takeWhile p → c ∈ l := by
  intro l c h
  exact (List.takeWhile_sublist p).subset h

theorem map_id_of {f : Char → Char} :
    ∀ l : List Char, (∀ c ∈ l, f c = c) → l.map f = l := by
  intro l h
  induction l with
  | nil => rfl
  | cons c rest ih =>
    simp only [List.map_cons, h c (List.mem_cons_self c rest)]
    rw [ih (fun x hx => h x (List.mem_cons_of_mem c hx))]

theorem joinSlash_eq_joinSep : ∀ segs, joinSlash segs = joinSep '/' segs := by
  intro segs
  induction segs with
  | nil => rfl
  | cons s rest ih =>
    cases rest with
    | nil => rfl
    | cons t rest2 => simp only [joinSlash, joinSep, ih]

theorem splitOnChar_ne_nil (sep : Char) : ∀ l, splitOnChar sep l ≠ [] := by
  intro l
  cases l with
  | nil => simp [splitOnChar]
  | cons c rest =>
    rw [splitOnChar]
    rcases h : splitOnChar sep rest with _ | ⟨x, xs⟩
    · simp
    · by_cases hcs : c = sep <;> simp [hcs]

theorem splitOnChar_sep_cons (sep : Char) (l : List Char) :
    splitOnChar sep (sep :: l) = [] :: splitOnChar sep l := by
  rw [splitOnChar]
  rcases h : splitOnChar sep l with _ | ⟨x, xs⟩
  · exact absurd h (splitOnChar_ne_nil sep l)
  · simp

theorem splitOnChar_nosep_cons (sep c : Char) (l : List Char) (hc : c ≠ sep) :
    splitOnChar sep (c :: l) =
      (c :: (splitOnChar sep l).headD []) :: (splitOnChar sep l).tail := by
  rw [splitOnChar]
  rcases h : splitOnChar sep l with _ | ⟨x, xs⟩
  · exact absurd h (splitOnChar_ne_nil sep l)
  · simp [hc]

theorem splitOnChar_joinSep (sep : Char) :
    ∀ segs : List (List Char), segs ≠ [] →
      (∀ L ∈ segs, ∀ c ∈ L, c ≠ sep) →
      splitOnChar sep (joinSep sep segs) = segs := by
  intro segs
  induction segs with
  | nil => intro h; exact absurd rfl h
  | cons L rest ih =>
    intro hne hfree
    have hLfree : ∀ c ∈ L, c ≠ sep :=
      hfree L (List.mem_cons_self L rest)
    clear hne
    cases rest with
    | nil =>
      -- joinSep sep [L] = L, and splitting a separator-free list is [L]
      show splitOnChar sep L = [L]
      clear ih hfree
      induction L with
      | nil => rfl
      | cons c cs ihL =>
        have hc : c ≠ sep := hLfree c (List.mem_cons_self c cs)
        rw [splitOnChar_nosep_cons sep c cs hc,
          ihL (fun x hx => hLfree x (List.mem_cons_of_mem c hx))]
        rfl
    | cons M rest2 =>
      have hrest : splitOnChar sep (joinSep sep (M :: rest2)) = M :: rest2 :=
        ih (by simp) (fun L2 hL2 => hfree L2 (List.mem_cons_of_mem L hL2))
      show splitOnChar sep (L ++ sep :: joinSep sep (M :: rest2)) = L :: M :: rest2
      clear ih hfree
      induction L with
      | nil =>
        simp only [List.nil_append]
        rw [splitOnChar_sep_cons, hrest]
      | cons c cs ihL =>
        have hc : c ≠ sep := hLfree c (List.mem_cons_self c cs)
        simp only [List.cons_append]
        rw [splitOnChar_nosep_cons sep c _ hc,
          ihL (fun x hx => hLfree x (List.mem_cons_of_mem c hx))]
        rfl

theorem count_eq_zero_of_pred {l : List Char} {a : Char}
    (h : ∀ c ∈ l, c ≠ a) : l.count a = 0 := by
  rw [List.count_eq_zero]
  intro hmem
  exact h a hmem rfl

theorem noDoubleSpace_of_no_space :
    ∀ l : List Char, (∀ c ∈ l, c ≠ ' ') → noDoubleSpace l = true := by
  intro l h
  induction l with
  | nil => rfl
  | cons a rest ih =>
    cases rest with
    | nil => rfl
    | cons b rest2 =>
      have ha : a ≠ ' ' := h a (by simp)
      rw [noDoubleSpace]
      simp only [Bool.and_eq_true, Bool.not_eq_true]
      exact ⟨by simp [ha], ih (fun c hc => h c (List.mem_cons_of_mem a hc))⟩

theorem noDoubleSpace_cons {a : Char} {l : List Char}
    (h : noDoubleSpace (a :: l) = true) : noDoubleSpace l = true := by
  cases l with
  | nil => rfl
  | cons b rest =>
    rw [noDoubleSpace, Bool.and_eq_true] at h
    exact h.2

theorem noDoubleSpace_append :
    ∀ (a b : List Char), noDoubleSpace a = true → noDoubleSpace b = true →
      ¬(a.getLast? = some ' ' ∧ b.head? = some ' ') →
      noDoubleSpace (a ++ b) = true := by
  intro a
  induction a with
  | nil => intro b _ hb _; simpa using hb
  | cons x xs ih =>
    intro b ha hb hjoin
    cases xs with
    | nil =>
      cases b with
      | nil => rfl
      | cons y ys =>
        simp only [List.singleton_append]
        rw [noDoubleSpace, Bool.and_eq_true]
        refine ⟨?_, hb⟩
        by_cases hx : x = ' '
        · have hy : y ≠ ' ' := by
            intro hy
            exact hjoin ⟨by simp [hx], by simp [hy]⟩
          simp [hy]
        · simp [hx]
    | cons z zs =>
      have ha2 : noDoubleSpace (z :: zs) = true := noDoubleSpace_cons ha
      have hpair : (!(x == ' ' && z == ' ')) = true := by
        rw [noDoubleSpace, Bool.and_eq_true] at ha
        exact ha.1
      have hjoin2 : ¬((z :: zs).getLast? = some ' ' ∧ b.head? = some ' ') := by
        intro hc
        exact hjoin ⟨by rw [List.getLast?_cons_cons]; exact hc.1, hc.2⟩
      have := ih b ha2 hb hjoin2
      simp only [List.cons_append] at this ⊢
      rw [noDoubleSpace, Bool.and_eq_true]
      exact ⟨hpair, this⟩

theorem collapseSpaces_id :
    ∀ (fuel : Nat) (l : List Char), noDoubleSpace l = true →
      collapseSpaces fuel l = l := by
  intro fuel
  induction fuel with
  | zero => intro l _; rfl
  | succ fuel ih =>
    intro l h
    cases l with
    | nil => rfl
    | cons c rest =>
      rw [collapseSpaces]
      by_cases hc : c = ' '
      · subst hc
        cases rest with
        | nil => rfl
        | cons c2 rest2 =>
          have hc2 : ¬ c2 = ' ' := by
            rw [noDoubleSpace, Bool.and_eq_true] at h
            have h1 := h.1
            intro hx
            rw [hx] at h1
            simp at h1
          rw [if_pos (show ((' ' : Char) == ' ') = true from rfl)]
          simp only [List.head?_cons]
          rw [if_neg (show ¬ ((c2 == ' ') = true) by simp [hc2])]
          rw [ih (c2 :: rest2) (noDoubleSpace_cons h)]
      · rw [if_neg (show ¬ ((c == ' ') = true) by simp [hc])]
        rw [ih rest (noDoubleSpace_cons h)]

theorem jsTrim_id (l : List Char)
    (hhead : ∀ c, l.head? = some c → jsWs c = false)
    (hlast : ∀ c, l.getLast? = some c → jsWs c = false) :
    jsTrim l = l := by
  unfold jsTrim
  rw [dropWhile_of_head_neg jsWs l (fun c hc => hhead c hc)]
  rw [dropWhile_of_head_neg jsWs l.reverse (fun c hc => hlast c (by
    rw [← List.head?_reverse]; exact hc))]
  exact List.reverse_reverse l

theorem pass6_id (l : List Char) (hnds : noDoubleSpace l = true)
    (hhead : ∀ c, l.head? = some c → jsWs c = false)
    (hlast : ∀ c, l.getLast? = some c → jsWs c = false) :
    pass6 l = l := by
  unfold pass6
  rw [collapseSpaces_id _ l hnds]
  exact jsTrim_id l hhead hlast

/-! ## Character-class bridges -/

theorem toNat_ne_imp_ne {c d : Char} (h : c.toNat ≠ d.toNat) : c ≠ d :=
  fun he => h (by rw [he])

theorem prodTriple_eq {α β γ : Type} {a n : α} {b m : β} {c r : γ}
    (h : (a, b, c) = (n, m, r)) : a = n ∧ b = m ∧ c = r := by
  injection h with h1 h2
  injection h2 with h2 h3
  exact ⟨h1, h2, h3⟩

theorem isLowerChar_toNat {c : Char} (h : isLowerChar c = true) :
    97 ≤ c.toNat ∧ c.toNat ≤ 122 := by
  simpa [isLowerChar] using h

theorem isHexLowerChar_toNat {c : Char} (h : isHexLowerChar c = true) :
    (48 ≤ c.toNat ∧ c.toNat ≤ 57) ∨ (97 ≤ c.toNat ∧ c.toNat ≤ 102) := by
  simp only [isHexLowerChar, isDigitChar, Bool.or_eq_true, Bool.and_eq_true,
    decide_eq_true_eq] at h
  omega

theorem jsWs_eq_false_of_toNat {c : Char} (h : 14 ≤ c.toNat ∧ c.toNat ≠ 32) :
    jsWs c = false := by
  simp only [jsWs, Bool.or_eq_false_iff, beq_eq_false_iff_ne, ne_eq]
  omega

theorem jsToLowerChar_id {c : Char} (h : c.toNat < 65 ∨ 90 < c.toNat) :
    jsToLowerChar c = c := by
  unfold jsToLowerChar
  rw [if_neg]
  simp only [Bool.and_eq_true, decide_eq_true_eq, not_and]
  omega

/-! ## Pass 1: identity away from `://`, and the URL computation -/

theorem schemeSplit_some_colon {l : List Char} {x : List Char × List Char}
    (h : schemeSplit l = some x) : (':' : Char) ∈ l := by
  unfold schemeSplit at h
  split at h
  · rename_i hp
    exact (List.isPrefixOf_iff_prefix.mp hp).subset
      (by decide : (':' : Char) ∈ "https://".toList)
  · split at h
    · rename_i hp
      exact (List.isPrefixOf_iff_prefix.mp hp).subset
        (by decide : (':' : Char) ∈ "http://".toList)
    · cases h

theorem pass1Go_id :
    ∀ (fuel : Nat) (l : List Char), (∀ c ∈ l, c.toNat ≠ 58) →
      pass1Go fuel l = l := by
  intro fuel
  induction fuel with
  | zero => intro l _; rfl
  | succ fuel ih =>
    intro l h
    cases l with
    | nil => rfl
    | cons c rest =>
      simp only [pass1Go]
      rcases hs : schemeSplit (c :: rest) with _ | x
      · rw [ih rest (fun x hx => h x (List.mem_cons_of_mem c hx))]
      · exfalso
        have hcolon := schemeSplit_some_colon hs
        exact h ':' hcolon rfl

theorem pass1Go_nil (fuel : Nat) : pass1Go fuel [] = [] := by
  cases fuel <;> rfl

/-! ## Passes 2 and 3: the repetition parsers and slash-count bounds -/

theorem parseReps2_inv :
    ∀ (fuel : Nat) (l : List Char) (n : Nat) (cons rest : List Char),
      parseReps2 fuel l = (n, cons, rest) →
      cons ++ rest = l ∧ cons.count '/' = n ∧ (n = 0 → cons = []) ∧
        (0 < n → cons.getLast? = some '/') := by
  intro fuel
  induction fuel with
  | zero =>
    intro l n cons rest h
    simp only [parseReps2] at h
    obtain ⟨rfl, rfl, rfl⟩ := prodTriple_eq h
    exact ⟨rfl, rfl, fun _ => rfl, fun hn => by omega⟩
  | succ fuel ih =>
    intro l n cons rest h
    simp only [parseReps2] at h
    split at h
    · obtain ⟨rfl, rfl, rfl⟩ := prodTriple_eq h
      exact ⟨rfl, rfl, fun _ => rfl, fun hn => by omega⟩
    · rename_i hsg
      split at h
      · rename_i d r2 heq
        rcases hx : parseReps2 fuel r2 with ⟨n2, cons2, rest2⟩
        rw [hx] at h
        obtain ⟨rfl, rfl, rfl⟩ := prodTriple_eq h
        obtain ⟨hsplit, hcount, hzero, hlast⟩ := ih r2 n2 cons2 rest2 hx
        have hsgfree : ∀ c ∈ seg2take l, c ≠ '/' := by
          intro c hc
          have := mem_takeWhile_pred hc
          simp only [Bool.not_eq_true', Bool.or_eq_false_iff,
            beq_eq_false_iff_ne, ne_eq] at this
          exact toNat_ne_imp_ne (by simpa using this.2)
        refine ⟨?_, ?_, ?_, ?_⟩
        · have : seg2take l ++ l.drop (seg2take l).length = l :=
            takeWhile_append_drop _ l
          rw [heq] at this
          simpa [List.append_assoc, hsplit] using this
        · rw [List.count_append, count_eq_zero_of_pred hsgfree,
            List.count_cons, hcount]
          simp
        · intro hzero2; omega
        · intro _
          rw [List.getLast?_append_cons]
          rcases hc2 : cons2 with _ | ⟨a, b⟩
          · rfl
          · rw [List.getLast?_cons_cons]
            rcases Nat.eq_zero_or_pos n2 with hz | hpos
            · rw [hzero hz] at hc2; cases hc2
            · have := hlast hpos
              rw [hc2] at this
              exact this
      · obtain ⟨rfl, rfl, rfl⟩ := prodTriple_eq h
        exact ⟨rfl, rfl, fun _ => rfl, fun hn => by omega⟩

theorem chset3_ne_slash {c : Char} (h : chset3 c = true) : c ≠ '/' := by
  simp only [chset3, isLetterChar, isDigitChar, Bool.or_eq_true,
    Bool.and_eq_true, decide_eq_true_eq, beq_iff_eq] at h
  apply toNat_ne_imp_ne
  show c.toNat ≠ 47
  omega

theorem parseReps3_inv :
    ∀ (fuel : Nat) (l : List Char) (n : Nat) (cons rest : List Char),
      parseReps3 fuel l = (n, cons, rest) →
      cons ++ rest = l ∧ cons.count '/' = n ∧ (n = 0 → cons = []) ∧
        (0 < n → cons.getLast? = some '/') := by
  intro fuel
  induction fuel with
  | zero =>
    intro l n cons rest h
    simp only [parseReps3] at h
    obtain ⟨rfl, rfl, rfl⟩ := prodTriple_eq h
    exact ⟨rfl, rfl, fun _ => rfl, fun hn => by omega⟩
  | succ fuel ih =>
    intro l n cons rest h
    simp only [parseReps3] at h
    split at h
    · obtain ⟨rfl, rfl, rfl⟩ := prodTriple_eq h
      exact ⟨rfl, rfl, fun _ => rfl, fun hn => by omega⟩
    · rename_i hsg
      split at h
      · rename_i d r2 heq
        rcases hx : parseReps3 fuel r2 with ⟨n2, cons2, rest2⟩
        rw [hx] at h
        obtain ⟨rfl, rfl, rfl⟩ := prodTriple_eq h
        obtain ⟨hsplit, hcount, hzero, hlast⟩ := ih r2 n2 cons2 rest2 hx
        have hsgfree : ∀ c ∈ l.takeWhile chset3, c ≠ '/' := by
          intro c hc
          exact chset3_ne_slash (mem_takeWhile_pred hc)
        refine ⟨?_, ?_, ?_, ?_⟩
        · have : l.takeWhile chset3 ++ l.drop (l.takeWhile chset3).length = l :=
            takeWhile_append_drop _ l
          rw [heq] at this
          simpa [List.append_assoc, hsplit] using this
        · rw [List.count_append, count_eq_zero_of_pred hsgfree,
            List.count_cons, hcount]
          simp
        · intro hzero2; omega
        · intro _
          rw [List.getLast?_append_cons]
          rcases hc2 : cons2 with _ | ⟨a, b⟩
          · rfl
          · rw [List.getLast?_cons_cons]
            rcases Nat.eq_zero_or_pos n2 with hz | hpos
            · rw [hzero hz] at hc2; cases hc2
            · have := hlast hpos
              rw [hc2] at this
              exact this
      · obtain ⟨rfl, rfl, rfl⟩ := prodTriple_eq h
        exact ⟨rfl, rfl, fun _ => rfl, fun hn => by omega⟩

/-- A pass-2 match needs at least two slashes in the text after the
leading one. -/
theorem tryMatch2_some_count {l : List Char} {x : List Char × List Char}
    (h : tryMatch2 l = some x) : 2 ≤ l.count '/' := by
  unfold tryMatch2 at h
  rcases hx : parseReps2 (l.length + 1) l with ⟨r, cons, rest⟩
  rw [hx] at h
  obtain ⟨hsplit, hcount, hzero, hlast⟩ :=
    parseReps2_inv (l.length + 1) l r cons rest hx
  simp only at h
  split at h
  · split at h
    · rename_i hr
      rw [← hsplit, List.count_append, hcount]
      omega
    · cases h
  · split at h
    · rename_i hr
      rw [← hsplit, List.count_append, hcount]
      omega
    · cases h

theorem tryMatch3_some_count {l : List Char} {x : List Char × List Char}
    (h : tryMatch3 l = some x) : 2 ≤ l.count '/' := by
  unfold tryMatch3 at h
  rcases hx : parseReps3 (l.length + 1) l with ⟨r, cons, rest⟩
  rw [hx] at h
  obtain ⟨hsplit, hcount, hzero, hlast⟩ :=
    parseReps3_inv (l.length + 1) l r cons rest hx
  simp only at h
  split at h
  · split at h
    · rename_i hr
      rw [← hsplit, List.count_append, hcount]
      omega
    · cases h
  · split at h
    · rename_i hr
      rw [← hsplit, List.count_append, hcount]
      omega
    · cases h

/-- Pass 2 never fires on text with at most two slashes. -/
theorem pass2Go_id :
    ∀ (fuel : Nat) (l : List Char), l.count '/' ≤ 2 → pass2Go fuel l = l := by
  intro fuel
  induction fuel with
  | zero => intro l _; rfl
  | succ fuel ih =>
    intro l h
    cases l with
    | nil => rfl
    | cons c rest =>
      simp only [pass2Go]
      have hrest : rest.count '/' ≤ 2 := by
        rw [List.count_cons] at h
        omega
      by_cases hc : (c == '/') = true
      · rw [if_pos hc]
        rcases hm : tryMatch2 rest with _ | m
        · rw [ih rest hrest]
        · exfalso
          have h2 := tryMatch2_some_count hm
          rw [List.count_cons] at h
          simp only [hc] at h
          simp at h
          omega
      · rw [if_neg hc, ih rest hrest]

/-- Pass 3 never fires on text with at most one slash. -/
theorem pass3Go_id :
    ∀ (fuel : Nat) (prev : Option Char) (l : List Char), l.count '/' ≤ 1 →
      pass3Go fuel prev l = l := by
  intro fuel
  induction fuel with
  | zero => intro prev l _; rfl
  | succ fuel ih =>
    intro prev l h
    cases l with
    | nil => rfl
    | cons c rest =>
      simp only [pass3Go]
      have hrest : rest.count '/' ≤ 1 := by
        rw [List.count_cons] at h
        omega
      by_cases hc : (chset3 c && lookbehind3Ok prev) = true
      · rw [if_pos hc]
        rcases hm : tryMatch3 (c :: rest) with _ | m
        · rw [ih (some c) rest hrest]
        · exfalso
          have h2 := tryMatch3_some_count hm
          omega
      · rw [if_neg hc, ih (some c) rest hrest]

/-! ## Pass 4 identity lemmas -/

theorem pass4Go_wordlock :
    ∀ (fuel : Nat) (c : Char) (l : List Char), isWordChar c = true →
      (∀ x ∈ l, isWordChar x = true) → pass4Go fuel (some c) l = l := by
  intro fuel
  induction fuel with
  | zero => intro c l _ _; rfl
  | succ fuel ih =>
    intro c l hc hl
    cases l with
    | nil => rfl
    | cons d rest =>
      simp only [pass4Go, isWordOpt, hc]
      simp only [Bool.not_true, Bool.and_false, Bool.false_eq_true, if_false]
      rw [ih d rest (hl d (List.mem_cons_self d rest))
        (fun x hx => hl x (List.mem_cons_of_mem d hx))]

theorem pass4Go_id_nodigit :
    ∀ (fuel : Nat) (prev : Option Char) (l : List Char),
      (∀ c ∈ l, isDigitChar c = false) → pass4Go fuel prev l = l := by
  intro fuel
  induction fuel with
  | zero => intro prev l _; rfl
  | succ fuel ih =>
    intro prev l h
    cases l with
    | nil => rfl
    | cons c rest =>
      simp only [pass4Go]
      by_cases hcond : (isHexChar c && !isWordOpt prev) = true
      · rw [if_pos hcond]
        by_cases hlen : (8 ≤ ((c :: rest).takeWhile isHexChar).length &&
            endBoundary ((c :: rest).drop
              ((c :: rest).takeWhile isHexChar).length)) = true
        · rw [if_pos hlen]
          have hnod : ((c :: rest).takeWhile isHexChar).any isDigitChar = false := by
            cases hx : ((c :: rest).takeWhile isHexChar).any isDigitChar
            · rfl
            · obtain ⟨y, hy, hyd⟩ := List.any_eq_true.mp hx
              rw [h y (mem_takeWhile_mem hy)] at hyd
              cases hyd
          rw [show (((c :: rest).takeWhile isHexChar).any isDigitChar &&
              ((c :: rest).takeWhile isHexChar).any isHexLetterChar) = false by
            rw [hnod]; rfl]
          simp only [Bool.false_eq_true, if_false]
          rw [ih (some (((c :: rest).takeWhile isHexChar).getLastD c))
            ((c :: rest).drop ((c :: rest).takeWhile isHexChar).length)
            (fun x hx => h x (List.drop_subset _ _ hx))]
          exact takeWhile_append_drop isHexChar (c :: rest)
        · rw [if_neg hlen]
          rw [ih (some c) rest (fun x hx => h x (List.mem_cons_of_mem c hx))]
      · rw [if_neg hcond]
        rw [ih (some c) rest (fun x hx => h x (List.mem_cons_of_mem c hx))]

theorem pass4Go_id_noletter :
    ∀ (fuel : Nat) (prev : Option Char) (l : List Char),
      (∀ c ∈ l, isHexLetterChar c = false) → pass4Go fuel prev l = l := by
  intro fuel
  induction fuel with
  | zero => intro prev l _; rfl
  | succ fuel ih =>
    intro prev l h
    cases l with
    | nil => rfl
    | cons c rest =>
      simp only [pass4Go]
      by_cases hcond : (isHexChar c && !isWordOpt prev) = true
      · rw [if_pos hcond]
        by_cases hlen : (8 ≤ ((c :: rest).takeWhile isHexChar).length &&
            endBoundary ((c :: rest).drop
              ((c :: rest).takeWhile isHexChar).length)) = true
        · rw [if_pos hlen]
          have hnol : ((c :: rest).takeWhile isHexChar).any isHexLetterChar = false := by
            cases hx : ((c :: rest).takeWhile isHexChar).any isHexLetterChar
            · rfl
            · obtain ⟨y, hy, hyd⟩ := List.any_eq_true.mp hx
              rw [h y (mem_takeWhile_mem hy)] at hyd
              cases hyd
          rw [show (((c :: rest).takeWhile isHexChar).any isDigitChar &&
              ((c :: rest).takeWhile isHexChar).any isHexLetterChar) = false by
            rw [hnol, Bool.and_false]]
          simp only [Bool.false_eq_true, if_false]
          rw [ih (some (((c :: rest).takeWhile isHexChar).getLastD c))
            ((c :: rest).drop ((c :: rest).takeWhile isHexChar).length)
            (fun x hx => h x (List.drop_subset _ _ hx))]
          exact takeWhile_append_drop isHexChar (c :: rest)
        · rw [if_neg hlen]
          rw [ih (some c) rest (fun x hx => h x (List.mem_cons_of_mem c hx))]
      · rw [if_neg hcond]
        rw [ih (some c) rest (fun x hx => h x (List.mem_cons_of_mem c hx))]

/-! ## Pass 5 identity lemma -/

theorem parseDotSegs_no_dot {fuel : Nat} {l : List Char}
    (h : l.head? ≠ some '.') : parseDotSegs fuel l = (0, [], l) := by
  cases fuel with
  | zero => rfl
  | succ fuel =>
    cases l with
    | nil => rfl
    | cons c r =>
      have hc : c ≠ '.' := by
        intro hc
        exact h (by rw [hc]; rfl)
      simp only [parseDotSegs]
      split
      · rename_i r2 heq
        injection heq with h1 h2
        exact absurd h1 hc
      · rfl

theorem tryMatch5_none_nodot {l : List Char} (h : ∀ c ∈ l, c ≠ '.') :
    tryMatch5 l = none := by
  simp only [tryMatch5]
  have hhead : (l.drop (seg5take l).length).head? ≠ some '.' := by
    intro hh
    exact h '.' (List.drop_subset _ _ (List.mem_of_mem_head? hh)) rfl
  rw [parseDotSegs_no_dot hhead]
  simp only
  split <;> simp

theorem pass5Go_id_nodot :
    ∀ (fuel : Nat) (prev : Option Char) (l : List Char),
      (∀ c ∈ l, c ≠ '.') → pass5Go fuel prev l = l := by
  intro fuel
  induction fuel with
  | zero => intro prev l _; rfl
  | succ fuel ih =>
    intro prev l h
    cases l with
    | nil => rfl
    | cons c rest =>
      simp only [pass5Go]
      by_cases hcond : (isLetterChar c && !isWordOpt prev) = true
      · rw [if_pos hcond, tryMatch5_none_nodot h]
        rw [ih (some c) rest (fun x hx => h x (List.mem_cons_of_mem c hx))]
      · rw [if_neg hcond]
        rw [ih (some c) rest (fun x hx => h x (List.mem_cons_of_mem c hx))]

/-! ## The hex family (claim C8, 32-character hexadecimal strings) -/

theorem pass4Go_nil (fuel : Nat) (prev : Option Char) :
    pass4Go fuel prev [] = [] := by
  cases fuel <;> rfl

theorem pass5Go_nil (fuel : Nat) (prev : Option Char) :
    pass5Go fuel prev [] = [] := by
  cases fuel <;> rfl

theorem pass2Go_nil (fuel : Nat) : pass2Go fuel [] = [] := by
  cases fuel <;> rfl

theorem pass3Go_nil (fuel : Nat) (prev : Option Char) :
    pass3Go fuel prev [] = [] := by
  cases fuel <;> rfl

theorem isHexLowerChar_props {c : Char} (h : isHexLowerChar c = true) :
    isHexChar c = true ∧ c.toNat ≠ 58 ∧ c ≠ '/' ∧ c ≠ '.' ∧
      jsWs c = false ∧ isWordChar c = true := by
  have hb := isHexLowerChar_toNat h
  refine ⟨?_, ?_, ?_, ?_, ?_, ?_⟩
  · simp only [isHexChar, isDigitChar, Bool.or_eq_true, Bool.and_eq_true,
      decide_eq_true_eq]
    omega
  · omega
  · exact toNat_ne_imp_ne (show c.toNat ≠ 47 by omega)
  · exact toNat_ne_imp_ne (show c.toNat ≠ 46 by omega)
  · simp only [jsWs, Bool.or_eq_false_iff, beq_eq_false_iff_ne, ne_eq]
    omega
  · simp only [isWordChar, isDigitChar, isLetterChar, Bool.or_eq_true,
      Bool.and_eq_true, decide_eq_true_eq, beq_iff_eq]
    omega

/-- Pass 4 on a whole-string hex run of length at least 8. -/
theorem pass4_hexrun (s : List Char) (hne : s ≠ [])
    (hall : ∀ c ∈ s, isHexChar c = true) (hlen : 8 ≤ s.length) :
    pass4 s = (if s.any isDigitChar && s.any isHexLetterChar
      then "hash ".toList ++ s.take 6 else s) := by
  unfold pass4
  obtain ⟨c, rest, rfl⟩ := List.exists_cons_of_ne_nil hne
  simp only [pass4Go]
  rw [if_pos (show (isHexChar c && !isWordOpt none) = true by
    rw [hall c (List.mem_cons_self c rest)]; rfl)]
  rw [takeWhile_all isHexChar (c :: rest) hall]
  rw [List.drop_length]
  rw [if_pos (show (decide (8 ≤ (c :: rest).length) && endBoundary []) = true by
    rw [decide_eq_true hlen]; rfl)]
  rw [pass4Go_nil]
  split <;> simp

/-- Pass 4 skips a non-hex character. -/
theorem pass4Go_step_nohex (fuel : Nat) (prev : Option Char) (c : Char)
    (l : List Char) (hc : isHexChar c = false) :
    pass4Go (fuel + 1) prev (c :: l) = c :: pass4Go fuel (some c) l := by
  simp only [pass4Go, hc, Bool.false_and, Bool.false_eq_true, if_false]

/-- Pass 4 cannot start a match right after a word character. -/
theorem pass4Go_step_word (fuel : Nat) (prev : Option Char) (c : Char)
    (l : List Char) (hprev : isWordOpt prev = true) :
    pass4Go (fuel + 1) prev (c :: l) = c :: pass4Go fuel (some c) l := by
  simp only [pass4Go, hprev, Bool.not_true, Bool.and_false,
    Bool.false_eq_true, if_false]

/-- A hex run shorter than 8 after a space never matches. -/
theorem pass4Go_shortHex :
    ∀ (fuel : Nat) (t : List Char), (∀ c ∈ t, isHexChar c = true) →
      t.length < 8 → pass4Go fuel (some ' ') t = t := by
  intro fuel t hall hlen
  cases fuel with
  | zero => rfl
  | succ fuel =>
    cases t with
    | nil => rfl
    | cons c trest =>
      simp only [pass4Go]
      rw [if_pos (show (isHexChar c && !isWordOpt (some ' ')) = true by
        rw [hall c (List.mem_cons_self c trest)]; rfl)]
      rw [takeWhile_all isHexChar (c :: trest) hall]
      rw [if_neg (show ¬ ((decide (8 ≤ (c :: trest).length) &&
          endBoundary ((c :: trest).drop (c :: trest).length)) = true) by
        rw [decide_eq_false (by omega)]; simp)]
      congr 1
      apply pass4Go_wordlock
      · have := isHexLowerChar_props (c := c)
        simp only [isWordChar, isHexChar, isDigitChar, isLetterChar,
          Bool.or_eq_true, Bool.and_eq_true, decide_eq_true_eq, beq_iff_eq]
        have hc := hall c (List.mem_cons_self c trest)
        simp only [isHexChar, isDigitChar, Bool.or_eq_true, Bool.and_eq_true,
          decide_eq_true_eq] at hc
        omega
      · intro x hx
        have hc := hall x (List.mem_cons_of_mem c hx)
        simp only [isHexChar, isDigitChar, Bool.or_eq_true, Bool.and_eq_true,
          decide_eq_true_eq] at hc
        simp only [isWordChar, isDigitChar, isLetterChar, Bool.or_eq_true,
          Bool.and_eq_true, decide_eq_true_eq, beq_iff_eq]
        omega

/-- Pass 4 leaves `"hash "` followed by a short hex run unchanged. -/
theorem pass4_hash (t : List Char) (hall : ∀ c ∈ t, isHexChar c = true)
    (hlen : t.length < 8) :
    pass4 ("hash ".toList ++ t) = "hash ".toList ++ t := by
  unfold pass4
  rw [show "hash ".toList = ['h', 'a', 's', 'h', ' '] from rfl]
  have hfuel : (['h', 'a', 's', 'h', ' '] ++ t).length + 1 = (t.length + 1) + 5 := by
    simp [List.length_append]
  rw [hfuel]
  simp only [List.cons_append, List.nil_append]
  rw [show (t.length + 1) + 5 = ((t.length + 1) + 4) + 1 from rfl,
    pass4Go_step_nohex _ _ 'h' _ (by decide)]
  rw [show (t.length + 1) + 4 = ((t.length + 1) + 3) + 1 from rfl,
    pass4Go_step_word _ _ 'a' _ (by decide)]
  rw [show (t.length + 1) + 3 = ((t.length + 1) + 2) + 1 from rfl,
    pass4Go_step_nohex _ _ 's' _ (by decide)]
  rw [show (t.length + 1) + 2 = ((t.length + 1) + 1) + 1 from rfl,
    pass4Go_step_nohex _ _ 'h' _ (by decide)]
  rw [pass4Go_step_nohex _ _ ' ' _ (by decide)]
  rw [pass4Go_shortHex _ t hall hlen]

theorem mem_of_getLast? {l : List Char} {c : Char}
    (h : l.getLast? = some c) : c ∈ l := by
  obtain ⟨hh, rfl⟩ :=
    List.mem_getLast?_eq_getLast (show c ∈ l.getLast? from by
      rw [Option.mem_def, h])
  exact List.getLast_mem hh

theorem pass1_id (l : List Char) (h : ∀ c ∈ l, c.toNat ≠ 58) :
    pass1 l = l := pass1Go_id _ l h

theorem pass2_id (l : List Char) (h : l.count '/' ≤ 2) :
    pass2 l = l := pass2Go_id _ l h

theorem pass3_id (l : List Char) (h : l.count '/' ≤ 1) :
    pass3 l = l := pass3Go_id _ none l h

theorem pass4_id_nodigit (l : List Char)
    (h : ∀ c ∈ l, isDigitChar c = false) : pass4 l = l :=
  pass4Go_id_nodigit _ none l h

theorem pass4_id_noletter (l : List Char)
    (h : ∀ c ∈ l, isHexLetterChar c = false) : pass4 l = l :=
  pass4Go_id_noletter _ none l h

theorem pass5_id_nodot (l : List Char) (h : ∀ c ∈ l, c ≠ '.') :
    pass5 l = l := pass5Go_id_nodot _ none l h

/-- Pass-6 identity packaged for a list of letters-or-space characters with
no double spaces and non-space ends. -/
theorem pass6_id_nospace (l : List Char) (h : ∀ c ∈ l, c ≠ ' ' ∧ jsWs c = false) :
    pass6 l = l := by
  apply pass6_id
  · exact noDoubleSpace_of_no_space l (fun c hc => (h c hc).1)
  · intro c hc
    exact (h c (List.mem_of_mem_head? hc)).2
  · intro c hc
    exact (h c (mem_of_getLast? hc)).2

/-! ## The dotted-identifier family (claim C8) -/

theorem isLowerChar_props {c : Char} (h : isLowerChar c = true) :
    c.toNat ≠ 58 ∧ c ≠ '/' ∧ c ≠ '.' ∧ c ≠ ' ' ∧ jsWs c = false ∧
      isLetterChar c = true ∧ isWordChar c = true ∧ isDigitChar c = false ∧
      (isLetterChar c || isDigitChar c) = true ∧ jsToLowerChar c = c := by
  have hb := isLowerChar_toNat h
  refine ⟨by omega, toNat_ne_imp_ne (show c.toNat ≠ 47 by omega),
    toNat_ne_imp_ne (show c.toNat ≠ 46 by omega),
    toNat_ne_imp_ne (show c.toNat ≠ 32 by omega),
    jsWs_eq_false_of_toNat (by omega), ?_, ?_, ?_, ?_,
    jsToLowerChar_id (by omega)⟩
  · simp only [isLetterChar, Bool.or_eq_true, Bool.and_eq_true,
      decide_eq_true_eq]
    omega
  · simp only [isWordChar, isDigitChar, isLetterChar, Bool.or_eq_true,
      Bool.and_eq_true, decide_eq_true_eq, beq_iff_eq]
    omega
  · simp only [isDigitChar, Bool.and_eq_false_iff, decide_eq_false_iff_not]
    omega
  · simp only [isLetterChar, isDigitChar, Bool.or_eq_true, Bool.and_eq_true,
      decide_eq_true_eq]
    omega

/-- One `\.[a-zA-Z][a-zA-Z0-9]*` repetition of the pass-5 group. -/
theorem parseDotSegs_step (fuel : Nat) (d : Char) (sg2 rest : List Char)
    (hd : isLetterChar d = true)
    (hall : ∀ c ∈ d :: sg2, (isLetterChar c || isDigitChar c) = true)
    (hrest : rest = [] ∨ rest.head? = some '.') :
    parseDotSegs (fuel + 1) ('.' :: d :: (sg2 ++ rest)) =
      ((parseDotSegs fuel rest).1 + 1,
        (d :: sg2) :: (parseDotSegs fuel rest).2.1,
        (parseDotSegs fuel rest).2.2) := by
  simp only [parseDotSegs, hd, if_true]
  have hseg : seg5take (d :: (sg2 ++ rest)) = d :: sg2 := by
    unfold seg5take
    rcases hrest with rfl | hh
    · rw [List.append_nil]
      exact takeWhile_all _ _ hall
    · rcases rest with _ | ⟨r0, rrest⟩
      · cases hh
      · injection hh with hh
        subst hh
        rw [show d :: (sg2 ++ '.' :: rrest) = (d :: sg2) ++ '.' :: rrest by simp]
        exact takeWhile_append_not (d :: sg2) '.' rrest hall (by decide)
  rw [hseg]
  rw [show (d :: (sg2 ++ rest)).drop (d :: sg2).length = rest from by
    rw [show d :: (sg2 ++ rest) = (d :: sg2) ++ rest by simp]
    exact List.drop_left (d :: sg2) rest]

/-- Two dot-free lists followed by a dot agree when one heads a prefix of
the other. -/
theorem prefix_dot_eq :
    ∀ (a b rest : List Char), (∀ c ∈ a, c ≠ '.') → (∀ c ∈ b, c ≠ '.') →
      (a ++ ['.']) <+: (b ++ '.' :: rest) → a = b := by
  intro a
  induction a with
  | nil =>
    intro b rest _ hb hp
    cases b with
    | nil => rfl
    | cons y ys =>
      obtain ⟨t, ht⟩ := hp
      simp only [List.nil_append, List.cons_append] at ht
      injection ht with h1 _
      exact absurd h1.symm (hb y (by simp))
  | cons x xs ih =>
    intro b rest ha hb hp
    cases b with
    | nil =>
      obtain ⟨t, ht⟩ := hp
      simp only [List.cons_append, List.nil_append] at ht
      injection ht with h1 _
      exact absurd h1 (ha x (by simp))
    | cons y ys =>
      obtain ⟨t, ht⟩ := hp
      simp only [List.cons_append] at ht
      injection ht with h1 h2
      subst h1
      rw [ih ys rest (fun c hc => ha c (by simp [hc]))
        (fun c hc => hb c (by simp [hc])) ⟨t, by simpa using h2⟩]

theorem knownExts_dotfree : ∀ e ∈ knownExts, ∀ c ∈ e, c ≠ '.' := by decide

theorem joinSep_concat (sep : Char) :
    ∀ (segs : List (List Char)) (last : List Char),
      joinSep sep (segs ++ [last]) = consSep sep segs ++ last := by
  intro segs
  induction segs with
  | nil => intro last; simp [joinSep, consSep]
  | cons s rest ih =>
    intro last
    cases rest with
    | nil => simp [joinSep, consSep]
    | cons t rest2 =>
      rw [show joinSep sep ((s :: t :: rest2) ++ [last]) =
          s ++ sep :: joinSep sep ((t :: rest2) ++ [last]) from rfl]
      rw [ih last]
      simp [consSep]

theorem mem_consSep {sep c : Char} :
    ∀ segs : List (List Char), c ∈ consSep sep segs →
      c = sep ∨ ∃ s ∈ segs, c ∈ s := by
  intro segs
  induction segs with
  | nil => intro h; cases h
  | cons s rest ih =>
    intro h
    simp only [consSep, List.mem_append, List.mem_cons] at h
    rcases h with h | h | h
    · exact Or.inr ⟨s, by simp, h⟩
    · exact Or.inl h
    · rcases ih h with h2 | ⟨t, ht, hc⟩
      · exact Or.inl h2
      · exact Or.inr ⟨t, List.mem_cons_of_mem s ht, hc⟩

theorem contains_eq_false_of_not_mem {l : List Char} {a : Char} (h : a ∉ l) :
    l.contains a = false := by
  induction l with
  | nil => rfl
  | cons c cs ih =>
    simp only [List.mem_cons, not_or] at h
    simp only [List.contains_cons, Bool.or_eq_false_iff]
    refine ⟨?_, ih h.2⟩
    simp only [beq_eq_false_iff_ne, ne_eq]
    exact h.1

theorem isPrefixOf_append_self :
    ∀ (a b : List Char), List.isPrefixOf a (a ++ b) = true := by
  intro a
  induction a with
  | nil => intro b; simp [List.isPrefixOf]
  | cons c cs ih => intro b; simp [List.isPrefixOf, ih b]

theorem isPrefixOf_cons (a b : Char) (as bs : List Char) :
    List.isPrefixOf (a :: as) (b :: bs) = (a == b && List.isPrefixOf as bs) :=
  rfl

theorem schemeSplit_schL (secure : Bool) (host : List Char) :
    schemeSplit (schL secure ++ host) = some (schL secure, host) := by
  cases secure with
  | true =>
    show schemeSplit ("https://".toList ++ host) = some ("https://".toList, host)
    unfold schemeSplit
    rw [if_pos (isPrefixOf_append_self _ host)]
    rw [show (8 : Nat) = ("https://".toList).length from rfl, List.drop_left]
  | false =>
    show schemeSplit ("http://".toList ++ host) = some ("http://".toList, host)
    unfold schemeSplit
    rw [if_neg (by
      rw [show "https://".toList =
          'h' :: 't' :: 't' :: 'p' :: 's' :: ':' :: '/' :: '/' ::
            ([] : List Char) from rfl,
        show "http://".toList ++ host =
          'h' :: 't' :: 't' :: 'p' :: ':' :: '/' :: '/' :: host from rfl]
      simp only [isPrefixOf_cons]
      rw [show (('s' : Char) == ':') = false from by decide]
      simp)]
    rw [if_pos (isPrefixOf_append_self _ host)]
    rw [show (7 : Nat) = ("http://".toList).length from rfl, List.drop_left]

theorem afterLastAt_no_at (l : List Char) (h : ∀ c ∈ l, c.toNat ≠ 64) :
    afterLastAt l = l := by
  unfold afterLastAt
  rw [takeWhile_all _ l.reverse (by
    intro c hc
    have := h c (List.mem_reverse.mp hc)
    simp [this])]
  exact List.reverse_reverse l

theorem mem_joinSep {sep c : Char} :
    ∀ labels : List (List Char), c ∈ joinSep sep labels →
      c = sep ∨ ∃ s ∈ labels, c ∈ s := by
  intro labels
  induction labels with
  | nil => intro h; cases h
  | cons s rest ih =>
    cases rest with
    | nil =>
      intro h
      exact Or.inr ⟨s, by simp, h⟩
    | cons t rest2 =>
      intro h
      simp only [joinSep, List.mem_append, List.mem_cons] at h
      rcases h with h | h | h
      · exact Or.inr ⟨s, by simp, h⟩
      · exact Or.inl h
      · rcases ih h with h2 | ⟨u, hu, hc⟩
        · exact Or.inl h2
        · exact Or.inr ⟨u, List.mem_cons_of_mem s hu, hc⟩

theorem mem_dotSpoken {c : Char} :
    ∀ labels : List (List Char), c ∈ dotSpoken labels →
      c = ' ' ∨ c = 'd' ∨ c = 'o' ∨ c = 't' ∨ ∃ s ∈ labels, c ∈ s := by
  intro labels
  induction labels with
  | nil => intro h; cases h
  | cons s rest ih =>
    cases rest with
    | nil =>
      intro h
      exact Or.inr (Or.inr (Or.inr (Or.inr ⟨s, by simp, h⟩)))
    | cons t rest2 =>
      intro h
      simp only [dotSpoken, List.mem_append, List.mem_cons] at h
      rcases h with h | h | h | h | h | h | h
      · exact Or.inr (Or.inr (Or.inr (Or.inr ⟨s, by simp, h⟩)))
      · exact Or.inl h
      · exact Or.inr (Or.inl h)
      · exact Or.inr (Or.inr (Or.inl h))
      · exact Or.inr (Or.inr (Or.inr (Or.inl h)))
      · exact Or.inl h
      · rcases ih h with h2 | h2 | h2 | h2 | ⟨u, hu, hc⟩
        · exact Or.inl h2
        · exact Or.inr (Or.inl h2)
        · exact Or.inr (Or.inr (Or.inl h2))
        · exact Or.inr (Or.inr (Or.inr (Or.inl h2)))
        · exact Or.inr (Or.inr (Or.inr (Or.inr
            ⟨u, List.mem_cons_of_mem s hu, hc⟩)))

theorem joinSep_head? (sep c : Char) (L2 : List Char) :
    ∀ rest : List (List Char),
      (joinSep sep ((c :: L2) :: rest)).head? = some c := by
  intro rest
  cases rest with
  | nil => rfl
  | cons t rest2 => rfl

theorem dotSpoken_head? (c : Char) (L2 : List Char) :
    ∀ rest : List (List Char),
      (dotSpoken ((c :: L2) :: rest)).head? = some c := by
  intro rest
  cases rest with
  | nil => rfl
  | cons t rest2 => rfl

theorem joinSep_ne_nil (sep c : Char) (L2 : List Char)
    (rest : List (List Char)) : joinSep sep ((c :: L2) :: rest) ≠ [] := by
  intro h
  have := joinSep_head? sep c L2 rest
  rw [h] at this
  cases this

theorem expandDots_append_free (A B : List Char)
    (hA : ∀ c ∈ A, c.toNat ≠ 46) :
    expandDots (A ++ B) = A ++ expandDots B := by
  induction A with
  | nil => rfl
  | cons c cs ih =>
    simp only [List.cons_append, expandDots]
    rw [if_neg (by simp [hA c (by simp)])]
    rw [show (cs.append B : List Char) = cs ++ B from rfl,
      ih (fun x hx => hA x (List.mem_cons_of_mem c hx))]

theorem expandDots_free_id (A : List Char) (hA : ∀ c ∈ A, c.toNat ≠ 46) :
    expandDots A = A := by
  have := expandDots_append_free A [] hA
  simpa [expandDots] using this

theorem expandDots_joinSep :
    ∀ labels : List (List Char),
      (∀ s ∈ labels, ∀ c ∈ s, c.toNat ≠ 46) →
      expandDots (joinSep '.' labels) = dotSpoken labels := by
  intro labels
  induction labels with
  | nil => intro _; rfl
  | cons s rest ih =>
    intro h
    cases rest with
    | nil =>
      show expandDots s = s
      exact expandDots_free_id s (h s (by simp))
    | cons t rest2 =>
      show expandDots (s ++ '.' :: joinSep '.' (t :: rest2)) =
        s ++ ' ' :: 'd' :: 'o' :: 't' :: ' ' :: dotSpoken (t :: rest2)
      rw [expandDots_append_free s _ (h s (by simp))]
      simp only [expandDots]
      rw [if_pos (by decide)]
      rw [ih (fun u hu => h u (List.mem_cons_of_mem s hu))]

theorem plainChar_toNat {c : Char} (h : plainChar c = true) :
    (65 ≤ c.toNat ∧ c.toNat ≤ 90) ∨ (97 ≤ c.toNat ∧ c.toNat ≤ 122) ∨
      (48 ≤ c.toNat ∧ c.toNat ≤ 57) ∨ c.toNat = 45 ∨ c.toNat = 95 := by
  simp only [plainChar, isLetterChar, isDigitChar, Bool.or_eq_true,
    Bool.and_eq_true, decide_eq_true_eq, beq_iff_eq] at h
  omega

theorem plainChar_props {c : Char} (h : plainChar c = true) :
    c.toNat ≠ 58 ∧ c ≠ '/' ∧ c ≠ '.' ∧ c ≠ ' ' ∧ jsWs c = false ∧
      (!(jsWs c || c.toNat == 47)) = true := by
  have hb := plainChar_toNat h
  have hws : jsWs c = false := jsWs_eq_false_of_toNat (by omega)
  refine ⟨by omega, toNat_ne_imp_ne (show c.toNat ≠ 47 by omega),
    toNat_ne_imp_ne (show c.toNat ≠ 46 by omega),
    toNat_ne_imp_ne (show c.toNat ≠ 32 by omega), hws, ?_⟩
  simp only [hws, Bool.false_or, Bool.not_eq_eq_eq_not, Bool.not_true,
    beq_eq_false_iff_ne, ne_eq]
  omega

theorem hostChar_toNat {c : Char} (h : hostChar c = true) :
    (65 ≤ c.toNat ∧ c.toNat ≤ 90) ∨ (97 ≤ c.toNat ∧ c.toNat ≤ 122) ∨
      (48 ≤ c.toNat ∧ c.toNat ≤ 57) ∨ c.toNat = 45 := by
  simp only [hostChar, isLetterChar, isDigitChar, Bool.or_eq_true,
    Bool.and_eq_true, decide_eq_true_eq, beq_iff_eq] at h
  omega

theorem hostChar_plain {c : Char} (h : hostChar c = true) :
    plainChar c = true := by
  simp only [hostChar, Bool.or_eq_true] at h
  simp only [plainChar, Bool.or_eq_true]
  tauto

theorem alnum_plain {c : Char} (h : (isLetterChar c || isDigitChar c) = true) :
    plainChar c = true := by
  simp only [Bool.or_eq_true] at h
  simp only [plainChar, Bool.or_eq_true]
  tauto

theorem toNat_jsToLowerChar (c : Char) :
    (jsToLowerChar c).toNat =
      if 65 ≤ c.toNat ∧ c.toNat ≤ 90 then c.toNat + 32 else c.toNat := by
  unfold jsToLowerChar
  by_cases h : 65 ≤ c.toNat ∧ c.toNat ≤ 90
  · rw [if_pos (by simp [h.1, h.2]), if_pos h]
    have hv : (c.toNat + 32).isValidChar := Or.inl (by omega)
    unfold Char.ofNat
    rw [dif_pos hv]
    rfl
  · rw [if_neg (by
      simp only [Bool.and_eq_true, decide_eq_true_eq]
      exact fun hx => h ⟨hx.1, hx.2⟩), if_neg h]

theorem jsToLower_plain_of_hostChar {c : Char} (h : hostChar c = true) :
    plainChar (jsToLowerChar c) = true := by
  have hb := hostChar_toNat h
  simp only [plainChar, isLetterChar, isDigitChar, Bool.or_eq_true,
    Bool.and_eq_true, decide_eq_true_eq, beq_iff_eq]
  rw [toNat_jsToLowerChar]
  split <;> omega

theorem jsToLower_toNat_of_hostChar {c : Char} (h : hostChar c = true) :
    (jsToLowerChar c).toNat ≠ 46 := by
  have hb := hostChar_toNat h
  rw [toNat_jsToLowerChar]
  split <;> omega

theorem jsToLower_ne_dot_of_plain {c : Char} (h : plainChar c = true) :
    jsToLowerChar c ≠ '.' := by
  have hb := plainChar_toNat h
  apply toNat_ne_imp_ne
  rw [toNat_jsToLowerChar]
  show _ ≠ 46
  split <;> omega

theorem takeWhile_append_sep {p : Char → Bool} {s : Char} (hs : p s = false) :
    ∀ (a b : List Char), (a ++ s :: b).takeWhile p = a.takeWhile p := by
  intro a b
  induction a with
  | nil => simp [List.takeWhile_cons, hs]
  | cons x xs ih =>
    simp only [List.cons_append, List.takeWhile_cons]
    by_cases hx : p x = true
    · simp [hx, ih]
    · simp [hx]

theorem hexRunsOk_cons {c : Char} {l : List Char}
    (h : hexRunsOk (c :: l) = true) : hexRunsOk l = true := by
  rw [hexRunsOk, Bool.and_eq_true] at h
  exact h.2

theorem hexRunsOk_head {c : Char} {l : List Char}
    (h : hexRunsOk (c :: l) = true) :
    (decide (8 ≤ ((c :: l).takeWhile isHexChar).length) &&
      ((c :: l).takeWhile isHexChar).any isDigitChar &&
      ((c :: l).takeWhile isHexChar).any isHexLetterChar) = false := by
  rw [hexRunsOk, Bool.and_eq_true] at h
  have h1 := h.1
  simp only [Bool.not_eq_true'] at h1
  exact h1

theorem hexRunsOk_suffix :
    ∀ (a b : List Char), hexRunsOk (a ++ b) = true → hexRunsOk b = true := by
  intro a
  induction a with
  | nil => intro b h; exact h
  | cons x xs ih => intro b h; exact ih b (hexRunsOk_cons h)

theorem hexRunsOk_cons_eq (c : Char) (l : List Char) :
    hexRunsOk (c :: l) =
      (!(decide (8 ≤ ((c :: l).takeWhile isHexChar).length) &&
        ((c :: l).takeWhile isHexChar).any isDigitChar &&
        ((c :: l).takeWhile isHexChar).any isHexLetterChar) &&
        hexRunsOk l) := rfl

theorem hexRunsOk_cons_nohex {c : Char} (hc : isHexChar c = false)
    (l : List Char) : hexRunsOk (c :: l) = hexRunsOk l := by
  rw [hexRunsOk_cons_eq]
  rw [List.takeWhile_cons_of_neg (by simp [hc])]
  simp

/-- Pass 4 is the identity when no examined hex run is replaced. -/
theorem pass4Go_id_runs :
    ∀ (fuel : Nat) (prev : Option Char) (l : List Char),
      hexRunsOk l = true → pass4Go fuel prev l = l := by
  intro fuel
  induction fuel with
  | zero => intro prev l _; rfl
  | succ fuel ih =>
    intro prev l h
    cases l with
    | nil => rfl
    | cons c rest =>
      simp only [pass4Go]
      by_cases hg : (isHexChar c && !isWordOpt prev) = true
      · rw [if_pos hg]
        by_cases hlong : (decide (8 ≤ ((c :: rest).takeWhile isHexChar).length) &&
            endBoundary ((c :: rest).drop
              ((c :: rest).takeWhile isHexChar).length)) = true
        · rw [if_pos hlong]
          have h8 : decide (8 ≤ ((c :: rest).takeWhile isHexChar).length) = true :=
            (Bool.and_eq_true .. |>.mp hlong).1
          have hDL : (((c :: rest).takeWhile isHexChar).any isDigitChar &&
              ((c :: rest).takeWhile isHexChar).any isHexLetterChar) = false := by
            have hh := hexRunsOk_head h
            rw [h8] at hh
            simpa using hh
          rw [if_neg (by rw [hDL]; simp)]
          have hsp := takeWhile_append_drop isHexChar (c :: rest)
          have h2 : hexRunsOk ((c :: rest).takeWhile isHexChar ++
              (c :: rest).drop ((c :: rest).takeWhile isHexChar).length) = true := by
            rw [hsp]; exact h
          rw [ih _ _ (hexRunsOk_suffix _ _ h2)]
          exact hsp
        · rw [if_neg hlong]
          rw [ih (some c) rest (hexRunsOk_cons h)]
      · rw [if_neg hg]
        rw [ih (some c) rest (hexRunsOk_cons h)]

theorem pass4_id_runs (l : List Char) (h : hexRunsOk l = true) :
    pass4 l = l := pass4Go_id_runs _ none l h

theorem hexRunsOk_append_sep {s : Char} (hs : isHexChar s = false) :
    ∀ (a b : List Char), hexRunsOk a = true → hexRunsOk b = true →
      hexRunsOk (a ++ s :: b) = true := by
  intro a
  induction a with
  | nil =>
    intro b _ hb
    rw [List.nil_append, hexRunsOk_cons_nohex hs]
    exact hb
  | cons x xs ih =>
    intro b ha hb
    rw [List.cons_append, hexRunsOk_cons_eq, Bool.and_eq_true]
    refine ⟨?_, ih b (hexRunsOk_cons ha) hb⟩
    rw [show ((x :: (xs ++ s :: b)).takeWhile isHexChar) =
        ((x :: xs).takeWhile isHexChar) from by
      rw [show x :: (xs ++ s :: b) = (x :: xs) ++ s :: b from rfl]
      exact takeWhile_append_sep hs (x :: xs) b]
    simp [hexRunsOk_head ha]

theorem hexRunsOk_of_nodigit :
    ∀ l : List Char, (∀ c ∈ l, isDigitChar c = false) →
      hexRunsOk l = true := by
  intro l
  induction l with
  | nil => intro _; rfl
  | cons c rest ih =>
    intro h
    rw [hexRunsOk_cons_eq, Bool.and_eq_true]
    refine ⟨?_, ih (fun x hx => h x (List.mem_cons_of_mem c hx))⟩
    have hd : ((c :: rest).takeWhile isHexChar).any isDigitChar = false := by
      rw [List.any_eq_false]
      intro x hx
      simp only [Bool.not_eq_true]
      exact h x (mem_takeWhile_mem hx)
    rw [show (decide (8 ≤ ((c :: rest).takeWhile isHexChar).length) &&
        ((c :: rest).takeWhile isHexChar).any isDigitChar &&
        ((c :: rest).takeWhile isHexChar).any isHexLetterChar) =
        (decide (8 ≤ ((c :: rest).takeWhile isHexChar).length) && false &&
          ((c :: rest).takeWhile isHexChar).any isHexLetterChar) from by rw [hd]]
    simp

theorem isHexChar_toNat {c : Char} (h : isHexChar c = true) :
    (48 ≤ c.toNat ∧ c.toNat ≤ 57) ∨ (97 ≤ c.toNat ∧ c.toNat ≤ 102) ∨
      (65 ≤ c.toNat ∧ c.toNat ≤ 70) := by
  simp only [isHexChar, isDigitChar, Bool.or_eq_true, Bool.and_eq_true,
    decide_eq_true_eq] at h
  omega

theorem isHexChar_props {c : Char} (h : isHexChar c = true) :
    isHexChar c = true ∧ c.toNat ≠ 58 ∧ c ≠ '/' ∧ c ≠ '.' ∧
      jsWs c = false ∧ isWordChar c = true := by
  have hb := isHexChar_toNat h
  refine ⟨h, by omega, toNat_ne_imp_ne (show c.toNat ≠ 47 by omega),
    toNat_ne_imp_ne (show c.toNat ≠ 46 by omega),
    jsWs_eq_false_of_toNat (by omega), ?_⟩
  simp only [isWordChar, isDigitChar, isLetterChar, Bool.or_eq_true,
    Bool.and_eq_true, decide_eq_true_eq, beq_iff_eq]
  omega

theorem identSeg_parts {s : List Char} (h : identSeg s = true) :
    s ≠ [] ∧ (∀ c, s.head? = some c → isLetterChar c = true) ∧
      ∀ c ∈ s, (isLetterChar c || isDigitChar c) = true := by
  cases s with
  | nil => cases h
  | cons c rest =>
    rw [identSeg, Bool.and_eq_true, List.all_eq_true] at h
    refine ⟨by simp, ?_, fun x hx => h.2 x hx⟩
    intro x hx
    rw [List.head?_cons] at hx
    injection hx with hx
    rw [← hx]
    exact h.1

theorem alnum_ne_dot {c : Char} (h : (isLetterChar c || isDigitChar c) = true) :
    c ≠ '.' := (plainChar_props (alnum_plain h)).2.2.1

theorem dotJoin_count (segs : List (List Char))
    (h : ∀ s ∈ segs, ∀ c ∈ s, c ≠ '.') :
    (dotJoin segs).count '.' = segs.length := by
  induction segs with
  | nil => rfl
  | cons s rest ih =>
    show (('.' :: s) ++ dotJoin rest).count '.' = rest.length + 1
    rw [List.count_append, List.count_cons,
      count_eq_zero_of_pred (h s (by simp)),
      ih (fun t ht => h t (List.mem_cons_of_mem s ht))]
    simp [Nat.add_comm]

theorem parseDotSegs_inv :
    ∀ (fuel : Nat) (l : List Char) (n : Nat) (segs : List (List Char))
      (rest : List Char),
      parseDotSegs fuel l = (n, segs, rest) →
      dotJoin segs ++ rest = l ∧ segs.length = n ∧
        ∀ s ∈ segs, ∀ c ∈ s, c ≠ '.' := by
  intro fuel
  induction fuel with
  | zero =>
    intro l n segs rest h
    simp only [parseDotSegs] at h
    obtain ⟨rfl, rfl, rfl⟩ := prodTriple_eq h
    exact ⟨rfl, rfl, by simp⟩
  | succ fuel ih =>
    intro l n segs rest h
    cases l with
    | nil =>
      rw [parseDotSegs_no_dot (by simp)] at h
      obtain ⟨rfl, rfl, rfl⟩ := prodTriple_eq h
      exact ⟨rfl, rfl, by simp⟩
    | cons c r =>
      by_cases hc : c = '.'
      · subst hc
        cases r with
        | nil =>
          simp only [parseDotSegs] at h
          obtain ⟨rfl, rfl, rfl⟩ := prodTriple_eq h
          exact ⟨rfl, rfl, by simp⟩
        | cons d r2 =>
          simp only [parseDotSegs] at h
          by_cases hd : isLetterChar d = true
          · rw [if_pos hd] at h
            rcases hy : parseDotSegs fuel
                ((d :: r2).drop (seg5take (d :: r2)).length)
              with ⟨n2, segs2, rest2⟩
            rw [hy] at h
            simp only at h
            obtain ⟨rfl, rfl, rfl⟩ := prodTriple_eq h
            obtain ⟨hsplit, hlen, hfree⟩ := ih _ n2 segs2 rest2 hy
            refine ⟨?_, by simp [hlen], ?_⟩
            · rw [show dotJoin (seg5take (d :: r2) :: segs2) =
                  ('.' :: seg5take (d :: r2)) ++ dotJoin segs2 from rfl]
              rw [List.append_assoc, hsplit]
              have := takeWhile_append_drop
                (fun c => isLetterChar c || isDigitChar c) (d :: r2)
              simp only [List.cons_append, List.cons.injEq, true_and]
              exact this
            · intro s hs c hc
              rcases List.mem_cons.mp hs with rfl | hs2
              · exact alnum_ne_dot (mem_takeWhile_pred hc)
              · exact hfree s hs2 c hc
          · rw [if_neg hd] at h
            obtain ⟨rfl, rfl, rfl⟩ := prodTriple_eq h
            exact ⟨rfl, rfl, by simp⟩
      · rw [parseDotSegs_no_dot (by simp [hc])] at h
        obtain ⟨rfl, rfl, rfl⟩ := prodTriple_eq h
        exact ⟨rfl, rfl, by simp⟩

theorem tryMatch5_some_count {l : List Char} {x : List Char × List Char}
    (h : tryMatch5 l = some x) : 3 ≤ l.count '.' := by
  simp only [tryMatch5] at h
  rcases hx : parseDotSegs ((l.drop (seg5take l).length).length + 1)
    (l.drop (seg5take l).length) with ⟨n, segs, rest⟩
  rw [hx] at h
  obtain ⟨hsplit, hlen, hfree⟩ := parseDotSegs_inv _ _ n segs rest hx
  have hcount : n ≤ l.count '.' := by
    have h1 : (l.drop (seg5take l).length).count '.' =
        (dotJoin segs).count '.' + rest.count '.' := by
      rw [← hsplit, List.count_append]
    have h2 : (dotJoin segs).count '.' = n := by
      rw [dotJoin_count segs hfree, hlen]
    have h3 : l.count '.' = (seg5take l).count '.' +
        (l.drop (seg5take l).length).count '.' := by
      conv_lhs => rw [← takeWhile_append_drop
        (fun c => isLetterChar c || isDigitChar c) l]
      rw [List.count_append]
      rfl
    omega
  simp only at h
  split at h
  · split at h
    · rename_i h3
      omega
    · cases h
  · split at h
    · rename_i h4
      split at h
      · omega
      · cases h
    · cases h

theorem pass5Go_id_count :
    ∀ (fuel : Nat) (prev : Option Char) (l : List Char), l.count '.' ≤ 2 →
      pass5Go fuel prev l = l := by
  intro fuel
  induction fuel with
  | zero => intro prev l _; rfl
  | succ fuel ih =>
    intro prev l h
    cases l with
    | nil => rfl
    | cons c rest =>
      simp only [pass5Go]
      have hrest : rest.count '.' ≤ 2 := by
        rw [List.count_cons] at h
        omega
      by_cases hg : (isLetterChar c && !isWordOpt prev) = true
      · rw [if_pos hg]
        rcases hm : tryMatch5 (c :: rest) with _ | m
        · rw [ih (some c) rest hrest]
        · exfalso
          have h3 := tryMatch5_some_count hm
          omega
      · rw [if_neg hg, ih (some c) rest hrest]

theorem pass5_id_count (l : List Char) (h : l.count '.' ≤ 2) :
    pass5 l = l := pass5Go_id_count _ none l h

theorem hexRunsOk_dotSpoken :
    ∀ labels : List (List Char), (∀ s ∈ labels, hexRunsOk s = true) →
      hexRunsOk (dotSpoken labels) = true := by
  intro labels
  induction labels with
  | nil => intro _; rfl
  | cons s rest ih =>
    intro h
    cases rest with
    | nil => exact h s (by simp)
    | cons t rest2 =>
      show hexRunsOk (s ++ ' ' ::
        ('d' :: 'o' :: 't' :: ' ' :: dotSpoken (t :: rest2))) = true
      apply hexRunsOk_append_sep (by decide) s _ (h s (by simp))
      rw [hexRunsOk_cons_eq]
      rw [show (('d' :: 'o' :: 't' :: ' ' :: dotSpoken (t :: rest2)).takeWhile
          isHexChar) = ['d'] from by
        rw [List.takeWhile_cons_of_pos (by decide),
          List.takeWhile_cons_of_neg (by decide)]]
      rw [hexRunsOk_cons_nohex (by decide), hexRunsOk_cons_nohex (by decide),
        hexRunsOk_cons_nohex (by decide)]
      rw [ih (fun u hu => h u (List.mem_cons_of_mem s hu))]
      decide

/-! ## The hex family of C8, over both letter cases (`i` flag) -/

/-- What the normalizer does to a 32-character hex string of either case. -/
theorem hex32_normalizeChars (s : List Char) (hlen : s.length = 32)
    (hall : ∀ c ∈ s, isHexChar c = true) :
    normalizeChars s = (if s.any isDigitChar && s.any isHexLetterChar
      then "hash ".toList ++ s.take 6 else s) := by
  have props := fun c hc => isHexChar_props (hall c hc)
  have hne : s ≠ [] := by
    intro h; rw [h] at hlen; cases hlen
  unfold normalizeChars
  rw [pass1_id s (fun c hc => (props c hc).2.1)]
  rw [pass2_id s (by
    rw [count_eq_zero_of_pred (fun c hc => (props c hc).2.2.1)]; omega)]
  rw [pass3_id s (by
    rw [count_eq_zero_of_pred (fun c hc => (props c hc).2.2.1)]; omega)]
  rw [pass4_hexrun s hne hall (by omega)]
  by_cases hb : (s.any isDigitChar && s.any isHexLetterChar) = true
  · rw [if_pos hb]
    have htake : ∀ c ∈ s.take 6, isHexChar c = true :=
      fun c hc => hall c (List.take_subset 6 s hc)
    have hdotfree : ∀ c ∈ "hash ".toList ++ s.take 6, c ≠ '.' := by
      intro c hc
      rcases List.mem_append.mp hc with hl | hr
      · fin_cases hl <;> decide
      · exact (isHexChar_props (htake c hr)).2.2.2.1
    rw [pass5_id_nodot _ hdotfree]
    have htne : s.take 6 ≠ [] := by
      have : (s.take 6).length = 6 := by
        rw [List.length_take]; omega
      intro hx; rw [hx] at this; cases this
    apply pass6_id
    · apply noDoubleSpace_append
      · decide
      · apply noDoubleSpace_of_no_space
        intro c hc
        apply toNat_ne_imp_ne
        have := isHexChar_toNat (htake c hc)
        show c.toNat ≠ 32
        omega
      · rintro ⟨_, hhd⟩
        have : (' ' : Char) ∈ s.take 6 := List.mem_of_mem_head? hhd
        have := isHexChar_toNat (htake ' ' this)
        simp at this
    · intro c hc
      rw [show ("hash ".toList ++ s.take 6).head? = some 'h' from rfl] at hc
      injection hc with hc
      rw [← hc]; decide
    · intro c hc
      rw [List.getLast?_append_of_ne_nil _ htne] at hc
      have hmem : c ∈ s.take 6 := mem_of_getLast? hc
      have := isHexChar_toNat (htake c hmem)
      apply jsWs_eq_false_of_toNat
      omega
  · rw [if_neg hb]
    rw [pass5_id_nodot s (fun c hc => (props c hc).2.2.2.1)]
    apply pass6_id_nospace
    intro c hc
    have := isHexChar_toNat (hall c hc)
    constructor
    · exact toNat_ne_imp_ne (show c.toNat ≠ 32 by omega)
    · apply jsWs_eq_false_of_toNat; omega

/-- Idempotence on the hex family. -/
theorem hex32_idem (s : List Char) (hlen : s.length = 32)
    (hall : ∀ c ∈ s, isHexChar c = true) :
    normalizeChars (normalizeChars s) = normalizeChars s := by
  rw [hex32_normalizeChars s hlen hall]
  by_cases hb : (s.any isDigitChar && s.any isHexLetterChar) = true
  · rw [if_pos hb]
    have htake : ∀ c ∈ s.take 6, isHexChar c = true :=
      fun c hc => hall c (List.take_subset 6 s hc)
    have htprops := fun c hc => isHexChar_props (htake c hc)
    have htlen : (s.take 6).length < 8 := by
      have := List.length_take_le 6 s
      omega
    have htne : s.take 6 ≠ [] := by
      have : (s.take 6).length = 6 := by
        rw [List.length_take]; omega
      intro hx; rw [hx] at this; cases this
    unfold normalizeChars
    rw [pass1_id _ (by
      intro c hc
      rcases List.mem_append.mp hc with hl | hr
      · fin_cases hl <;> decide
      · exact (htprops c hr).2.1)]
    rw [pass2_id _ (by
      rw [count_eq_zero_of_pred]
      · omega
      · intro c hc
        rcases List.mem_append.mp hc with hl | hr
        · fin_cases hl <;> decide
        · exact (htprops c hr).2.2.1)]
    rw [pass3_id _ (by
      rw [count_eq_zero_of_pred]
      · omega
      · intro c hc
        rcases List.mem_append.mp hc with hl | hr
        · fin_cases hl <;> decide
        · exact (htprops c hr).2.2.1)]
    rw [pass4_hash _ htake htlen]
    rw [pass5_id_nodot _ (by
      intro c hc
      rcases List.mem_append.mp hc with hl | hr
      · fin_cases hl <;> decide
      · exact (htprops c hr).2.2.2.1)]
    apply pass6_id
    · apply noDoubleSpace_append
      · decide
      · apply noDoubleSpace_of_no_space
        intro c hc
        apply toNat_ne_imp_ne
        have := isHexChar_toNat (htake c hc)
        show c.toNat ≠ 32
        omega
      · rintro ⟨_, hhd⟩
        have : (' ' : Char) ∈ s.take 6 := List.mem_of_mem_head? hhd
        have := isHexChar_toNat (htake ' ' this)
        simp at this
    · intro c hc
      rw [show ("hash ".toList ++ s.take 6).head? = some 'h' from rfl] at hc
      injection hc with hc
      rw [← hc]; decide
    · intro c hc
      rw [List.getLast?_append_of_ne_nil _ htne] at hc
      have hmem : c ∈ s.take 6 := mem_of_getLast? hc
      have := isHexChar_toNat (htake c hmem)
      apply jsWs_eq_false_of_toNat
      omega
  · rw [if_neg hb]
    exact hex32_normalizeChars s hlen hall |>.trans (if_neg hb)

/-! ## Identity of the normalizer on its plain-word outputs -/

/-- The normalizer is the identity on a word of letters, digits, `-` and
`_` whose hex runs are not replaced. -/
theorem normalizeChars_id_plain (l : List Char)
    (h : ∀ c ∈ l, plainChar c = true) (hrun : hexRunsOk l = true) :
    normalizeChars l = l := by
  unfold normalizeChars
  rw [pass1_id l (fun c hc => (plainChar_props (h c hc)).1)]
  rw [pass2_id l (by
    rw [count_eq_zero_of_pred (fun c hc => (plainChar_props (h c hc)).2.1)]
    omega)]
  rw [pass3_id l (by
    rw [count_eq_zero_of_pred (fun c hc => (plainChar_props (h c hc)).2.1)]
    omega)]
  rw [pass4_id_runs l hrun]
  rw [pass5_id_nodot l (fun c hc => (plainChar_props (h c hc)).2.2.1)]
  exact pass6_id_nospace l (fun c hc =>
    ⟨(plainChar_props (h c hc)).2.2.2.1, (plainChar_props (h c hc)).2.2.2.2.1⟩)

/-- The normalizer is the identity on a `parent/file` pair of plain
words. -/
theorem normalizeChars_id_pair (P F : List Char)
    (hP : ∀ c ∈ P, plainChar c = true) (hF : ∀ c ∈ F, plainChar c = true)
    (hPrun : hexRunsOk P = true) (hFrun : hexRunsOk F = true) :
    normalizeChars (P ++ '/' :: F) = P ++ '/' :: F := by
  have hmem : ∀ c ∈ P ++ '/' :: F, plainChar c = true ∨ c = '/' := by
    intro c hc
    simp only [List.mem_append, List.mem_cons] at hc
    rcases hc with h | h | h
    · exact Or.inl (hP c h)
    · exact Or.inr h
    · exact Or.inl (hF c h)
  have hcount : (P ++ '/' :: F).count '/' = 1 := by
    rw [List.count_append, count_eq_zero_of_pred
      (fun c hc => (plainChar_props (hP c hc)).2.1), List.count_cons,
      count_eq_zero_of_pred (fun c hc => (plainChar_props (hF c hc)).2.1)]
    simp
  unfold normalizeChars
  rw [pass1_id _ (by
    intro c hc
    rcases hmem c hc with h | rfl
    · exact (plainChar_props h).1
    · decide)]
  rw [pass2_id _ (by omega)]
  rw [pass3_id _ (by omega)]
  rw [pass4_id_runs _ (hexRunsOk_append_sep (by decide) P F hPrun hFrun)]
  rw [pass5_id_nodot _ (by
    intro c hc
    rcases hmem c hc with h | rfl
    · exact (plainChar_props h).2.2.1
    · decide)]
  exact pass6_id_nospace _ (by
    intro c hc
    rcases hmem c hc with h | rfl
    · exact ⟨(plainChar_props h).2.2.2.1, (plainChar_props h).2.2.2.2.1⟩
    · exact ⟨by decide, by decide⟩)

/-- The normalizer is the identity on a `base.ext` file name of plain
words. -/
theorem normalizeChars_id_dotword (P F : List Char)
    (hP : ∀ c ∈ P, plainChar c = true) (hF : ∀ c ∈ F, plainChar c = true)
    (hPrun : hexRunsOk P = true) (hFrun : hexRunsOk F = true) :
    normalizeChars (P ++ '.' :: F) = P ++ '.' :: F := by
  have hmem : ∀ c ∈ P ++ '.' :: F, plainChar c = true ∨ c = '.' := by
    intro c hc
    simp only [List.mem_append, List.mem_cons] at hc
    rcases hc with h | h | h
    · exact Or.inl (hP c h)
    · exact Or.inr h
    · exact Or.inl (hF c h)
  have hslash : (P ++ '.' :: F).count '/' = 0 := by
    apply count_eq_zero_of_pred
    intro c hc
    rcases hmem c hc with h | rfl
    · exact (plainChar_props h).2.1
    · decide
  have hdot : (P ++ '.' :: F).count '.' = 1 := by
    rw [List.count_append, count_eq_zero_of_pred
      (fun c hc => (plainChar_props (hP c hc)).2.2.1), List.count_cons,
      count_eq_zero_of_pred (fun c hc => (plainChar_props (hF c hc)).2.2.1)]
    simp
  unfold normalizeChars
  rw [pass1_id _ (by
    intro c hc
    rcases hmem c hc with h | rfl
    · exact (plainChar_props h).1
    · decide)]
  rw [pass2_id _ (by omega)]
  rw [pass3_id _ (by omega)]
  rw [pass4_id_runs _ (hexRunsOk_append_sep (by decide) P F hPrun hFrun)]
  rw [pass5_id_count _ (by omega)]
  exact pass6_id_nospace _ (by
    intro c hc
    rcases hmem c hc with h | rfl
    · exact ⟨(plainChar_props h).2.2.2.1, (plainChar_props h).2.2.2.2.1⟩
    · exact ⟨by decide, by decide⟩)

/-! ## The dotted-identifier family of C8 -/

/-- The three dotted repetitions of the identifier family parse
completely. -/
theorem parseDotSegs_three (fuel : Nat) (B C D : List Char)
    (hB : identSeg B = true) (hC : identSeg C = true)
    (hD : identSeg D = true) :
    parseDotSegs (fuel + 3) ('.' :: (B ++ '.' :: (C ++ '.' :: (D ++ [])))) =
      (3, [B, C, D], []) := by
  obtain ⟨hBne, hBhead, hBall⟩ := identSeg_parts hB
  obtain ⟨hCne, hChead, hCall⟩ := identSeg_parts hC
  obtain ⟨hDne, hDhead, hDall⟩ := identSeg_parts hD
  obtain ⟨b, B2, rfl⟩ := List.exists_cons_of_ne_nil hBne
  obtain ⟨c0, C2, rfl⟩ := List.exists_cons_of_ne_nil hCne
  obtain ⟨d0, D2, rfl⟩ := List.exists_cons_of_ne_nil hDne
  simp only [List.cons_append]
  rw [show fuel + 3 = (fuel + 2) + 1 from rfl,
    parseDotSegs_step (fuel + 2) b B2
      ('.' :: c0 :: (C2 ++ '.' :: d0 :: (D2 ++ [])))
      (hBhead b rfl) hBall (Or.inr rfl)]
  rw [show fuel + 2 = (fuel + 1) + 1 from rfl,
    parseDotSegs_step (fuel + 1) c0 C2 ('.' :: d0 :: (D2 ++ []))
      (hChead c0 rfl) hCall (Or.inr rfl)]
  rw [parseDotSegs_step fuel d0 D2 [] (hDhead d0 rfl) hDall (Or.inl rfl)]
  rw [parseDotSegs_no_dot (by simp)]

/-- The extension guard does not fire when the case-folded last segment is
not a known extension. -/
theorem endsWithKnownExt_eq_false (pre D : List Char)
    (hD : ∀ c ∈ D, jsToLowerChar c ≠ '.')
    (hDfree : D.map jsToLowerChar ∉ knownExts) :
    endsWithKnownExt (pre ++ '.' :: D) = false := by
  unfold endsWithKnownExt
  rw [show (pre ++ '.' :: D).map jsToLowerChar =
      pre.map jsToLowerChar ++ '.' :: D.map jsToLowerChar from by
    rw [List.map_append, List.map_cons]
    rfl]
  rw [List.any_eq_false]
  intro e he
  cases hb : List.isSuffixOf ('.' :: e)
      (pre.map jsToLowerChar ++ '.' :: D.map jsToLowerChar)
  · simp
  · exfalso
    have hsuf : ('.' :: e) <:+
        (pre.map jsToLowerChar ++ '.' :: D.map jsToLowerChar) :=
      List.isSuffixOf_iff_suffix.mp hb
    have hpref : ('.' :: e).reverse <+:
        (pre.map jsToLowerChar ++ '.' :: D.map jsToLowerChar).reverse :=
      List.reverse_prefix.mpr hsuf
    rw [List.reverse_cons] at hpref
    rw [show (pre.map jsToLowerChar ++ '.' :: D.map jsToLowerChar).reverse =
        (D.map jsToLowerChar).reverse ++ '.' :: (pre.map jsToLowerChar).reverse
        from by simp] at hpref
    have heq := prefix_dot_eq e.reverse (D.map jsToLowerChar).reverse
      (pre.map jsToLowerChar).reverse
      (fun c hc => knownExts_dotfree e he c (List.mem_reverse.mp hc))
      (fun c hc => by
        obtain ⟨x, hx, rfl⟩ := List.mem_map.mp (List.mem_reverse.mp hc)
        exact hD x hx)
      hpref
    have heD : e = D.map jsToLowerChar := by
      have := congrArg List.reverse heq
      simpa using this
    exact hDfree (heD ▸ he)

/-- Pass 5 matches the whole dotted-family string. -/
theorem tryMatch5_dotted (A B C D : List Char)
    (hA : identSeg A = true) (hB : identSeg B = true)
    (hC : identSeg C = true) (hD : identSeg D = true) :
    tryMatch5 (dottedStr A B C D) = some (dottedStr A B C D, []) := by
  obtain ⟨hAne, hAhead, hAall⟩ := identSeg_parts hA
  obtain ⟨a, A2, rfl⟩ := List.exists_cons_of_ne_nil hAne
  simp only [tryMatch5, dottedStr]
  have hsg1 : seg5take ((a :: A2) ++ '.' :: (B ++ '.' :: (C ++ '.' :: D))) =
      a :: A2 := by
    unfold seg5take
    exact takeWhile_append_not (a :: A2) '.' _ hAall (by decide)
  rw [show (a :: A2 ++ '.' :: (B ++ '.' :: (C ++ '.' :: D))) =
      ((a :: A2) ++ '.' :: (B ++ '.' :: (C ++ '.' :: D))) from by simp] at hsg1 ⊢
  rw [hsg1, List.drop_left (a :: A2)]
  have hform : ('.' :: (B ++ '.' :: (C ++ '.' :: D))) =
      ('.' :: (B ++ '.' :: (C ++ '.' :: (D ++ [])))) := by simp
  rw [hform]
  have hlen : ('.' :: (B ++ '.' :: (C ++ '.' :: (D ++ [])))).length + 1 =
      (B.length + C.length + D.length + 1) + 3 := by
    simp [List.length_append]
    omega
  rw [hlen,
    parseDotSegs_three (B.length + C.length + D.length + 1) B C D hB hC hD]
  simp [dotJoin, endBoundary]

/-- The pass-5 replacement on the dotted-family match is its last
segment. -/
theorem repl5_dotted (A B C D : List Char)
    (hA : identSeg A = true) (hB : identSeg B = true)
    (hC : identSeg C = true) (hD : identSeg D = true)
    (hfree : D.map jsToLowerChar ∉ knownExts) :
    repl5 (dottedStr A B C D) = D := by
  obtain ⟨hAne, hAhead, hAall⟩ := identSeg_parts hA
  obtain ⟨hBne, hBhead, hBall⟩ := identSeg_parts hB
  obtain ⟨hCne, hChead, hCall⟩ := identSeg_parts hC
  obtain ⟨hDne, hDhead, hDall⟩ := identSeg_parts hD
  unfold repl5
  have hext : endsWithKnownExt (dottedStr A B C D) = false := by
    rw [show dottedStr A B C D =
        (A ++ '.' :: (B ++ '.' :: C)) ++ '.' :: D from by
      simp [dottedStr]]
    exact endsWithKnownExt_eq_false _ _
      (fun c hc => jsToLower_ne_dot_of_plain (alnum_plain (hDall c hc))) hfree
  rw [hext]
  simp only [Bool.false_eq_true, if_false]
  unfold simplifyDottedPath
  rw [show dottedStr A B C D = joinSep '.' [A, B, C, D] from by
    simp [dottedStr, joinSep]]
  rw [splitOnChar_joinSep '.' [A, B, C, D] (by simp) (by
    intro L hL c hc
    simp only [List.mem_cons, List.not_mem_nil, or_false] at hL
    rcases hL with rfl | rfl | rfl | rfl
    · exact alnum_ne_dot (hAall c hc)
    · exact alnum_ne_dot (hBall c hc)
    · exact alnum_ne_dot (hCall c hc)
    · exact alnum_ne_dot (hDall c hc))]
  rfl

/-- Pass 5 collapses the dotted-family string to its last segment. -/
theorem pass5_dotted (A B C D : List Char)
    (hA : identSeg A = true) (hB : identSeg B = true)
    (hC : identSeg C = true) (hD : identSeg D = true)
    (hfree : D.map jsToLowerChar ∉ knownExts) :
    pass5 (dottedStr A B C D) = D := by
  obtain ⟨hAne, hAhead, hAall⟩ := identSeg_parts hA
  obtain ⟨a, A2, rfl⟩ := List.exists_cons_of_ne_nil hAne
  unfold pass5
  rw [show dottedStr (a :: A2) B C D =
      a :: (A2 ++ '.' :: (B ++ '.' :: (C ++ '.' :: D))) from by
    simp [dottedStr]]
  simp only [pass5Go]
  rw [if_pos (show (isLetterChar a && !isWordOpt none) = true by
    rw [hAhead a rfl]; rfl)]
  have ht : tryMatch5 (a :: (A2 ++ '.' :: (B ++ '.' :: (C ++ '.' :: D)))) =
      some (dottedStr (a :: A2) B C D, []) := by
    rw [show a :: (A2 ++ '.' :: (B ++ '.' :: (C ++ '.' :: D))) =
        dottedStr (a :: A2) B C D from by simp [dottedStr]]
    exact tryMatch5_dotted (a :: A2) B C D hA hB hC hD
  rw [ht]
  have hrep := repl5_dotted (a :: A2) B C D hA hB hC hD hfree
  simp [hrep, pass5Go_nil]

/-- What the normalizer does to the dotted family. -/
theorem dotted_normalizeChars (A B C D : List Char)
    (hA : identSeg A = true) (hB : identSeg B = true)
    (hC : identSeg C = true) (hD : identSeg D = true)
    (hArun : hexRunsOk A = true) (hBrun : hexRunsOk B = true)
    (hCrun : hexRunsOk C = true) (hDrun : hexRunsOk D = true)
    (hfree : D.map jsToLowerChar ∉ knownExts) :
    normalizeChars (dottedStr A B C D) = D := by
  obtain ⟨hAne, hAhead, hAall⟩ := identSeg_parts hA
  obtain ⟨hBne, hBhead, hBall⟩ := identSeg_parts hB
  obtain ⟨hCne, hChead, hCall⟩ := identSeg_parts hC
  obtain ⟨hDne, hDhead, hDall⟩ := identSeg_parts hD
  have hmem : ∀ c ∈ dottedStr A B C D, plainChar c = true ∨ c = '.' := by
    intro c hc
    simp only [dottedStr, List.mem_append, List.mem_cons] at hc
    rcases hc with h | h | h | h | h | h | h
    · exact Or.inl (alnum_plain (hAall c h))
    · exact Or.inr h
    · exact Or.inl (alnum_plain (hBall c h))
    · exact Or.inr h
    · exact Or.inl (alnum_plain (hCall c h))
    · exact Or.inr h
    · exact Or.inl (alnum_plain (hDall c h))
  have hrun : hexRunsOk (dottedStr A B C D) = true := by
    rw [show dottedStr A B C D =
        A ++ '.' :: (B ++ '.' :: (C ++ '.' :: D)) from rfl]
    apply hexRunsOk_append_sep (by decide) A _ hArun
    apply hexRunsOk_append_sep (by decide) B _ hBrun
    exact hexRunsOk_append_sep (by decide) C D hCrun hDrun
  unfold normalizeChars
  rw [pass1_id _ (by
    intro c hc
    rcases hmem c hc with h | rfl
    · exact (plainChar_props h).1
    · decide)]
  rw [pass2_id _ (by
    rw [count_eq_zero_of_pred (by
      intro c hc
      rcases hmem c hc with h | rfl
      · exact (plainChar_props h).2.1
      · decide)]
    omega)]
  rw [pass3_id _ (by
    rw [count_eq_zero_of_pred (by
      intro c hc
      rcases hmem c hc with h | rfl
      · exact (plainChar_props h).2.1
      · decide)]
    omega)]
  rw [pass4_id_runs _ hrun]
  rw [pass5_dotted A B C D hA hB hC hD hfree]
  exact pass6_id_nospace D (fun c hc =>
    ⟨(plainChar_props (alnum_plain (hDall c hc))).2.2.2.1,
      (plainChar_props (alnum_plain (hDall c hc))).2.2.2.2.1⟩)

/-- Idempotence on the dotted family. -/
theorem dotted_idem (A B C D : List Char)
    (hA : identSeg A = true) (hB : identSeg B = true)
    (hC : identSeg C = true) (hD : identSeg D = true)
    (hArun : hexRunsOk A = true) (hBrun : hexRunsOk B = true)
    (hCrun : hexRunsOk C = true) (hDrun : hexRunsOk D = true)
    (hfree : D.map jsToLowerChar ∉ knownExts) :
    normalizeChars (normalizeChars (dottedStr A B C D)) =
      normalizeChars (dottedStr A B C D) := by
  rw [dotted_normalizeChars A B C D hA hB hC hD hArun hBrun hCrun hDrun hfree]
  exact normalizeChars_id_plain D
    (fun c hc => alnum_plain ((identSeg_parts hD).2.2 c hc)) hDrun

/-! ## The absolute-path family of C8 -/

theorem seg2take_all {l : List Char}
    (h : ∀ c ∈ l, (!(jsWs c || c.toNat == 47)) = true) : seg2take l = l :=
  takeWhile_all _ l h

theorem seg2_ne_slash {c : Char}
    (h : (!(jsWs c || c.toNat == 47)) = true) : c ≠ '/' := by
  simp only [Bool.not_eq_eq_eq_not, Bool.not_true, Bool.or_eq_false_iff,
    beq_eq_false_iff_ne, ne_eq] at h
  exact toNat_ne_imp_ne h.2

theorem contains_eq_true_of_mem {l : List Char} {a : Char} (h : a ∈ l) :
    l.contains a = true := by
  induction l with
  | nil => cases h
  | cons c cs ih =>
    rcases List.mem_cons.mp h with rfl | h2
    · simp [List.contains_cons]
    · rw [List.contains_cons, ih h2, Bool.or_true]

theorem parseReps2_path :
    ∀ (segs : List (List Char)) (fuel : Nat) (last : List Char),
      (∀ s ∈ segs, s ≠ [] ∧ ∀ c ∈ s, (!(jsWs c || c.toNat == 47)) = true) →
      last ≠ [] → (∀ c ∈ last, (!(jsWs c || c.toNat == 47)) = true) →
      (consSep '/' segs).length + last.length ≤ fuel →
      parseReps2 fuel (consSep '/' segs ++ last) =
        (segs.length, consSep '/' segs, last) := by
  intro segs
  induction segs with
  | nil =>
    intro fuel last _ hne hlow hfuel
    have hlen : 0 < last.length := List.length_pos.mpr hne
    simp only [consSep, List.length_nil, List.nil_append] at hfuel ⊢
    cases fuel with
    | zero => omega
    | succ f =>
      simp only [parseReps2, seg2take_all hlow]
      rw [if_neg (by simp [List.isEmpty_iff, hne]), List.drop_length]
  | cons s rest ih =>
    intro fuel last hsegs hne hlow hfuel
    have hs := hsegs s (List.mem_cons_self s rest)
    have hslen : 0 < s.length := List.length_pos.mpr hs.1
    simp only [consSep, List.length_append, List.length_cons] at hfuel
    cases fuel with
    | zero => omega
    | succ f =>
      have hform : consSep '/' (s :: rest) ++ last =
          s ++ '/' :: (consSep '/' rest ++ last) := by
        simp [consSep]
      rw [hform]
      simp only [parseReps2]
      have hsg : (s ++ '/' :: (consSep '/' rest ++ last)).takeWhile
          (fun c => !(jsWs c || c.toNat == 47)) = s :=
        takeWhile_append_not s '/' _ (fun c hc => hs.2 c hc) (by decide)
      rw [show seg2take (s ++ '/' :: (consSep '/' rest ++ last)) = s from hsg]
      rw [if_neg (by simp [List.isEmpty_iff, hs.1])]
      rw [List.drop_left]
      split
      · rename_i r2 heq
        injection heq with h1 h2
        subst h2
        rw [ih f last (fun t ht => hsegs t (List.mem_cons_of_mem s ht)) hne hlow
          (by omega)]
        simp [consSep]
      · rename_i hno
        exact absurd rfl (hno (consSep '/' rest ++ last))

theorem tryMatch2_path (segs : List (List Char)) (last : List Char)
    (hsegs : ∀ s ∈ segs, s ≠ [] ∧ ∀ c ∈ s, (!(jsWs c || c.toNat == 47)) = true)
    (h2 : 2 ≤ segs.length)
    (hne : last ≠ [])
    (hlow : ∀ c ∈ last, (!(jsWs c || c.toNat == 47)) = true) :
    tryMatch2 (consSep '/' segs ++ last) =
      some ('/' :: (consSep '/' segs ++ last), []) := by
  have hx : parseReps2 ((consSep '/' segs ++ last).length + 1)
      (consSep '/' segs ++ last) = (segs.length, consSep '/' segs, last) :=
    parseReps2_path segs _ last hsegs hne hlow (by simp [List.length_append])
  simp only [tryMatch2, hx]
  simp [seg2take_all hlow, List.isEmpty_iff, hne, h2, List.drop_length,
    List.cons_append]

theorem simplifyPath_path (segs : List (List Char)) (last : List Char)
    (hsegs : ∀ s ∈ segs, s ≠ [] ∧ ∀ c ∈ s, (!(jsWs c || c.toNat == 47)) = true)
    (h3 : 3 ≤ segs.length)
    (hne : last ≠ [])
    (hlow : ∀ c ∈ last, (!(jsWs c || c.toNat == 47)) = true) :
    simplifyPath ('/' :: (consSep '/' segs ++ last)) =
      if last.contains '.' then last
      else segs.getLastD [] ++ '/' :: last := by
  simp only [simplifyPath]
  rw [splitOnChar_sep_cons]
  rw [← joinSep_concat '/' segs last]
  rw [splitOnChar_joinSep '/' (segs ++ [last]) (by simp) (by
    intro L hL c hc
    simp only [List.mem_append, List.mem_cons, List.not_mem_nil, or_false] at hL
    rcases hL with hL | rfl
    · exact seg2_ne_slash ((hsegs L hL).2 c hc)
    · exact seg2_ne_slash (hlow c hc))]
  rw [show List.filter (fun s => !s.isEmpty) ([] :: (segs ++ [last])) =
      segs ++ [last] from by
    rw [show List.filter (fun s => !s.isEmpty) ([] :: (segs ++ [last])) =
        List.filter (fun s => !s.isEmpty) (segs ++ [last]) from by simp]
    apply List.filter_eq_self.mpr
    intro s hs
    simp only [List.mem_append, List.mem_cons, List.not_mem_nil, or_false] at hs
    rcases hs with hs | rfl
    · simp [List.isEmpty_iff, (hsegs s hs).1]
    · simp [List.isEmpty_iff, hne]]
  rw [if_neg (by simp only [List.length_append, List.length_cons,
    List.length_nil, not_le]; omega)]
  have hfile : (segs ++ [last]).getLastD [] = last := by
    simp [List.getLastD_eq_getLast?, List.getLast?_concat]
  have hparent : (segs ++ [last]).dropLast.getLastD [] = segs.getLastD [] := by
    rw [List.dropLast_concat]
  rw [hfile, hparent]

theorem pass2_path (segs : List (List Char)) (last : List Char)
    (hsegs : ∀ s ∈ segs, s ≠ [] ∧ ∀ c ∈ s, (!(jsWs c || c.toNat == 47)) = true)
    (h3 : 3 ≤ segs.length)
    (hne : last ≠ [])
    (hlow : ∀ c ∈ last, (!(jsWs c || c.toNat == 47)) = true) :
    pass2 (pathStr segs last) =
      if last.contains '.' then last
      else segs.getLastD [] ++ '/' :: last := by
  unfold pass2 pathStr
  simp only [pass2Go]
  rw [if_pos (show (('/' : Char) == '/') = true from rfl)]
  rw [tryMatch2_path segs last hsegs (by omega) hne hlow]
  have hsp := simplifyPath_path segs last hsegs h3 hne hlow
  simp [hsp, pass2Go_nil]

/-- What the normalizer does to an absolute path whose file name has no
dot: keep the last two segments. -/
theorem path_normalizeChars_nodot (mid : List (List Char)) (P F : List Char)
    (hmid : ∀ s ∈ mid, s ≠ [] ∧ ∀ c ∈ s,
      (!(jsWs c || c.toNat == 47)) = true ∧ c.toNat ≠ 58)
    (h2 : 2 ≤ mid.length)
    (hP : P ≠ [] ∧ ∀ c ∈ P, plainChar c = true)
    (hF : F ≠ [] ∧ ∀ c ∈ F, plainChar c = true)
    (hPrun : hexRunsOk P = true) (hFrun : hexRunsOk F = true) :
    normalizeChars (pathStr (mid ++ [P]) F) = P ++ '/' :: F := by
  have hsegs : ∀ s ∈ mid ++ [P], s ≠ [] ∧ ∀ c ∈ s,
      (!(jsWs c || c.toNat == 47)) = true := by
    intro s hs
    simp only [List.mem_append, List.mem_cons, List.not_mem_nil, or_false] at hs
    rcases hs with hs | rfl
    · exact ⟨(hmid s hs).1, fun c hc => ((hmid s hs).2 c hc).1⟩
    · exact ⟨hP.1, fun c hc => (plainChar_props (hP.2 c hc)).2.2.2.2.2⟩
  have hmem : ∀ c ∈ pathStr (mid ++ [P]) F,
      c = '/' ∨ c.toNat ≠ 58 := by
    intro c hc
    simp only [pathStr, List.mem_cons, List.mem_append] at hc
    rcases hc with rfl | h | h
    · exact Or.inl rfl
    · rcases mem_consSep (mid ++ [P]) h with h2 | ⟨s, hs, hcs⟩
      · exact Or.inl h2
      · simp only [List.mem_append, List.mem_cons, List.not_mem_nil,
          or_false] at hs
        rcases hs with hs | rfl
        · exact Or.inr ((hmid s hs).2 c hcs).2
        · exact Or.inr (plainChar_props (hP.2 c hcs)).1
    · exact Or.inr (plainChar_props (hF.2 c h)).1
  unfold normalizeChars
  rw [pass1_id _ (by
    intro c hc
    rcases hmem c hc with rfl | h
    · decide
    · exact h)]
  rw [pass2_path (mid ++ [P]) F hsegs
    (by simp only [List.length_append, List.length_cons, List.length_nil]; omega)
    hF.1 (fun c hc => (plainChar_props (hF.2 c hc)).2.2.2.2.2)]
  rw [contains_eq_false_of_not_mem (fun hdot =>
    absurd rfl (plainChar_props (hF.2 '.' hdot)).2.2.1)]
  simp only [Bool.false_eq_true, if_false]
  rw [show (mid ++ [P]).getLastD [] = P from by
    simp [List.getLastD_eq_getLast?, List.getLast?_concat]]
  have hcount : (P ++ '/' :: F).count '/' = 1 := by
    rw [List.count_append, count_eq_zero_of_pred
      (fun c hc => (plainChar_props (hP.2 c hc)).2.1), List.count_cons,
      count_eq_zero_of_pred
      (fun c hc => (plainChar_props (hF.2 c hc)).2.1)]
    simp
  rw [pass3_id _ (by omega)]
  rw [pass4_id_runs _ (hexRunsOk_append_sep (by decide) P F hPrun hFrun)]
  rw [pass5_id_nodot _ (by
    intro c hc
    simp only [List.mem_append, List.mem_cons] at hc
    rcases hc with h | rfl | h
    · exact (plainChar_props (hP.2 c h)).2.2.1
    · decide
    · exact (plainChar_props (hF.2 c h)).2.2.1)]
  exact pass6_id_nospace _ (by
    intro c hc
    simp only [List.mem_append, List.mem_cons] at hc
    rcases hc with h | rfl | h
    · exact ⟨(plainChar_props (hP.2 c h)).2.2.2.1,
        (plainChar_props (hP.2 c h)).2.2.2.2.1⟩
    · exact ⟨by decide, by decide⟩
    · exact ⟨(plainChar_props (hF.2 c h)).2.2.2.1,
        (plainChar_props (hF.2 c h)).2.2.2.2.1⟩)

/-- Idempotence on the dot-free absolute-path family. -/
theorem path_nodot_idem (mid : List (List Char)) (P F : List Char)
    (hmid : ∀ s ∈ mid, s ≠ [] ∧ ∀ c ∈ s,
      (!(jsWs c || c.toNat == 47)) = true ∧ c.toNat ≠ 58)
    (h2 : 2 ≤ mid.length)
    (hP : P ≠ [] ∧ ∀ c ∈ P, plainChar c = true)
    (hF : F ≠ [] ∧ ∀ c ∈ F, plainChar c = true)
    (hPrun : hexRunsOk P = true) (hFrun : hexRunsOk F = true) :
    normalizeChars (normalizeChars (pathStr (mid ++ [P]) F)) =
      normalizeChars (pathStr (mid ++ [P]) F) := by
  rw [path_normalizeChars_nodot mid P F hmid h2 hP hF hPrun hFrun]
  exact normalizeChars_id_pair P F hP.2 hF.2 hPrun hFrun

/-- What the normalizer does to an absolute path whose file name contains
a dot: keep the file name alone. -/
theorem path_normalizeChars_dotfile (segs : List (List Char))
    (fb fe : List Char)
    (hsegs : ∀ s ∈ segs, s ≠ [] ∧ ∀ c ∈ s,
      (!(jsWs c || c.toNat == 47)) = true ∧ c.toNat ≠ 58)
    (h3 : 3 ≤ segs.length)
    (hfb : fb ≠ [] ∧ ∀ c ∈ fb, plainChar c = true)
    (hfe : fe ≠ [] ∧ ∀ c ∈ fe, plainChar c = true)
    (hfbrun : hexRunsOk fb = true) (hferun : hexRunsOk fe = true) :
    normalizeChars (pathStr segs (fb ++ '.' :: fe)) = fb ++ '.' :: fe := by
  have hfilemem : ∀ c ∈ fb ++ '.' :: fe, plainChar c = true ∨ c = '.' := by
    intro c hc
    simp only [List.mem_append, List.mem_cons] at hc
    rcases hc with h | h | h
    · exact Or.inl (hfb.2 c h)
    · exact Or.inr h
    · exact Or.inl (hfe.2 c h)
  have hfilelow : ∀ c ∈ fb ++ '.' :: fe,
      (!(jsWs c || c.toNat == 47)) = true := by
    intro c hc
    rcases hfilemem c hc with h | rfl
    · exact (plainChar_props h).2.2.2.2.2
    · decide
  have hsegs2 : ∀ s ∈ segs, s ≠ [] ∧ ∀ c ∈ s,
      (!(jsWs c || c.toNat == 47)) = true :=
    fun s hs => ⟨(hsegs s hs).1, fun c hc => ((hsegs s hs).2 c hc).1⟩
  have hmem : ∀ c ∈ pathStr segs (fb ++ '.' :: fe),
      c = '/' ∨ c.toNat ≠ 58 := by
    intro c hc
    simp only [pathStr, List.mem_cons, List.mem_append] at hc
    rcases hc with rfl | h | h
    · exact Or.inl rfl
    · rcases mem_consSep segs h with h2 | ⟨s, hs, hcs⟩
      · exact Or.inl h2
      · exact Or.inr ((hsegs s hs).2 c hcs).2
    · rcases hfilemem c (by
        simpa using h) with h2 | rfl
      · exact Or.inr (plainChar_props h2).1
      · exact Or.inr (by decide)
  have hfne : fb ++ '.' :: fe ≠ [] := by simp
  unfold normalizeChars
  rw [pass1_id _ (by
    intro c hc
    rcases hmem c hc with rfl | h
    · decide
    · exact h)]
  rw [pass2_path segs (fb ++ '.' :: fe) hsegs2 h3 hfne hfilelow]
  rw [contains_eq_true_of_mem (show ('.' : Char) ∈ fb ++ '.' :: fe by simp)]
  simp only [if_true]
  have hslash : (fb ++ '.' :: fe).count '/' = 0 := by
    apply count_eq_zero_of_pred
    intro c hc
    rcases hfilemem c hc with h | rfl
    · exact (plainChar_props h).2.1
    · decide
  have hdot : (fb ++ '.' :: fe).count '.' = 1 := by
    rw [List.count_append, count_eq_zero_of_pred
      (fun c hc => (plainChar_props (hfb.2 c hc)).2.2.1), List.count_cons,
      count_eq_zero_of_pred
      (fun c hc => (plainChar_props (hfe.2 c hc)).2.2.1)]
    simp
  rw [pass3_id _ (by omega)]
  rw [pass4_id_runs _ (hexRunsOk_append_sep (by decide) fb fe hfbrun hferun)]
  rw [pass5_id_count _ (by omega)]
  exact pass6_id_nospace _ (by
    intro c hc
    rcases hfilemem c hc with h | rfl
    · exact ⟨(plainChar_props h).2.2.2.1, (plainChar_props h).2.2.2.2.1⟩
    · exact ⟨by decide, by decide⟩)

/-- Idempotence on the dotted-file-name absolute-path family. -/
theorem path_dotfile_idem (segs : List (List Char)) (fb fe : List Char)
    (hsegs : ∀ s ∈ segs, s ≠ [] ∧ ∀ c ∈ s,
      (!(jsWs c || c.toNat == 47)) = true ∧ c.toNat ≠ 58)
    (h3 : 3 ≤ segs.length)
    (hfb : fb ≠ [] ∧ ∀ c ∈ fb, plainChar c = true)
    (hfe : fe ≠ [] ∧ ∀ c ∈ fe, plainChar c = true)
    (hfbrun : hexRunsOk fb = true) (hferun : hexRunsOk fe = true) :
    normalizeChars (normalizeChars (pathStr segs (fb ++ '.' :: fe))) =
      normalizeChars (pathStr segs (fb ++ '.' :: fe)) := by
  rw [path_normalizeChars_dotfile segs fb fe hsegs h3 hfb hfe hfbrun hferun]
  exact normalizeChars_id_dotword fb fe hfb.2 hfe.2 hfbrun hferun

theorem noDoubleSpace_dotSpoken :
    ∀ labels : List (List Char),
      (∀ s ∈ labels, s ≠ [] ∧ ∀ c ∈ s, c ≠ ' ') →
      noDoubleSpace (dotSpoken labels) = true := by
  intro labels
  induction labels with
  | nil => intro _; rfl
  | cons s rest ih =>
    intro h
    cases rest with
    | nil => exact noDoubleSpace_of_no_space s (h s (by simp)).2
    | cons t rest2 =>
      obtain ⟨c1, t2, rfl⟩ : ∃ c1 t2, t = c1 :: t2 := by
        rcases ht : t with _ | ⟨c1, t2⟩
        · rw [ht] at h
          exact absurd rfl (h [] (by simp)).1
        · exact ⟨c1, t2, rfl⟩
      rw [show dotSpoken (s :: (c1 :: t2) :: rest2) =
          (s ++ [' ', 'd', 'o', 't', ' ']) ++ dotSpoken ((c1 :: t2) :: rest2)
          from by simp [dotSpoken]]
      have hsfree : ∀ c ∈ s, c ≠ ' ' := (h s (by simp)).2
      apply noDoubleSpace_append
      · apply noDoubleSpace_append s [' ', 'd', 'o', 't', ' ']
          (noDoubleSpace_of_no_space s hsfree) (by decide)
        intro hcontra
        exact hsfree ' ' (mem_of_getLast? hcontra.1) rfl
      · exact ih (fun u hu => h u (List.mem_cons_of_mem s hu))
      · intro hcontra
        have hhd := dotSpoken_head? c1 t2 rest2
        rw [hcontra.2] at hhd
        injection hhd with hc1
        exact (h (c1 :: t2) (by simp)).2 c1 (by simp) hc1.symm

theorem dotSpoken_getLast?_pred (p : Char → Bool) :
    ∀ labels : List (List Char),
      (∀ s ∈ labels, s ≠ [] ∧ ∀ c ∈ s, p c = true) →
      ∀ c, (dotSpoken labels).getLast? = some c → p c = true := by
  intro labels
  induction labels with
  | nil => intro _ c hc; cases hc
  | cons s rest ih =>
    intro h c hc
    cases rest with
    | nil => exact (h s (by simp)).2 c (mem_of_getLast? hc)
    | cons t rest2 =>
      obtain ⟨c1, t2, rfl⟩ : ∃ c1 t2, t = c1 :: t2 := by
        rcases ht : t with _ | ⟨c1, t2⟩
        · rw [ht] at h
          exact absurd rfl (h [] (by simp)).1
        · exact ⟨c1, t2, rfl⟩
      have hdsne : dotSpoken ((c1 :: t2) :: rest2) ≠ [] := by
        intro hnil
        have := dotSpoken_head? c1 t2 rest2
        rw [hnil] at this
        cases this
      rw [show dotSpoken (s :: (c1 :: t2) :: rest2) =
          (s ++ [' ', 'd', 'o', 't', ' ']) ++ dotSpoken ((c1 :: t2) :: rest2)
          from by simp [dotSpoken]] at hc
      rw [List.getLast?_append_of_ne_nil _ hdsne] at hc
      exact ih (fun u hu => h u (List.mem_cons_of_mem s hu)) c hc

theorem map_joinSep (f : Char → Char) (sep : Char) (hf : f sep = sep) :
    ∀ L : List (List Char),
      (joinSep sep L).map f = joinSep sep (L.map (List.map f)) := by
  intro L
  induction L with
  | nil => rfl
  | cons s rest ih =>
    cases rest with
    | nil => rfl
    | cons t rest2 =>
      show (s ++ sep :: joinSep sep (t :: rest2)).map f =
        s.map f ++ sep :: joinSep sep ((t :: rest2).map (List.map f))
      rw [List.map_append, List.map_cons, hf, ih]

theorem takeWhile_stop (p : Char → Bool) (a b : List Char)
    (ha : ∀ c ∈ a, p c = true)
    (hb : b = [] ∨ ∃ d b2, b = d :: b2 ∧ p d = false) :
    (a ++ b).takeWhile p = a := by
  rcases hb with rfl | ⟨d, b2, rfl, hd⟩
  · rw [List.append_nil]
    exact takeWhile_all p a ha
  · exact takeWhile_append_not a d b2 ha hd

theorem auth_pred_hostChar {c : Char} (h : hostChar c = true) :
    (!(c.toNat == 47 || c.toNat == 63 || c.toNat == 35)) = true := by
  have := hostChar_toNat h
  simp only [Bool.not_eq_eq_eq_not, Bool.not_true, Bool.or_eq_false_iff,
    beq_eq_false_iff_ne, ne_eq]
  omega

theorem isDigitChar_toNat {c : Char} (h : isDigitChar c = true) :
    48 ≤ c.toNat ∧ c.toNat ≤ 57 := by
  simpa [isDigitChar] using h

theorem joinSep_cons_shape (sep : Char) (c1 : Char) (L1 : List Char) :
    ∀ rest : List (List Char),
      ∃ t, joinSep sep ((c1 :: L1) :: rest) = c1 :: t := by
  intro rest
  cases rest with
  | nil => exact ⟨L1, rfl⟩
  | cons u r2 => exact ⟨L1 ++ sep :: joinSep sep (u :: r2), rfl⟩

theorem hostChar_not_delim {c : Char} (h : hostChar c = true) :
    urlDelim c = false := by
  have := hostChar_toNat h
  simp only [urlDelim, Bool.or_eq_false_iff, beq_eq_false_iff_ne, ne_eq]
  refine ⟨⟨⟨⟨jsWs_eq_false_of_toNat (by omega), by omega⟩, by omega⟩,
    by omega⟩, by omega⟩

/-- The WHATWG hostname of the URL family: the lower-cased dotted host. -/
theorem urlHostname_url (secure : Bool) (labels : List (List Char))
    (port : Option (List Char)) (path : List Char)
    (hne : labels ≠ [])
    (hlabels : ∀ s ∈ labels, s ≠ [] ∧ ∀ c ∈ s, hostChar c = true)
    (hport : ∀ p, port = some p → ∀ c ∈ p, isDigitChar c = true)
    (hpath : path = [] ∨ path.head? = some '/' ∨ path.head? = some '?' ∨
      path.head? = some '#') :
    urlHostname (urlStr secure labels port path) =
      some ((joinSep '.' labels).map jsToLowerChar) := by
  obtain ⟨L, rest, rfl⟩ : ∃ L rest, labels = L :: rest := by
    cases labels with
    | nil => exact absurd rfl hne
    | cons L rest => exact ⟨L, rest, rfl⟩
  obtain ⟨c1, L1, rfl⟩ : ∃ c1 L1, L = c1 :: L1 := by
    rcases hL : L with _ | ⟨c1, L1⟩
    · rw [hL] at hlabels
      exact absurd rfl (hlabels [] (by simp)).1
    · exact ⟨c1, L1, rfl⟩
  have hc1 : hostChar c1 = true :=
    (hlabels (c1 :: L1) (by simp)).2 c1 (by simp)
  have hostmem : ∀ c ∈ joinSep '.' ((c1 :: L1) :: rest),
      hostChar c = true ∨ c = '.' := by
    intro c hc
    rcases mem_joinSep _ hc with h | ⟨s, hs, hcs⟩
    · exact Or.inr h
    · exact Or.inl ((hlabels s hs).2 c hcs)
  have hostne : joinSep '.' ((c1 :: L1) :: rest) ≠ [] :=
    joinSep_ne_nil '.' c1 L1 rest
  have hPortMem : ∀ c ∈ optPort port, c = ':' ∨ isDigitChar c = true := by
    cases port with
    | none => intro c hc; cases hc
    | some p =>
      intro c hc
      rcases List.mem_cons.mp hc with rfl | hc2
      · exact Or.inl rfl
      · exact Or.inr (hport p rfl c hc2)
  have hauth : (joinSep '.' ((c1 :: L1) :: rest) ++
      (optPort port ++ path)).takeWhile
      (fun c => !(c.toNat == 47 || c.toNat == 63 || c.toNat == 35)) =
      joinSep '.' ((c1 :: L1) :: rest) ++ optPort port := by
    rw [← List.append_assoc]
    apply takeWhile_stop
    · intro c hc
      rcases List.mem_append.mp hc with h | h
      · rcases hostmem c h with h2 | rfl
        · exact auth_pred_hostChar h2
        · decide
      · rcases hPortMem c h with rfl | h2
        · decide
        · have := isDigitChar_toNat h2
          simp only [Bool.not_eq_eq_eq_not, Bool.not_true,
            Bool.or_eq_false_iff, beq_eq_false_iff_ne, ne_eq]
          omega
    · rcases hpath with rfl | hh | hh | hh
      · exact Or.inl rfl
      · rcases path with _ | ⟨d, pt⟩
        · exact absurd hh (by simp)
        · rw [List.head?_cons] at hh
          injection hh with hh
          subst hh
          exact Or.inr ⟨'/', pt, rfl, by decide⟩
      · rcases path with _ | ⟨d, pt⟩
        · exact absurd hh (by simp)
        · rw [List.head?_cons] at hh
          injection hh with hh
          subst hh
          exact Or.inr ⟨'?', pt, rfl, by decide⟩
      · rcases path with _ | ⟨d, pt⟩
        · exact absurd hh (by simp)
        · rw [List.head?_cons] at hh
          injection hh with hh
          subst hh
          exact Or.inr ⟨'#', pt, rfl, by decide⟩
  have hNoAt : ∀ c ∈ joinSep '.' ((c1 :: L1) :: rest) ++ optPort port,
      c.toNat ≠ 64 := by
    intro c hc
    rcases List.mem_append.mp hc with h | h
    · rcases hostmem c h with h2 | rfl
      · have := hostChar_toNat h2; omega
      · decide
    · rcases hPortMem c h with rfl | h2
      · decide
      · have := isDigitChar_toNat h2; omega
  have hat : afterLastAt (joinSep '.' ((c1 :: L1) :: rest) ++ optPort port) =
      joinSep '.' ((c1 :: L1) :: rest) ++ optPort port :=
    afterLastAt_no_at _ hNoAt
  obtain ⟨ht, hht⟩ := joinSep_cons_shape '.' c1 L1 rest
  have hhead : (joinSep '.' ((c1 :: L1) :: rest) ++ optPort port).head? =
      some c1 := by
    rw [hht]
    rfl
  have hbr : ¬ ((joinSep '.' ((c1 :: L1) :: rest) ++ optPort port).head? =
      some '[') := by
    rw [hhead]
    intro hx
    injection hx with hx
    have := hostChar_toNat hc1
    rw [hx] at this
    exact absurd this (by decide)
  have hcolon : (joinSep '.' ((c1 :: L1) :: rest) ++ optPort port).takeWhile
      (fun c => !(c.toNat == 58)) = joinSep '.' ((c1 :: L1) :: rest) := by
    apply takeWhile_stop
    · intro c hc
      rcases hostmem c hc with h2 | rfl
      · have := hostChar_toNat h2
        simp only [Bool.not_eq_eq_eq_not, Bool.not_true,
          beq_eq_false_iff_ne, ne_eq]
        omega
      · decide
    · cases port with
      | none => exact Or.inl rfl
      | some p => exact Or.inr ⟨':', p, rfl, by decide⟩
  have hdropPort : (joinSep '.' ((c1 :: L1) :: rest) ++ optPort port).drop
      ((joinSep '.' ((c1 :: L1) :: rest)).length + 1) = portTail port := by
    cases port with
    | none =>
      show (joinSep '.' ((c1 :: L1) :: rest) ++ []).drop _ = []
      rw [List.append_nil]
      exact List.drop_eq_nil_of_le (by omega)
    | some p =>
      show (joinSep '.' ((c1 :: L1) :: rest) ++ ':' :: p).drop _ = p
      rw [show joinSep '.' ((c1 :: L1) :: rest) ++ ':' :: p =
          (joinSep '.' ((c1 :: L1) :: rest) ++ [':']) ++ p from by simp]
      rw [show (joinSep '.' ((c1 :: L1) :: rest)).length + 1 =
          ((joinSep '.' ((c1 :: L1) :: rest)) ++ [':']).length from by simp]
      exact List.drop_left _ p
  have hPortDigits : (portTail port).all isDigitChar = true := by
    cases port with
    | none => rfl
    | some p =>
      rw [List.all_eq_true]
      intro c hc
      exact hport p rfl c hc
  have hie : ¬ ((joinSep '.' ((c1 :: L1) :: rest) ++
      optPort port).isEmpty = true) := by
    simp [List.isEmpty_iff, hostne]
  have hie2 : ¬ ((joinSep '.' ((c1 :: L1) :: rest)).isEmpty = true) := by
    simp [List.isEmpty_iff, hostne]
  unfold urlHostname urlStr
  rw [schemeSplit_schL]
  split
  · rename_i heq
    cases heq
  · rename_i sch rrest heq
    injection heq with h1
    injection h1 with h2 h3
    subst h3
    simp only [hauth, hat, hcolon, hdropPort]
    rw [if_neg hie]
    rw [if_neg hbr]
    rw [if_neg hie2]
    rw [if_pos hPortDigits]

theorem isDigitChar_not_delim {c : Char} (h : isDigitChar c = true) :
    urlDelim c = false := by
  have := isDigitChar_toNat h
  simp only [urlDelim, Bool.or_eq_false_iff, beq_eq_false_iff_ne, ne_eq]
  refine ⟨⟨⟨⟨jsWs_eq_false_of_toNat (by omega), by omega⟩, by omega⟩,
    by omega⟩, by omega⟩

/-- `simplifyUrl` on the URL family: the spoken lower-cased host. -/
theorem simplifyUrl_url (secure : Bool) (labels : List (List Char))
    (port : Option (List Char)) (path : List Char)
    (hne : labels ≠ [])
    (hlabels : ∀ s ∈ labels, s ≠ [] ∧ ∀ c ∈ s, hostChar c = true)
    (hport : ∀ p, port = some p → ∀ c ∈ p, isDigitChar c = true)
    (hpath : path = [] ∨ path.head? = some '/' ∨ path.head? = some '?' ∨
      path.head? = some '#')
    (hwww : List.isPrefixOf "www.".toList
      ((joinSep '.' labels).map jsToLowerChar) = false) :
    simplifyUrl (urlStr secure labels port path) =
      expandDots ((joinSep '.' labels).map jsToLowerChar) := by
  have hw2 : ¬ (['w', 'w', 'w', '.'] <+:
      (joinSep '.' labels).map jsToLowerChar) := by
    rw [← List.isPrefixOf_iff_prefix]
    simp [show List.isPrefixOf ['w', 'w', 'w', '.']
      ((joinSep '.' labels).map jsToLowerChar) = false from hwww]
  unfold simplifyUrl
  rw [urlHostname_url secure labels port path hne hlabels hport hpath]
  simp only [stripWww]
  simp
  rw [if_neg hw2]

/-- Pass 1 on the URL family: the whole URL is matched and replaced by the
spoken host. -/
theorem pass1_url (secure : Bool) (labels : List (List Char))
    (port : Option (List Char)) (path : List Char)
    (hne : labels ≠ [])
    (hlabels : ∀ s ∈ labels, s ≠ [] ∧ ∀ c ∈ s, hostChar c = true)
    (hport : ∀ p, port = some p → ∀ c ∈ p, isDigitChar c = true)
    (hpath : path = [] ∨ path.head? = some '/' ∨ path.head? = some '?' ∨
      path.head? = some '#')
    (hpd : ∀ c ∈ path, urlDelim c = false)
    (hwww : List.isPrefixOf "www.".toList
      ((joinSep '.' labels).map jsToLowerChar) = false) :
    pass1 (urlStr secure labels port path) =
      expandDots ((joinSep '.' labels).map jsToLowerChar) := by
  obtain ⟨L, rest0, rfl⟩ : ∃ L rest0, labels = L :: rest0 := by
    cases labels with
    | nil => exact absurd rfl hne
    | cons L rest0 => exact ⟨L, rest0, rfl⟩
  obtain ⟨c1, L1, rfl⟩ : ∃ c1 L1, L = c1 :: L1 := by
    rcases hL : L with _ | ⟨c1, L1⟩
    · rw [hL] at hlabels
      exact absurd rfl (hlabels [] (by simp)).1
    · exact ⟨c1, L1, rfl⟩
  have hostne : joinSep '.' ((c1 :: L1) :: rest0) ≠ [] :=
    joinSep_ne_nil '.' c1 L1 rest0
  have hXne : joinSep '.' ((c1 :: L1) :: rest0) ++
      (optPort port ++ path) ≠ [] := by
    intro hx
    exact hostne (List.append_eq_nil.mp hx).1
  have hbody : (joinSep '.' ((c1 :: L1) :: rest0) ++
      (optPort port ++ path)).takeWhile (fun x => !urlDelim x) =
      joinSep '.' ((c1 :: L1) :: rest0) ++ (optPort port ++ path) := by
    apply takeWhile_all
    intro c hc
    rcases List.mem_append.mp hc with h | h
    · rcases mem_joinSep _ h with h2 | ⟨s, hs, hcs⟩
      · rw [h2]; decide
      · rw [hostChar_not_delim ((hlabels s hs).2 c hcs)]; rfl
    · rcases List.mem_append.mp h with h2 | h2
      · cases port with
        | none => cases h2
        | some p =>
          rcases List.mem_cons.mp h2 with rfl | h3
          · decide
          · rw [isDigitChar_not_delim (hport p rfl c h3)]; rfl
      · rw [hpd c h2]; rfl
  have hsu := simplifyUrl_url secure ((c1 :: L1) :: rest0) port path hne
    hlabels hport hpath hwww
  unfold pass1
  cases secure with
  | true =>
    rw [show urlStr true ((c1 :: L1) :: rest0) port path =
        'h' :: ("ttps://".toList ++ (joinSep '.' ((c1 :: L1) :: rest0) ++
          (optPort port ++ path))) from rfl]
    simp only [pass1Go]
    have hss : schemeSplit ('h' :: ("ttps://".toList ++
        (joinSep '.' ((c1 :: L1) :: rest0) ++ (optPort port ++ path)))) =
        some ("https://".toList, joinSep '.' ((c1 :: L1) :: rest0) ++
          (optPort port ++ path)) := by
      rw [show 'h' :: ("ttps://".toList ++
          (joinSep '.' ((c1 :: L1) :: rest0) ++ (optPort port ++ path))) =
          schL true ++ (joinSep '.' ((c1 :: L1) :: rest0) ++
            (optPort port ++ path)) from rfl]
      exact schemeSplit_schL true _
    rw [hss]
    have hsu2 : simplifyUrl ("https://".toList ++
        (joinSep '.' ((c1 :: L1) :: rest0) ++ (optPort port ++ path))) =
        expandDots ((joinSep '.' ((c1 :: L1) :: rest0)).map jsToLowerChar) := by
      rw [show "https://".toList ++ (joinSep '.' ((c1 :: L1) :: rest0) ++
          (optPort port ++ path)) = urlStr true ((c1 :: L1) :: rest0) port path
          from rfl]
      exact hsu
    simp [hbody, List.isEmpty_iff, hXne, List.drop_length, pass1Go_nil, hsu2]
    exact hsu
  | false =>
    rw [show urlStr false ((c1 :: L1) :: rest0) port path =
        'h' :: ("ttp://".toList ++ (joinSep '.' ((c1 :: L1) :: rest0) ++
          (optPort port ++ path))) from rfl]
    simp only [pass1Go]
    have hss : schemeSplit ('h' :: ("ttp://".toList ++
        (joinSep '.' ((c1 :: L1) :: rest0) ++ (optPort port ++ path)))) =
        some ("http://".toList, joinSep '.' ((c1 :: L1) :: rest0) ++
          (optPort port ++ path)) := by
      rw [show 'h' :: ("ttp://".toList ++
          (joinSep '.' ((c1 :: L1) :: rest0) ++ (optPort port ++ path))) =
          schL false ++ (joinSep '.' ((c1 :: L1) :: rest0) ++
            (optPort port ++ path)) from rfl]
      exact schemeSplit_schL false _
    rw [hss]
    have hsu2 : simplifyUrl ("http://".toList ++
        (joinSep '.' ((c1 :: L1) :: rest0) ++ (optPort port ++ path))) =
        expandDots ((joinSep '.' ((c1 :: L1) :: rest0)).map jsToLowerChar) := by
      rw [show "http://".toList ++ (joinSep '.' ((c1 :: L1) :: rest0) ++
          (optPort port ++ path)) = urlStr false ((c1 :: L1) :: rest0) port path
          from rfl]
      exact hsu
    simp [hbody, List.isEmpty_iff, hXne, List.drop_length, pass1Go_nil, hsu2]
    exact hsu

/-- The normalizer is the identity on an already-spoken host of plain
labels. -/
theorem normalizeChars_id_dotSpoken (labels : List (List Char))
    (hlabels : ∀ s ∈ labels, s ≠ [] ∧ ∀ c ∈ s, plainChar c = true)
    (hruns : ∀ s ∈ labels, hexRunsOk s = true) :
    normalizeChars (dotSpoken labels) = dotSpoken labels := by
  have hchars : ∀ c ∈ dotSpoken labels, plainChar c = true ∨ c = ' ' := by
    intro c hc
    rcases mem_dotSpoken labels hc with h | h | h | h | ⟨s, hs, hcs⟩
    · exact Or.inr h
    · exact Or.inl (by rw [h]; decide)
    · exact Or.inl (by rw [h]; decide)
    · exact Or.inl (by rw [h]; decide)
    · exact Or.inl ((hlabels s hs).2 c hcs)
  have hslash : (dotSpoken labels).count '/' = 0 := by
    apply count_eq_zero_of_pred
    intro c hc
    rcases hchars c hc with h | rfl
    · exact (plainChar_props h).2.1
    · decide
  unfold normalizeChars
  rw [pass1_id _ (by
    intro c hc
    rcases hchars c hc with h | rfl
    · exact (plainChar_props h).1
    · decide)]
  rw [pass2_id _ (by rw [hslash]; omega)]
  rw [pass3_id _ (by rw [hslash]; omega)]
  rw [pass4_id_runs _ (hexRunsOk_dotSpoken labels hruns)]
  rw [pass5_id_nodot _ (by
    intro c hc
    rcases hchars c hc with h | rfl
    · exact (plainChar_props h).2.2.1
    · decide)]
  apply pass6_id
  · exact noDoubleSpace_dotSpoken labels (fun s hs =>
      ⟨(hlabels s hs).1, fun c hc =>
        (plainChar_props ((hlabels s hs).2 c hc)).2.2.2.1⟩)
  · intro c hc
    cases labels with
    | nil => cases hc
    | cons L rest =>
      obtain ⟨c1, L2, rfl⟩ : ∃ c1 L2, L = c1 :: L2 := by
        rcases hL : L with _ | ⟨c1, L2⟩
        · rw [hL] at hlabels
          exact absurd rfl (hlabels [] (by simp)).1
        · exact ⟨c1, L2, rfl⟩
      rw [dotSpoken_head?] at hc
      injection hc with hc2
      rw [← hc2]
      exact (plainChar_props
        ((hlabels (c1 :: L2) (by simp)).2 c1 (by simp))).2.2.2.2.1
  · intro c hc
    exact (plainChar_props
      (dotSpoken_getLast?_pred plainChar labels hlabels c hc)).2.2.2.2.1

/-- What the normalizer does to the URL family: the spoken lower-cased
hostname. -/
theorem url_normalizeChars (secure : Bool) (labels : List (List Char))
    (port : Option (List Char)) (path : List Char)
    (hne : labels ≠ [])
    (hlabels : ∀ s ∈ labels, s ≠ [] ∧ ∀ c ∈ s, hostChar c = true)
    (hruns : ∀ s ∈ labels, hexRunsOk (s.map jsToLowerChar) = true)
    (hport : ∀ p, port = some p → ∀ c ∈ p, isDigitChar c = true)
    (hpath : path = [] ∨ path.head? = some '/' ∨ path.head? = some '?' ∨
      path.head? = some '#')
    (hpd : ∀ c ∈ path, urlDelim c = false)
    (hwww : List.isPrefixOf "www.".toList
      ((joinSep '.' labels).map jsToLowerChar) = false) :
    normalizeChars (urlStr secure labels port path) =
      dotSpoken (labels.map (List.map jsToLowerChar)) := by
  have hlowlab : ∀ s ∈ labels.map (List.map jsToLowerChar),
      s ≠ [] ∧ ∀ c ∈ s, plainChar c = true := by
    intro s hs
    obtain ⟨t, ht, rfl⟩ := List.mem_map.mp hs
    refine ⟨by simp [(hlabels t ht).1], ?_⟩
    intro c hc
    obtain ⟨x, hx, rfl⟩ := List.mem_map.mp hc
    exact jsToLower_plain_of_hostChar ((hlabels t ht).2 x hx)
  have hlowruns : ∀ s ∈ labels.map (List.map jsToLowerChar),
      hexRunsOk s = true := by
    intro s hs
    obtain ⟨t, ht, rfl⟩ := List.mem_map.mp hs
    exact hruns t ht
  have hid := normalizeChars_id_dotSpoken _ hlowlab hlowruns
  unfold normalizeChars at hid ⊢
  rw [pass1_url secure labels port path hne hlabels hport hpath hpd hwww]
  rw [map_joinSep jsToLowerChar '.' (by decide) labels]
  rw [expandDots_joinSep _ (by
    intro s hs c hc
    obtain ⟨t, ht, rfl⟩ := List.mem_map.mp hs
    obtain ⟨x, hx, rfl⟩ := List.mem_map.mp hc
    exact jsToLower_toNat_of_hostChar ((hlabels t ht).2 x hx))]
  rw [pass1_id _ (by
    intro c hc
    rcases mem_dotSpoken _ hc with h | h | h | h | ⟨s, hs, hcs⟩
    · rw [h]; decide
    · rw [h]; decide
    · rw [h]; decide
    · rw [h]; decide
    · exact (plainChar_props ((hlowlab s hs).2 c hcs)).1)] at hid
  exact hid

/-- Idempotence on the URL family. -/
theorem url_idem (secure : Bool) (labels : List (List Char))
    (port : Option (List Char)) (path : List Char)
    (hne : labels ≠ [])
    (hlabels : ∀ s ∈ labels, s ≠ [] ∧ ∀ c ∈ s, hostChar c = true)
    (hruns : ∀ s ∈ labels, hexRunsOk (s.map jsToLowerChar) = true)
    (hport : ∀ p, port = some p → ∀ c ∈ p, isDigitChar c = true)
    (hpath : path = [] ∨ path.head? = some '/' ∨ path.head? = some '?' ∨
      path.head? = some '#')
    (hpd : ∀ c ∈ path, urlDelim c = false)
    (hwww : List.isPrefixOf "www.".toList
      ((joinSep '.' labels).map jsToLowerChar) = false) :
    normalizeChars (normalizeChars (urlStr secure labels port path)) =
      normalizeChars (urlStr secure labels port path) := by
  rw [url_normalizeChars secure labels port path hne hlabels hruns hport
    hpath hpd hwww]
  apply normalizeChars_id_dotSpoken
  · intro s hs
    obtain ⟨t, ht, rfl⟩ := List.mem_map.mp hs
    refine ⟨by simp [(hlabels t ht).1], ?_⟩
    intro c hc
    obtain ⟨x, hx, rfl⟩ := List.mem_map.mp hc
    exact jsToLower_plain_of_hostChar ((hlabels t ht).2 x hx)
  · intro s hs
    obtain ⟨t, ht, rfl⟩ := List.mem_map.mp hs
    exact hruns t ht

set_option maxHeartbeats 2000000 in
/-- C8: the text normalizer is idempotent on its own outputs,
`normalize(normalize(s)) == normalize(s)`, for every input of the four
claimed families: an `http(s)` URL (dotted host of letters, digits and
hyphens in either case, an optional numeric port and an optional
path/query/fragment, with no `www.` prefix and no host label that pass 4
would rewrite as a hash), an absolute file path with four or more
segments (with either a dot-free file name, kept as `parent/file`, or a
`base.ext` file name, kept alone), a 32-character hexadecimal string of
either case, and a four-segment dotted identifier of
`[a-zA-Z][a-zA-Z0-9]*` segments whose case-folded last segment is not a
known extension (and no segment that pass 4 would rewrite as a hash). -/
theorem normalizeTTSText_idem_families :
    (∀ (secure : Bool) (labels : List (List Char))
        (port : Option (List Char)) (path : List Char),
      labels ≠ [] →
      (∀ s ∈ labels, s ≠ [] ∧ ∀ c ∈ s, hostChar c = true) →
      (∀ s ∈ labels, hexRunsOk (s.map jsToLowerChar) = true) →
      (∀ p, port = some p → ∀ c ∈ p, isDigitChar c = true) →
      (path = [] ∨ path.head? = some '/' ∨ path.head? = some '?' ∨
        path.head? = some '#') →
      (∀ c ∈ path, urlDelim c = false) →
      List.isPrefixOf "www.".toList
        ((joinSep '.' labels).map jsToLowerChar) = false →
      normalizeTTSText (normalizeTTSText
          (String.mk (urlStr secure labels port path))) =
        normalizeTTSText (String.mk (urlStr secure labels port path))) ∧
    (∀ (mid : List (List Char)) (P F : List Char),
      (∀ s ∈ mid, s ≠ [] ∧ ∀ c ∈ s,
        (!(jsWs c || c.toNat == 47)) = true ∧ c.toNat ≠ 58) →
      2 ≤ mid.length →
      (P ≠ [] ∧ ∀ c ∈ P, plainChar c = true) →
      (F ≠ [] ∧ ∀ c ∈ F, plainChar c = true) →
      hexRunsOk P = true → hexRunsOk F = true →
      normalizeTTSText (normalizeTTSText
          (String.mk (pathStr (mid ++ [P]) F))) =
        normalizeTTSText (String.mk (pathStr (mid ++ [P]) F))) ∧
    (∀ (segs : List (List Char)) (fb fe : List Char),
      (∀ s ∈ segs, s ≠ [] ∧ ∀ c ∈ s,
        (!(jsWs c || c.toNat == 47)) = true ∧ c.toNat ≠ 58) →
      3 ≤ segs.length →
      (fb ≠ [] ∧ ∀ c ∈ fb, plainChar c = true) →
      (fe ≠ [] ∧ ∀ c ∈ fe, plainChar c = true) →
      hexRunsOk fb = true → hexRunsOk fe = true →
      normalizeTTSText (normalizeTTSText
          (String.mk (pathStr segs (fb ++ '.' :: fe)))) =
        normalizeTTSText (String.mk (pathStr segs (fb ++ '.' :: fe)))) ∧
    (∀ s : List Char, s.length = 32 → (∀ c ∈ s, isHexChar c = true) →
      normalizeTTSText (normalizeTTSText (String.mk s)) =
        normalizeTTSText (String.mk s)) ∧
    (∀ A B C D : List Char,
      identSeg A = true → identSeg B = true → identSeg C = true →
      identSeg D = true →
      hexRunsOk A = true → hexRunsOk B = true → hexRunsOk C = true →
      hexRunsOk D = true →
      D.map jsToLowerChar ∉ knownExts →
      normalizeTTSText (normalizeTTSText (String.mk (dottedStr A B C D))) =
        normalizeTTSText (String.mk (dottedStr A B C D))) := by
  refine ⟨?_, ?_, ?_, ?_, ?_⟩
  · intro secure labels port path hne hlabels hruns hport hpath hpd hwww
    exact congrArg String.mk
      (url_idem secure labels port path hne hlabels hruns hport hpath hpd hwww)
  · intro mid P F hmid h2 hP hF hPrun hFrun
    exact congrArg String.mk (path_nodot_idem mid P F hmid h2 hP hF hPrun hFrun)
  · intro segs fb fe hsegs h3 hfb hfe hfbrun hferun
    exact congrArg String.mk
      (path_dotfile_idem segs fb fe hsegs h3 hfb hfe hfbrun hferun)
  · intro s hlen hall
    exact congrArg String.mk (hex32_idem s hlen hall)
  · intro A B C D hA hB hC hD hArun hBrun hCrun hDrun hfree
    exact congrArg String.mk
      (dotted_idem A B C D hA hB hC hD hArun hBrun hCrun hDrun hfree)

/-- Witness for C8: concrete members of each family — the URL
`https://api.example.com/v2/users/123?q=foo`, the paths
`/Users/jeff/dev/hooks` and `/Users/jeff/dev/hooks/lib/config.ts`, a
mixed-case 32-character hex string, and `com.example.foo.BarService`. -/
theorem normalizeTTSText_idem_families_witness :
    (normalizeTTSText (normalizeTTSText (String.mk (urlStr true
        [['a', 'p', 'i'], ['e', 'x', 'a', 'm', 'p', 'l', 'e'],
          ['c', 'o', 'm']] none
        ['/', 'v', '2', '/', 'u', 's', 'e', 'r', 's', '/', '1', '2', '3',
          '?', 'q', '=', 'f', 'o', 'o']))) =
      normalizeTTSText (String.mk (urlStr true
        [['a', 'p', 'i'], ['e', 'x', 'a', 'm', 'p', 'l', 'e'],
          ['c', 'o', 'm']] none
        ['/', 'v', '2', '/', 'u', 's', 'e', 'r', 's', '/', '1', '2', '3',
          '?', 'q', '=', 'f', 'o', 'o']))) ∧
    (normalizeTTSText (normalizeTTSText (String.mk (pathStr
        ([['U', 's', 'e', 'r', 's'], ['j', 'e', 'f', 'f']] ++
          [['d', 'e', 'v']]) ['h', 'o', 'o', 'k', 's']))) =
      normalizeTTSText (String.mk (pathStr
        ([['U', 's', 'e', 'r', 's'], ['j', 'e', 'f', 'f']] ++
          [['d', 'e', 'v']]) ['h', 'o', 'o', 'k', 's']))) ∧
    (normalizeTTSText (normalizeTTSText (String.mk (pathStr
        [['U', 's', 'e', 'r', 's'], ['j', 'e', 'f', 'f'], ['d', 'e', 'v'],
          ['h', 'o', 'o', 'k', 's'], ['l', 'i', 'b']]
        (['c', 'o', 'n', 'f', 'i', 'g'] ++ '.' :: ['t', 's'])))) =
      normalizeTTSText (String.mk (pathStr
        [['U', 's', 'e', 'r', 's'], ['j', 'e', 'f', 'f'], ['d', 'e', 'v'],
          ['h', 'o', 'o', 'k', 's'], ['l', 'i', 'b']]
        (['c', 'o', 'n', 'f', 'i', 'g'] ++ '.' :: ['t', 's'])))) ∧
    (normalizeTTSText (normalizeTTSText (String.mk
        ['A', '1', 'B', '2', 'C', '3', 'D', '4', 'E', '5', 'F', '6', '7',
          '8', '9', '0', 'A', 'B', 'C', 'D', 'E', 'F', '1', '2', '3', '4',
          '5', '6', '7', '8', '9', '0'])) =
      normalizeTTSText (String.mk
        ['A', '1', 'B', '2', 'C', '3', 'D', '4', 'E', '5', 'F', '6', '7',
          '8', '9', '0', 'A', 'B', 'C', 'D', 'E', 'F', '1', '2', '3', '4',
          '5', '6', '7', '8', '9', '0'])) ∧
    (normalizeTTSText (normalizeTTSText (String.mk (dottedStr
        ['c', 'o', 'm'] ['e', 'x', 'a', 'm', 'p', 'l', 'e'] ['f', 'o', 'o']
        ['B', 'a', 'r', 'S', 'e', 'r', 'v', 'i', 'c', 'e']))) =
      normalizeTTSText (String.mk (dottedStr
        ['c', 'o', 'm'] ['e', 'x', 'a', 'm', 'p', 'l', 'e'] ['f', 'o', 'o']
        ['B', 'a', 'r', 'S', 'e', 'r', 'v', 'i', 'c', 'e']))) :=
  ⟨normalizeTTSText_idem_families.1 true
      [['a', 'p', 'i'], ['e', 'x', 'a', 'm', 'p', 'l', 'e'], ['c', 'o', 'm']]
      none
      ['/', 'v', '2', '/', 'u', 's', 'e', 'r', 's', '/', '1', '2', '3',
        '?', 'q', '=', 'f', 'o', 'o']
      (by decide) (by decide) (by decide) (fun p hp => nomatch hp)
      (by decide) (by decide) (by decide),
    normalizeTTSText_idem_families.2.1
      [['U', 's', 'e', 'r', 's'], ['j', 'e', 'f', 'f']] ['d', 'e', 'v']
      ['h', 'o', 'o', 'k', 's'] (by decide) (by decide) (by decide)
      (by decide) (by decide) (by decide),
    normalizeTTSText_idem_families.2.2.1
      [['U', 's', 'e', 'r', 's'], ['j', 'e', 'f', 'f'], ['d', 'e', 'v'],
        ['h', 'o', 'o', 'k', 's'], ['l', 'i', 'b']]
      ['c', 'o', 'n', 'f', 'i', 'g'] ['t', 's'] (by decide) (by decide)
      (by decide) (by decide) (by decide) (by decide),
    normalizeTTSText_idem_families.2.2.2.1
      ['A', '1', 'B', '2', 'C', '3', 'D', '4', 'E', '5', 'F', '6', '7',
        '8', '9', '0', 'A', 'B', 'C', 'D', 'E', 'F', '1', '2', '3', '4',
        '5', '6', '7', '8', '9', '0'] (by decide) (by decide),
    normalizeTTSText_idem_families.2.2.2.2
      ['c', 'o', 'm'] ['e', 'x', 'a', 'm', 'p', 'l', 'e'] ['f', 'o', 'o']
      ['B', 'a', 'r', 'S', 'e', 'r', 'v', 'i', 'c', 'e'] (by decide)
      (by decide) (by decide) (by decide) (by decide) (by decide)
      (by decide) (by decide) (by decide)⟩

end Hooks
